import Mathlib

/-
  Verification of the toipe text-generation engine.

  Shallow embedding of src/trie.rs and src/textgen.rs:
  - Rust String values are modeled as List Char.
  - Rust HashMap<String, usize> children maps are modeled as association
    lists in insertion order (HashMap iteration order is unspecified in
    Rust; insertion order is the canonical determinization used here).
  - Rust u64 / usize are modeled as Nat (no operation in the modeled code
    can overflow within the scope of the claims).
  - Loops over arena indices (Trie::compress, Trie::sample) are embedded
    with an explicit fuel parameter; a result of none models
    non-termination or an out-of-bounds vector-index panic, neither of
    which occurs on tries reachable through the public API (proved below).
-/

namespace Toipe

/-- Arena node, from src/trie.rs struct Node. -/
structure Node where
  children : List (List Char × Nat)
  count : Nat
deriving DecidableEq, Repr

/-- Node::new. -/
def Node.new : Node := ⟨[], 0⟩

/-- The trie, from src/trie.rs struct Trie: an arena of nodes, index 0 is the root. -/
structure Trie where
  nodes : List Node
deriving DecidableEq, Repr

/-- TrieErr, from src/trie.rs: either a structural missing-node failure or the
empty-corpus sampling failure. -/
inductive TrieErr where
  | missingNode (index : Nat)
  | emptyTrie
deriving DecidableEq, Repr

instance {ε α : Type} [DecidableEq ε] [DecidableEq α] : DecidableEq (Except ε α) :=
  fun a b =>
    match a, b with
    | Except.ok x, Except.ok y =>
      if h : x = y then isTrue (by rw [h])
      else isFalse (fun hc => h (by cases hc; rfl))
    | Except.error x, Except.error y =>
      if h : x = y then isTrue (by rw [h])
      else isFalse (fun hc => h (by cases hc; rfl))
    | Except.ok _, Except.error _ => isFalse (fun hc => Except.noConfusion hc)
    | Except.error _, Except.ok _ => isFalse (fun hc => Except.noConfusion hc)

/-- Trie::new: a single empty root node. -/
def Trie.new : Trie := ⟨[Node.new]⟩

/-- Lookup in a children map (HashMap::get), first entry with the given key. -/
def assocGet (m : List (List Char × Nat)) (k : List Char) : Option Nat :=
  match m with
  | [] => none
  | (k', v) :: rest => if k' = k then some v else assocGet rest k

/-- HashMap::remove_entry: drop the entry with the given key. -/
def assocErase (m : List (List Char × Nat)) (k : List Char) : List (List Char × Nat) :=
  match m with
  | [] => []
  | (k', v) :: rest => if k' = k then rest else (k', v) :: assocErase rest k

/-- HashMap::insert: replace the value if the key is present, else append. -/
def assocInsert (m : List (List Char × Nat)) (k : List Char) (v : Nat) :
    List (List Char × Nat) :=
  match m with
  | [] => [(k, v)]
  | (k', v') :: rest => if k' = k then (k', v) :: rest else (k', v') :: assocInsert rest k v

/-- HashMap::get_mut followed by an assignment of the value at a key. -/
def assocSetValue (m : List (List Char × Nat)) (k : List Char) (v : Nat) :
    List (List Char × Nat) :=
  match m with
  | [] => []
  | (k', v') :: rest => if k' = k then (k', v) :: rest else (k', v') :: assocSetValue rest k v

/-- Trie::get_node. -/
def Trie.getNode (t : Trie) (index : Nat) : Except TrieErr Node :=
  match t.nodes[index]? with
  | none => Except.error (TrieErr.missingNode index)
  | some nd => Except.ok nd

/-- Arena update helper (the effect of mutating through get_mut_node). -/
def Trie.setNode (t : Trie) (index : Nat) (nd : Node) : Trie := ⟨t.nodes.set index nd⟩

/-- Trie::add_node: allocate a fresh child node under the given parent, unless an
entry with that key already exists. -/
def Trie.addNode (t : Trie) (parentIndex : Nat) (pfx : List Char) :
    Except TrieErr (Trie × Nat) :=
  let index := t.nodes.length
  match t.nodes[parentIndex]? with
  | none => Except.error (TrieErr.missingNode parentIndex)
  | some parent =>
    match assocGet parent.children pfx with
    | some i => Except.ok (t, i)
    | none =>
      Except.ok (⟨(t.nodes.set parentIndex ⟨parent.children ++ [(pfx, index)], parent.count⟩)
          ++ [Node.new]⟩, index)

/-- The loop of Trie::insert, one character per step: bump the count of the
current node, then descend into (or create) the child keyed by that character;
at the end of the word, bump the terminal node's count once more. -/
def Trie.insertGo (t : Trie) (nodeIndex : Nat) (w : List Char) : Except TrieErr Trie :=
  match w with
  | [] =>
    match t.nodes[nodeIndex]? with
    | none => Except.error (TrieErr.missingNode nodeIndex)
    | some nd => Except.ok (t.setNode nodeIndex ⟨nd.children, nd.count + 1⟩)
  | ch :: rest =>
    match t.nodes[nodeIndex]? with
    | none => Except.error (TrieErr.missingNode nodeIndex)
    | some nd =>
      let t1 := t.setNode nodeIndex ⟨nd.children, nd.count + 1⟩
      match assocGet nd.children [ch] with
      | some index => t1.insertGo index rest
      | none =>
        match t1.addNode nodeIndex [ch] with
        | Except.error e => Except.error e
        | Except.ok (t2, index) => t2.insertGo index rest

/-- Trie::insert. -/
def Trie.insert (t : Trie) (w : List Char) : Except TrieErr Trie := t.insertGo 0 w

/-- Repeated insertion of a corpus, in order. -/
def Trie.insertAll (t : Trie) (ws : List (List Char)) : Except TrieErr Trie :=
  match ws with
  | [] => Except.ok t
  | w :: rest =>
    match t.insert w with
    | Except.error e => Except.error e
    | Except.ok t' => t'.insertAll rest

/-- Trie::num_words: the root's count, or 0 when the arena is empty. -/
def Trie.numWords (t : Trie) : Nat := t.nodes[0]?.elim 0 Node.count

/-- Trie::get_node_info: recover, for every node that occurs as a child, its
incoming edge key and its parent index (last writer wins, as in the source). -/
def Trie.getNodeInfo (t : Trie) : List (List Char) × List Nat :=
  t.nodes.enum.foldl
    (fun acc p =>
      p.2.children.foldl (fun acc2 c => (acc2.1.set c.2 c.1, acc2.2.set c.2 p.1)) acc)
    (List.replicate t.nodes.length [], List.replicate t.nodes.length 0)

/-- State of the Trie::compress loop: the fresh arena being built, the
prefix/parent bookkeeping vectors, and the explicit work stack. -/
structure CState where
  newNodes : List Node
  prefixes : List (List Char)
  parents : List Nat
  stack : List Nat
deriving DecidableEq, Repr

/-- Vec index-assignment: fails (models a Rust panic) when out of range. -/
def setAt? {α : Type} (l : List α) (i : Nat) (a : α) : Option (List α) :=
  if i < l.length then some (l.set i a) else none

/-- The copy phase of one Trie::compress loop iteration: each child of the
current (already final) node is moved into a fresh arena slot, the child map is
rewired to the fresh indices, and the fresh slots are scheduled on the stack. -/
def copyChildren (orig : List Node) (index : Nat) :
    List (List Char × Nat) → CState → Option CState
  | [], st => some st
  | (cpfx, cindex) :: restCh, st =>
    match st.newNodes[index]? with
    | none => none
    | some cur =>
      let newIndex := st.newNodes.length
      match orig[cindex]? with
      | none => none
      | some cnode =>
        match setAt? st.parents newIndex index, setAt? st.prefixes newIndex cpfx with
        | some parents', some prefixes' =>
          copyChildren orig index restCh
            ⟨(st.newNodes.set index ⟨assocSetValue cur.children cpfx newIndex, cur.count⟩)
                ++ [cnode],
              prefixes', parents', newIndex :: st.stack⟩
        | some _, none => none
        | none, _ => none

/-- The Trie::compress work loop. A non-root node with exactly one child whose
count equals its own is spliced out (the incoming edge key is extended by the
child's key and the node's content is replaced by the child's content, then the
same position is re-examined); otherwise the node's children are copied into
fresh slots. Fuel exhaustion or an out-of-range index yields none. -/
def compressGo (orig : List Node) : Nat → CState → Option (List Node)
  | 0, _ => none
  | fuel + 1, st =>
    match st.stack with
    | [] => some st.newNodes
    | index :: rest =>
      match st.newNodes[index]? with
      | none => none
      | some nd =>
        if index = 0 then
          match copyChildren orig index nd.children ⟨st.newNodes, st.prefixes, st.parents, rest⟩ with
          | none => none
          | some st' => compressGo orig fuel st'
        else
          match nd.children with
          | [(cpfx, cindex)] =>
            match orig[cindex]? with
            | none => none
            | some child =>
              if nd.count = child.count then
                match st.prefixes[index]?, st.parents[index]? with
                | some pfx0, some par =>
                  match st.newNodes[par]? with
                  | none => none
                  | some parentNode =>
                    let pfx1 := pfx0 ++ cpfx
                    let parentNode' : Node :=
                      ⟨assocInsert (assocErase parentNode.children pfx0) pfx1 index,
                        parentNode.count⟩
                    compressGo orig fuel
                      ⟨(st.newNodes.set par parentNode').set index child,
                        st.prefixes.set index pfx1, st.parents, index :: rest⟩
                | some _, none => none
                | none, _ => none
              else
                match copyChildren orig index nd.children
                    ⟨st.newNodes, st.prefixes, st.parents, rest⟩ with
                | none => none
                | some st' => compressGo orig fuel st'
          | _ =>
            match copyChildren orig index nd.children
                ⟨st.newNodes, st.prefixes, st.parents, rest⟩ with
            | none => none
            | some st' => compressGo orig fuel st'

/-- Trie::compress. The source's loop runs until the stack empties; the fuel
parameter makes the embedding total, and none models divergence or a panic
(Trie::compress itself always returns Ok in the source). -/
def Trie.compress (t : Trie) (fuel : Nat) : Option Trie :=
  match t.nodes[0]? with
  | none => none
  | some root =>
    match compressGo t.nodes fuel ⟨[root], t.getNodeInfo.1, t.getNodeInfo.2, [0]⟩ with
    | none => none
    | some finalNodes => some ⟨finalNodes⟩

/-- The inner child scan of Trie::sample: skip children while the remaining id
is at least the child's count (subtracting it), descend into the first child
whose count exceeds the remaining id. -/
def Trie.sampleScan (t : Trie) : List (List Char × Nat) → Nat →
    Except TrieErr (Option (List Char × Node) × Nat)
  | [], id => Except.ok (none, id)
  | (k, cindex) :: rest, id =>
    match t.nodes[cindex]? with
    | none => Except.error (TrieErr.missingNode cindex)
    | some child =>
      if id < child.count then Except.ok (some (k, child), id)
      else t.sampleScan rest (id - child.count)

/-- The descent loop of Trie::sample, with fuel (the source loop is unbounded;
fuel exhaustion, returning none, models divergence). -/
def Trie.sampleGo (t : Trie) : Nat → Node → Nat → List Char →
    Option (Except TrieErr (List Char))
  | 0, _, _, _ => none
  | fuel + 1, nd, id, word =>
    match t.sampleScan nd.children id with
    | Except.error e => some (Except.error e)
    | Except.ok (none, _) => some (Except.ok word)
    | Except.ok (some (k, child), id') => t.sampleGo fuel child id' (word ++ k)

/-- Trie::sample: reduce the id modulo the root count, fail on an empty corpus,
then descend. The fuel t.nodes.length + 1 is enough for any trie whose child
indices strictly increase (proved below); on other arenas none models the
source loop never terminating. -/
def Trie.sample (t : Trie) (id : Nat) : Option (Except TrieErr (List Char)) :=
  match t.nodes[0]? with
  | none => some (Except.error (TrieErr.missingNode 0))
  | some root =>
    if root.count = 0 then some (Except.error TrieErr.emptyTrie)
    else t.sampleGo (t.nodes.length + 1) root (id % root.count) []

/-! Specification-level helpers (proof devices, not source translations). -/

/-- Count of a child node through the arena, 0 for a dangling index. -/
def countAt (nodes : List Node) (c : Nat) : Nat := (nodes[c]?.map Node.count).getD 0

/-- Sum of the children counts of a children map, read through the arena. -/
def sumCounts (nodes : List Node) (m : List (List Char × Nat)) : Nat :=
  (m.map (fun p => countAt nodes p.2)).sum

/-- Child indices are in bounds and strictly greater than their parent's index:
the structural invariant of claim C9. -/
def ShapeValid (nodes : List Node) : Prop :=
  ∀ (i : Nat) (nd : Node), nodes[i]? = some nd →
    ∀ p ∈ nd.children, i < p.2 ∧ p.2 < nodes.length

/-- At every node the children counts sum to at most the node's own count. -/
def ResidualOk (nodes : List Node) : Prop :=
  ∀ (i : Nat) (nd : Node), nodes[i]? = some nd → sumCounts nodes nd.children ≤ nd.count

/-- The weighted-path denotation of a subtree, with fuel: every node contributes
(count minus sum of children counts) copies of the accumulated edge string. -/
def denB (nodes : List Node) : Nat → Nat → Multiset (List Char)
  | 0, _ => 0
  | b + 1, i =>
    match nodes[i]? with
    | none => 0
    | some nd =>
      (nd.count - sumCounts nodes nd.children) • ({[]} : Multiset (List Char)) +
        (nd.children.map (fun p =>
          if i < p.2 then Multiset.map (fun w => p.1 ++ w) (denB nodes b p.2) else 0)).sum

/-- The weighted-path denotation at an index, with canonical (sufficient) fuel. -/
def den (nodes : List Node) (i : Nat) : Multiset (List Char) := denB nodes nodes.length i

/-- Locate the node at which a word terminates, following edges whose keys are
nonempty prefixes of the remaining word; none when the word leaves the trie. -/
def findFrom (t : Trie) (i : Nat) (w : List Char) : Option Nat :=
  match hw : w with
  | [] => some i
  | _ :: _ =>
    match t.nodes[i]? with
    | none => none
    | some nd =>
      match hf : nd.children.find? (fun p => decide (p.1 ≠ []) && p.1.isPrefixOf w) with
      | none => none
      | some (k, c) => findFrom t c (w.drop k.length)
termination_by w.length
decreasing_by
  simp only [List.length_drop]
  have h1 := List.find?_some hf
  simp only [Bool.and_eq_true, decide_eq_true_eq, List.isPrefixOf_iff_prefix] at h1
  have h2 : k.length ≤ w.length := h1.2.length_le
  have h3 : 0 < k.length := List.length_pos.mpr h1.1
  subst hw
  simp only [List.length_cons] at h2 ⊢
  omega

/-- The number of corpus words terminating exactly at node i. -/
def termCount (t : Trie) (ws : List (List Char)) (i : Nat) : Nat :=
  ws.countP (fun w => findFrom t 0 w = some i)

/-- The denotation footprint: arena slots read when evaluating the denotation of
the subtree rooted at a slot (the slot itself, all direct children for their
counts, and recursively the subtrees of index-increasing children). -/
inductive Reach (nodes : List Node) : Nat → Nat → Prop where
  | refl : ∀ i, Reach nodes i i
  | edge : ∀ i nd p, nodes[i]? = some nd → p ∈ nd.children → Reach nodes i p.2
  | step : ∀ i x nd p, nodes[i]? = some nd → p ∈ nd.children → i < p.2 →
      Reach nodes p.2 x → Reach nodes i x

/-- Number of child entries over the whole arena whose target is the slot c. -/
def refCount (nodes : List Node) (c : Nat) : Nat :=
  (nodes.map (fun nd => (nd.children.filter (fun p => p.2 = c)).length)).sum

/-- Number of child entries among done (not-on-stack) slots targeting slot c. -/
def doneRefCount (st : CState) (c : Nat) : Nat :=
  ((List.range st.newNodes.length).map (fun j =>
    if j ∈ st.stack then 0
    else match st.newNodes[j]? with
      | none => 0
      | some nd => (nd.children.filter (fun p => p.2 = c)).length)).sum

/-- Rewire a children map in place: the j-th entry's target becomes base + j
(the effect of the copy phase's sequential get_mut updates on distinct keys). -/
def remapAll : List (List Char × Nat) → Nat → List (List Char × Nat)
  | [], _ => []
  | (k, _) :: rest, base => (k, base) :: remapAll rest (base + 1)

/-- Mixed denotation of the evolving compress state: slots still on the stack
denote the original subtree they are a clone of (through the ghost map f), done
slots denote through the fresh arena. -/
def denMB (orig newN : List Node) (S : List Nat) (f : List Nat) : Nat → Nat → Multiset (List Char)
  | 0, _ => 0
  | b + 1, j =>
    if j ∈ S then den orig (f.getD j 0)
    else match newN[j]? with
      | none => 0
      | some nd =>
        (nd.count - sumCounts newN nd.children) • ({[]} : Multiset (List Char)) +
          (nd.children.map (fun p =>
            if j < p.2 then Multiset.map (fun w => p.1 ++ w) (denMB orig newN S f b p.2)
            else 0)).sum

/-- A node is splice-eligible for compression: non-root, exactly one child, and
its count equals that child's count. -/
def eligible (nodes : List Node) (i : Nat) : Prop :=
  i ≠ 0 ∧ ∃ nd k c, nodes[i]? = some nd ∧ nd.children = [(k, c)] ∧
    nd.count = countAt nodes c

/-- Hypotheses on the arena being compressed; all hold for tries built by
repeated insertion from Trie::new (proved below). -/
structure OrigOk (orig : List Node) : Prop where
  shape : ShapeValid orig
  ne : 0 < orig.length
  keysNe : ∀ (i : Nat) (nd : Node), orig[i]? = some nd → ∀ p ∈ nd.children, p.1 ≠ []
  keysFC : ∀ (i : Nat) (nd : Node), orig[i]? = some nd →
    (nd.children.map (fun p => p.1.head?)).Nodup
  refs : ∀ c, 0 < c → c < orig.length → refCount orig c = 1
  refs0 : refCount orig 0 = 0
  residual : ResidualOk orig

/-- Loop invariant of the compress work loop, with ghost data: f maps each fresh
slot to the original node it currently clones (for done slots, its final
original), and spl lists the original nodes spliced away so far. -/
structure CInv (orig : List Node) (st : CState) (f : List Nat) (spl : List Nat) : Prop where
  flen : f.length = st.newNodes.length
  stackNodup : st.stack.Nodup
  stackLt : ∀ j ∈ st.stack, j < st.newNodes.length
  pendContent : ∀ j ∈ st.stack, st.newNodes[j]? = orig[f.getD j 0]?
  f0 : f.getD 0 0 = 0
  fPos : ∀ j, j < st.newNodes.length → j ≠ 0 → f.getD j 0 ≠ 0
  fLt : ∀ j, j < st.newNodes.length → f.getD j 0 < orig.length
  doneChild : ∀ (j : Nat) (nd : Node), j ∉ st.stack → st.newNodes[j]? = some nd →
    ∀ p ∈ nd.children, j < p.2 ∧ p.2 < st.newNodes.length
  doneKeysNe : ∀ (j : Nat) (nd : Node), j ∉ st.stack → st.newNodes[j]? = some nd →
    ∀ p ∈ nd.children, p.1 ≠ []
  doneKeysFC : ∀ (j : Nat) (nd : Node), j ∉ st.stack → st.newNodes[j]? = some nd →
    (nd.children.map (fun p => p.1.head?)).Nodup
  doneCount : ∀ (j : Nat) (nd : Node), j ∉ st.stack → st.newNodes[j]? = some nd →
    ∃ ond : Node, orig[f.getD j 0]? = some ond ∧ nd.count = ond.count ∧
      sumCounts st.newNodes nd.children = sumCounts orig ond.children
  notElig : ∀ j, j < st.newNodes.length → j ∉ st.stack → ¬ eligible orig (f.getD j 0)
  refsOnce : ∀ c, 0 < c → c < st.newNodes.length → doneRefCount st c = 1
  refsZero : doneRefCount st 0 = 0
  parentTrack : ∀ c ∈ st.stack, c ≠ 0 → ∃ (j : Nat) (nd : Node), j ∉ st.stack ∧
    st.newNodes[j]? = some nd ∧ st.parents[c]? = some j ∧
    ∃ key, st.prefixes[c]? = some key ∧ (key, c) ∈ nd.children
  denPres : denMB orig st.newNodes st.stack f st.newNodes.length 0 = den orig 0
  cover : ∀ x, Reach orig 0 x ↔
    ((∃ j, j < st.newNodes.length ∧ j ∉ st.stack ∧ f.getD j 0 = x) ∨
     (∃ j ∈ st.stack, Reach orig (f.getD j 0) x) ∨ x ∈ spl)
  splElig : ∀ x ∈ spl, eligible orig x

/-- The trie obtained from Trie::new by inserting the given corpus in order. -/
def Built (ws : List (List Char)) (t : Trie) : Prop :=
  Trie.insertAll Trie.new ws = Except.ok t

/-- A trie reachable through the public API: built by insertions from Trie::new,
with at most one compress at the end. -/
def ReachableTrie (t : Trie) : Prop :=
  (∃ ws, Built ws t) ∨ (∃ ws t0 fuel, Built ws t0 ∧ t0.compress fuel = some t)

/-- Count field of the node at a slot (0 for a missing slot). -/
def cAt (t : Trie) (j : Nat) : Nat := (t.nodes[j]?.map Node.count).getD 0

/-- Sum of the children counts of the node at a slot (0 for a missing slot). -/
def sAt (t : Trie) (j : Nat) : Nat :=
  (t.nodes[j]?.map (fun nd => sumCounts t.nodes nd.children)).getD 0

/-- Number of child entries of the node at slot j that target slot i. -/
def eAt (t : Trie) (j i : Nat) : Nat :=
  (t.nodes[j]?.map (fun nd => (nd.children.filter (fun p => p.2 = i)).length)).getD 0

/-- Structural invariants maintained by Trie::insert starting from Trie::new:
valid shape, single-character edge keys, per-node distinct keys, and exactly one
incoming edge for every non-root node (none for the root). -/
structure GS (t : Trie) : Prop where
  shape : ShapeValid t.nodes
  ne : 0 < t.nodes.length
  keysChar : ∀ (i : Nat) (nd : Node), t.nodes[i]? = some nd →
    ∀ p ∈ nd.children, ∃ c, p.1 = [c]
  keysNodup : ∀ (i : Nat) (nd : Node), t.nodes[i]? = some nd →
    (nd.children.map Prod.fst).Nodup
  refs : ∀ c, 0 < c → c < t.nodes.length → refCount t.nodes c = 1
  refs0 : refCount t.nodes 0 = 0

/-- Root paths of the arena together with their accumulated edge strings. -/
inductive PathW (nodes : List Node) : Nat → List Char → Prop where
  | root : PathW nodes 0 []
  | child : ∀ (j : Nat) (w : List Char) (nd : Node) (k : List Char) (c : Nat),
      PathW nodes j w → nodes[j]? = some nd → (k, c) ∈ nd.children → PathW nodes c (w ++ k)

/-- Per-corpus invariant of tries built by insertion: structural invariants,
resolvability of every inserted word, and weight conservation (each node's count
is the sum of its children counts plus the words terminating there). -/
structure BInv (ws : List (List Char)) (t : Trie) : Prop where
  gs : GS t
  found : ∀ v ∈ ws, ∃ m, findFrom t 0 v = some m ∧ m < t.nodes.length
  cons : ∀ (i : Nat) (nd : Node), t.nodes[i]? = some nd →
    nd.count = sumCounts t.nodes nd.children + termCount t ws i

/-- The weighted-path denotation as a list, in Trie::sample's visit order:
children in map order first, then the residual copies of the empty suffix. -/
def denL (nodes : List Node) : Nat → Nat → List (List Char)
  | 0, _ => []
  | b + 1, i =>
    match nodes[i]? with
    | none => []
    | some nd =>
      (nd.children.map (fun p =>
        if i < p.2 then (denL nodes b p.2).map (fun w => p.1 ++ w) else [])).flatten ++
      List.replicate (nd.count - sumCounts nodes nd.children) []

/-- Residual weight of a slot: the count minus the children count sum, the
number of corpus words ending exactly at the slot (0 for a missing slot). -/
def resid (nodes : List Node) (i : Nat) : Nat :=
  (nodes[i]?.map (fun nd => nd.count - sumCounts nodes nd.children)).getD 0

/-- Unwrap a successful trie computation (default: the fresh trie). -/
def okOr (x : Except TrieErr Trie) : Trie :=
  match x with
  | Except.ok t => t
  | Except.error _ => Trie.new

/-- Concrete witness trie: the corpus with the single word "ab". -/
def trieW : Trie := okOr (Trie.insertAll Trie.new [['a', 'b']])

/-- The witness trie after one compression. -/
def trieW2 : Trie := (trieW.compress 20).getD Trie.new

/-! Embedding of src/textgen.rs. -/

/-- The default batch producer WordSelector::new_words: draw one word at a time,
n times, short-circuiting on the first failure. The single-word producer is
modeled as a state-passing function. -/
def newWords {σ ε : Type} (newWord : σ → Except ε (List Char × σ)) :
    σ → Nat → Except ε (List (List Char) × σ)
  | s, 0 => Except.ok ([], s)
  | s, n + 1 =>
    match newWord s with
    | Except.error e => Except.error e
    | Except.ok (w, s') =>
      match newWords newWord s' n with
      | Except.error e => Except.error e
      | Except.ok (l, s'') => Except.ok (w :: l, s'')

/-- The state after k successful single-word draws. -/
def iterDraw {σ ε : Type} (newWord : σ → Except ε (List Char × σ)) : σ → Nat → Except ε σ
  | s, 0 => Except.ok s
  | s, k + 1 =>
    match newWord s with
    | Except.error e => Except.error e
    | Except.ok (_, s') => iterDraw newWord s' k

/-- Whitespace splitting as the spec describes it for batch production (claim
side definition; the space character stands for whitespace). -/
def splitWsAux : List Char → List Char → List (List Char)
  | [], acc => if acc = [] then [] else [acc.reverse]
  | c :: rest, acc =>
    if c = ' ' then
      if acc = [] then splitWsAux rest [] else acc.reverse :: splitWsAux rest []
    else splitWsAux rest (c :: acc)

/-- Split a word on whitespace (claim-side definition used to state C4). -/
def splitWs (l : List Char) : List (List Char) := splitWsAux l []

/-- PunctuationType from src/textgen.rs (the source spells Capitaizing). -/
inductive PunctuationType where
  | Capitaizing (c : Char)
  | Ending (c : Char)
  | Starting (c : Char)
  | Surrounding (opening closing : Char)
deriving DecidableEq, Repr

/-- The fixed 33-entry punctuation table from src/textgen.rs. -/
def PUNCTUATION : List PunctuationType :=
  [PunctuationType.Capitaizing '!',
   PunctuationType.Capitaizing '?',
   PunctuationType.Capitaizing '.',
   PunctuationType.Ending ',',
   PunctuationType.Ending ':',
   PunctuationType.Ending ';',
   PunctuationType.Starting ':',
   PunctuationType.Starting '@',
   PunctuationType.Starting '#',
   PunctuationType.Starting '$',
   PunctuationType.Starting '%',
   PunctuationType.Starting '^',
   PunctuationType.Starting '&',
   PunctuationType.Starting '*',
   PunctuationType.Starting '~',
   PunctuationType.Starting '/',
   PunctuationType.Starting '\\',
   PunctuationType.Starting '_',
   PunctuationType.Starting '-',
   PunctuationType.Starting '=',
   PunctuationType.Starting '+',
   PunctuationType.Surrounding '\'' '\'',
   PunctuationType.Surrounding '"' '"',
   PunctuationType.Surrounding '(' ')',
   PunctuationType.Surrounding (Char.ofNat 123) (Char.ofNat 125),
   PunctuationType.Surrounding '<' '>',
   PunctuationType.Surrounding '[' ']',
   PunctuationType.Surrounding '%' '%',
   PunctuationType.Surrounding '^' '$',
   PunctuationType.Surrounding '*' '*',
   PunctuationType.Surrounding (Char.ofNat 96) (Char.ofNat 96),
   PunctuationType.Surrounding '/' '/',
   PunctuationType.Surrounding '|' '|']

/-- PunctuatedWordSelector state: the wrapped selector (abstracted by its state),
the pending-capitalization bit, and the punctuation chance (an f64 in the
source, modeled as a rational). -/
structure PunctuatedWordSelector (σ : Type) where
  selector : σ
  nextIsCapital : Bool
  punctuationChance : Rat
deriving DecidableEq, Repr

/-- PunctuatedWordSelector::from_word_selector: capitalization starts pending. -/
def PunctuatedWordSelector.fromWordSelector {σ : Type} (sel : σ) (chance : Rat) :
    PunctuatedWordSelector σ :=
  ⟨sel, true, chance⟩

/-- Outcome of PunctuatedWordSelector::new_word: a word plus updated state, a
propagated inner failure, or a panic (the source's expect). -/
inductive PunctOut (σ ε : Type) where
  | ok (word : List Char) (st : PunctuatedWordSelector σ)
  | err (e : ε)
  | panic (msg : String)
deriving DecidableEq

/-- PunctuatedWordSelector::new_word. Randomness is passed in: u is the uniform
draw in [0,1) deciding gen_bool(punctuation_chance), choiceIndex selects the
punctuation rule uniformly. The Unicode uppercase expansion of a character
(char::to_uppercase, in order) is the parameter upper. -/
def PunctuatedWordSelector.newWord {σ ε : Type} (inner : σ → Except ε (List Char × σ))
    (upper : Char → List Char) (ps : PunctuatedWordSelector σ) (u : Rat)
    (choiceIndex : Nat) : PunctOut σ ε :=
  match inner ps.selector with
  | Except.error e => PunctOut.err e
  | Except.ok (word0, sel') =>
    let willPunctuate : Bool := decide (u < ps.punctuationChance)
    if willPunctuate || ps.nextIsCapital then
      let step : Option (List Char × Bool) :=
        if ps.nextIsCapital then
          match word0 with
          | [] => none
          | c :: restW => some (upper c ++ restW, false)
        else some (word0, ps.nextIsCapital)
      match step with
      | none => PunctOut.panic "got empty word"
      | some (chars1, cap1) =>
        if willPunctuate then
          match PUNCTUATION[choiceIndex % PUNCTUATION.length]? with
          | none => PunctOut.panic "only returns none if the slice is empty"
          | some (PunctuationType.Capitaizing c) =>
            PunctOut.ok (chars1 ++ [c]) ⟨sel', true, ps.punctuationChance⟩
          | some (PunctuationType.Ending c) =>
            PunctOut.ok (chars1 ++ [c]) ⟨sel', cap1, ps.punctuationChance⟩
          | some (PunctuationType.Starting c) =>
            PunctOut.ok (c :: chars1) ⟨sel', cap1, ps.punctuationChance⟩
          | some (PunctuationType.Surrounding a b) =>
            PunctOut.ok (a :: (chars1 ++ [b])) ⟨sel', cap1, ps.punctuationChance⟩
        else PunctOut.ok chars1 ⟨sel', cap1, ps.punctuationChance⟩
    else PunctOut.ok word0 ⟨sel', ps.nextIsCapital, ps.punctuationChance⟩

/-- Run the punctuated selector n times, threading state; k indexes the oracle
streams. Returns none as soon as an inner failure or panic occurs. -/
def punctRun {σ ε : Type} (inner : σ → Except ε (List Char × σ)) (upper : Char → List Char)
    (us : Nat → Rat) (cs : Nat → Nat) :
    Nat → Nat → PunctuatedWordSelector σ →
      Option (List (List Char) × PunctuatedWordSelector σ)
  | _, 0, ps => some ([], ps)
  | k, n + 1, ps =>
    match PunctuatedWordSelector.newWord inner upper ps (us k) (cs k) with
    | PunctOut.ok w ps' =>
      match punctRun inner upper us cs (k + 1) n ps' with
      | some (l, psF) => some (w :: l, psF)
      | none => none
    | PunctOut.err _ => none
    | PunctOut.panic _ => none

/-- Uppercase expansion of the first character of a word (claim-side helper). -/
def upperFirst (upper : Char → List Char) : List Char → List Char
  | [] => []
  | c :: r => upper c ++ r

/-! Concrete instances used by claim theorems and witnesses. -/

/-- The corpus of claim C3: the word a once and the word b nine times. -/
def corpusC3 : List (List Char) := [['a']] ++ List.replicate 9 ['b']

/-- Two nodes with the same count whose children maps hold the same entries,
possibly listed in a different order. A HashMap's iteration order is
unspecified, so any such reordering is a legal behaviour of the same map. -/
def NodePerm (nd nd2 : Node) : Prop :=
  nd.count = nd2.count ∧ nd.children.Perm nd2.children

/-- Two tries representing the same HashMap contents slot by slot: equal
arenas up to per-node reordering of the children entries. Quantifying over all
PermEq-variants of a built trie captures every children iteration order the
program may see. -/
def PermEq (t t2 : Trie) : Prop := List.Forall₂ NodePerm t.nodes t2.nodes

/-- The trie built from the C3 corpus in insertion order. -/
def trieC3 : Trie := okOr (Trie.insertAll Trie.new corpusC3)

/-- The same trie with the root's two children listed in the opposite order:
the arena the program holds when the root HashMap iterates b before a. -/
def trieC3R : Trie :=
  ⟨[⟨[(['b'], 2), (['a'], 1)], 10⟩, ⟨[], 1⟩, ⟨[], 9⟩]⟩

/-- A single-word producer that always yields a word with internal whitespace. -/
def drawAB : Unit → Except Unit (List Char × Unit) := fun _ => Except.ok (['a', ' ', 'b'], ())

/-- An inner selector that always yields the empty word. -/
def innerEmptyWord : Unit → Except Unit (List Char × Unit) := fun _ => Except.ok ([], ())

/-- An uppercase expansion that maps every character to itself. -/
def upperId : Char → List Char := fun c => [c]

end Toipe

namespace Toipe

/-! Basic lemmas about sampling errors. -/

theorem sampleScan_error_missing (t : Trie) (ch : List (List Char × Nat)) (id : Nat) (e : TrieErr)
    (h : t.sampleScan ch id = Except.error e) : ∃ i, e = TrieErr.missingNode i := by
  induction ch generalizing id with
  | nil => simp [Trie.sampleScan] at h
  | cons p rest ih =>
    obtain ⟨k, cindex⟩ := p
    simp only [Trie.sampleScan] at h
    cases hg : t.nodes[cindex]? with
    | none => rw [hg] at h; exact ⟨cindex, by cases h; rfl⟩
    | some child =>
      rw [hg] at h
      by_cases hlt : id < child.count
      · simp [hlt] at h
      · simp [hlt] at h
        exact ih _ h

theorem sampleGo_ne_empty (t : Trie) (fuel : Nat) (nd : Node) (id : Nat) (w : List Char) :
    t.sampleGo fuel nd id w ≠ some (Except.error TrieErr.emptyTrie) := by
  induction fuel generalizing nd id w with
  | zero => simp [Trie.sampleGo]
  | succ fuel ih =>
    simp only [Trie.sampleGo]
    cases hs : t.sampleScan nd.children id with
    | error e =>
      obtain ⟨i, rfl⟩ := sampleScan_error_missing t _ _ _ hs
      simp
    | ok r =>
      obtain ⟨o, id'⟩ := r
      cases o with
      | none => simp
      | some p => exact ih _ _ _

/-- C7: a freshly constructed Trie has num_words() == 0; sample on any Trie whose
root exists with count zero fails with the empty-corpus error; the empty-corpus
error is distinct from the structural missing-node error; and sample on a Trie
with a positive root count never yields the empty-corpus error. -/
theorem toipe_empty_corpus_handling :
    Trie.new.numWords = 0 ∧
    (∀ (t : Trie) (root : Node) (id : Nat), t.nodes[0]? = some root → root.count = 0 →
      t.sample id = some (Except.error TrieErr.emptyTrie)) ∧
    (∀ i : Nat, TrieErr.emptyTrie ≠ TrieErr.missingNode i) ∧
    (∀ (t : Trie) (root : Node) (id : Nat), t.nodes[0]? = some root → root.count ≠ 0 →
      t.sample id ≠ some (Except.error TrieErr.emptyTrie)) := by
  refine ⟨rfl, ?_, ?_, ?_⟩
  · intro t root id h0 hc
    simp [Trie.sample, h0, hc]
  · intro i h
    cases h
  · intro t root id h0 hc
    simp only [Trie.sample, h0, hc, if_false]
    exact sampleGo_ne_empty t _ root _ []

theorem toipe_empty_corpus_handling_witness :
    Trie.new.numWords = 0 ∧
    Trie.new.sample 0 = some (Except.error TrieErr.emptyTrie) := by
  refine ⟨toipe_empty_corpus_handling.1, ?_⟩
  exact toipe_empty_corpus_handling.2.1 Trie.new Node.new 0 rfl rfl

/-- C4 counterexample: the default new_words never splits a produced word on
internal whitespace. A selector whose single-word draw yields the word a-space-b
makes new_words(1) return that word intact as one token, not the two tokens the
whitespace re-splitting described by the claim would produce. -/
theorem toipe_new_words_no_split_counterexample :
    newWords drawAB () 1 = Except.ok ([['a', ' ', 'b']], ()) ∧
    splitWs ['a', ' ', 'b'] = [['a'], ['b']] ∧
    newWords drawAB () 1 ≠ Except.ok (([['a'], ['b']] : List (List Char)), ()) := by
  refine ⟨rfl, rfl, by decide⟩

/-- C4 amended: for every word selector and every requested count n, new_words
performs exactly n single-word draws and returns the n drawn words unchanged
(in draw order, with no whitespace re-splitting), and it fails exactly when one
of the n underlying draws fails, propagating that failure. -/
theorem toipe_new_words_batch {σ ε : Type} (step : σ → Except ε (List Char × σ)) (s : σ)
    (n : Nat) :
    (∀ l s', newWords step s n = Except.ok (l, s') → l.length = n ∧
      ∀ k, k < n → ∃ sk wk sk', iterDraw step s k = Except.ok sk ∧
        step sk = Except.ok (wk, sk') ∧ l[k]? = some wk) ∧
    (∀ e, newWords step s n = Except.error e →
      ∃ k, k < n ∧ ∃ s', iterDraw step s k = Except.ok s' ∧ step s' = Except.error e) := by
  induction n generalizing s with
  | zero =>
    constructor
    · intro l s' h
      simp only [newWords, Except.ok.injEq, Prod.mk.injEq] at h
      obtain ⟨rfl, rfl⟩ := h
      exact ⟨rfl, fun k hk => absurd hk (Nat.not_lt_zero k)⟩
    · intro e h
      simp [newWords] at h
  | succ n ih =>
    constructor
    · intro l s' h
      cases hs : step s with
      | error e => simp only [newWords, hs] at h; exact Except.noConfusion h
      | ok p =>
        obtain ⟨w, s1⟩ := p
        cases hn : newWords step s1 n with
        | error e => simp only [newWords, hs, hn] at h; exact Except.noConfusion h
        | ok q =>
          obtain ⟨l1, s2⟩ := q
          simp only [newWords, hs, hn, Except.ok.injEq, Prod.mk.injEq] at h
          obtain ⟨rfl, rfl⟩ := h
          obtain ⟨hlen, hget⟩ := (ih s1).1 l1 s2 hn
          refine ⟨by simp [hlen], ?_⟩
          intro k hk
          cases k with
          | zero => exact ⟨s, w, s1, rfl, hs, by simp⟩
          | succ k =>
            obtain ⟨sk, wk, sk', h1, h2, h3⟩ := hget k (Nat.lt_of_succ_lt_succ hk)
            refine ⟨sk, wk, sk', ?_, h2, by simpa using h3⟩
            simp only [iterDraw, hs]
            exact h1
    · intro e h
      cases hs : step s with
      | error e' =>
        simp only [newWords, hs, Except.error.injEq] at h
        subst h
        exact ⟨0, Nat.succ_pos n, s, rfl, hs⟩
      | ok p =>
        obtain ⟨w, s1⟩ := p
        cases hn : newWords step s1 n with
        | error e' =>
          simp only [newWords, hs, hn, Except.error.injEq] at h
          subst h
          obtain ⟨k, hk, s', h1, h2⟩ := (ih s1).2 e' hn
          refine ⟨k + 1, Nat.succ_lt_succ hk, s', ?_, h2⟩
          simp only [iterDraw, hs]
          exact h1
        | ok q =>
          obtain ⟨l1, s2⟩ := q
          simp only [newWords, hs, hn] at h
          exact Except.noConfusion h

theorem toipe_new_words_batch_witness :
    ([['a', ' ', 'b'], ['a', ' ', 'b']] : List (List Char)).length = 2 :=
  ((toipe_new_words_batch drawAB () 2).1 [['a', ' ', 'b'], ['a', ' ', 'b']] () rfl).1

/-- C10: if the inner selector yields the empty word while capitalization is
pending, PunctuatedWordSelector::new_word panics with the message got empty word
instead of returning a typed failure; and whenever the inner selector yields a
non-empty word, no panic can occur. -/
theorem toipe_empty_word_panic {σ ε : Type} (inner : σ → Except ε (List Char × σ))
    (upper : Char → List Char) (ps : PunctuatedWordSelector σ) (u : Rat) (ci : Nat) :
    (∀ s', inner ps.selector = Except.ok ([], s') → ps.nextIsCapital = true →
      PunctuatedWordSelector.newWord inner upper ps u ci = PunctOut.panic "got empty word") ∧
    (∀ w s', inner ps.selector = Except.ok (w, s') → w ≠ [] →
      ∀ msg, PunctuatedWordSelector.newWord inner upper ps u ci ≠ PunctOut.panic msg) := by
  constructor
  · intro s' hin hcap
    simp [PunctuatedWordSelector.newWord, hin, hcap]
  · intro w s' hin hw msg
    have hsome : PUNCTUATION[ci % PUNCTUATION.length]? ≠ none := by
      intro hnone
      have := List.getElem?_eq_none_iff.mp hnone
      have hlt : ci % PUNCTUATION.length < PUNCTUATION.length := Nat.mod_lt _ (by decide)
      omega
    simp only [PunctuatedWordSelector.newWord, hin]
    by_cases hwp : (decide (u < ps.punctuationChance) || ps.nextIsCapital) = true
    · rw [if_pos hwp]
      rcases hcap : ps.nextIsCapital with _ | _
      · simp only [hcap, Bool.false_eq_true, if_false]
        rcases hpunct : decide (u < ps.punctuationChance) with _ | _
        · rw [hcap, hpunct] at hwp; simp at hwp
        · simp only [hpunct, if_true]
          cases hg : PUNCTUATION[ci % PUNCTUATION.length]? with
          | none => exact absurd hg hsome
          | some pt => cases pt <;> simp
      · simp only [hcap, if_true]
        cases w with
        | nil => exact absurd rfl hw
        | cons c restW =>
          simp only []
          rcases hpunct : decide (u < ps.punctuationChance) with _ | _
          · simp [hpunct]
          · simp only [hpunct, if_true]
            cases hg : PUNCTUATION[ci % PUNCTUATION.length]? with
            | none => exact absurd hg hsome
            | some pt => cases pt <;> simp
    · rw [if_neg hwp]
      simp

theorem toipe_empty_word_panic_witness :
    PunctuatedWordSelector.newWord innerEmptyWord upperId
      (PunctuatedWordSelector.fromWordSelector () 0) 0 0 = PunctOut.panic "got empty word" :=
  (toipe_empty_word_panic innerEmptyWord upperId
    (PunctuatedWordSelector.fromWordSelector () 0) 0 0).1 () rfl rfl

end Toipe

namespace Toipe

/-! Lemmas for the punctuation stage with the punctuation chance forced to 0. -/

theorem punctNewWord_notCapital {σ ε : Type} (inner : σ → Except ε (List Char × σ))
    (upper : Char → List Char) (s : σ) (w : List Char) (s' : σ) (u : Rat) (ci : Nat)
    (hin : inner s = Except.ok (w, s')) (hu : 0 ≤ u) :
    PunctuatedWordSelector.newWord inner upper ⟨s, false, 0⟩ u ci =
      PunctOut.ok w ⟨s', false, 0⟩ := by
  have hdec : decide (u < (0 : Rat)) = false := decide_eq_false (not_lt.mpr hu)
  simp [PunctuatedWordSelector.newWord, hin, hdec]

theorem punctNewWord_capital {σ ε : Type} (inner : σ → Except ε (List Char × σ))
    (upper : Char → List Char) (s : σ) (w : List Char) (s' : σ) (u : Rat) (ci : Nat)
    (hin : inner s = Except.ok (w, s')) (hu : 0 ≤ u) (hw : w ≠ []) :
    PunctuatedWordSelector.newWord inner upper ⟨s, true, 0⟩ u ci =
      PunctOut.ok (upperFirst upper w) ⟨s', false, 0⟩ := by
  have hdec : decide (u < (0 : Rat)) = false := decide_eq_false (not_lt.mpr hu)
  cases w with
  | nil => exact absurd rfl hw
  | cons c r => simp [PunctuatedWordSelector.newWord, hin, hdec, upperFirst]

theorem punctRun_notCapital {ε : Type} (wsf : Nat → List Char) (upper : Char → List Char)
    (us : Nat → Rat) (cs : Nat → Nat) (hus : ∀ j, 0 ≤ us j) (n : Nat) :
    ∀ (k m : Nat),
      punctRun (fun j => (Except.ok (wsf j, j + 1) : Except ε (List Char × Nat))) upper us cs
          k n ⟨m, false, 0⟩ =
        some ((List.range n).map (fun i => wsf (m + i)), ⟨m + n, false, 0⟩) := by
  induction n with
  | zero => intro k m; simp [punctRun]
  | succ n ih =>
    intro k m
    simp only [punctRun,
      punctNewWord_notCapital (fun j => (Except.ok (wsf j, j + 1) : Except ε (List Char × Nat)))
        upper m (wsf m) (m + 1) (us k) (cs k) rfl (hus k),
      ih (k + 1) (m + 1)]
    have hmap : (List.range (n + 1)).map (fun i => wsf (m + i)) =
        wsf m :: (List.range n).map (fun i => wsf (m + 1 + i)) := by
      rw [List.range_succ_eq_map, List.map_cons, List.map_map]
      simp only [Nat.add_zero]
      refine congrArg _ (List.map_congr_left ?_)
      intro a _
      simp only [Function.comp_apply]
      exact congrArg wsf (by omega)
    rw [hmap]
    have harith : m + 1 + n = m + (n + 1) := by omega
    rw [harith]

/-- C8: with the punctuation chance 0 and an inner selector yielding only
non-empty words, the first produced word is the inner word with its first
character replaced by its full uppercase expansion in order, every later word is
returned exactly as the inner selector produced it, the pending-capitalization
flag starts true (from_word_selector), and after the first call it stays false
for the whole run (no capitalizing punctuation rule can fire when gen_bool of
chance 0 is always false). -/
theorem toipe_capitalization_carry_over {ε : Type} (wsf : Nat → List Char)
    (upper : Char → List Char) (us : Nat → Rat) (cs : Nat → Nat)
    (hne : ∀ j, wsf j ≠ []) (hus : ∀ j, 0 ≤ us j) (n : Nat) :
    (PunctuatedWordSelector.fromWordSelector 0 0 : PunctuatedWordSelector Nat).nextIsCapital
        = true ∧
    ∃ psF, punctRun (fun j => (Except.ok (wsf j, j + 1) : Except ε (List Char × Nat)))
        upper us cs 0 n (PunctuatedWordSelector.fromWordSelector 0 0) =
      some ((List.range n).map
          (fun i => if i = 0 then upperFirst upper (wsf 0) else wsf i), psF) ∧
      psF.nextIsCapital = decide (n = 0) := by
  refine ⟨rfl, ?_⟩
  cases n with
  | zero => exact ⟨⟨0, true, 0⟩, by simp [punctRun, PunctuatedWordSelector.fromWordSelector], rfl⟩
  | succ n =>
    refine ⟨⟨1 + n, false, 0⟩, ?_, by simp⟩
    simp only [PunctuatedWordSelector.fromWordSelector, punctRun,
      punctNewWord_capital (fun j => (Except.ok (wsf j, j + 1) : Except ε (List Char × Nat)))
        upper 0 (wsf 0) 1 (us 0) (cs 0) rfl (hus 0) (hne 0),
      punctRun_notCapital wsf upper us cs hus n 1 1]
    have hmap : (List.range (n + 1)).map
        (fun i => if i = 0 then upperFirst upper (wsf 0) else wsf i) =
        upperFirst upper (wsf 0) :: (List.range n).map (fun i => wsf (1 + i)) := by
      rw [List.range_succ_eq_map, List.map_cons, List.map_map]
      refine congrArg₂ _ (by simp) (List.map_congr_left ?_)
      intro a _
      simp only [Function.comp_apply, Nat.succ_ne_zero, if_false]
      exact congrArg wsf (by omega)
    rw [hmap]

theorem toipe_capitalization_carry_over_witness :
    (PunctuatedWordSelector.fromWordSelector 0 0 : PunctuatedWordSelector Nat).nextIsCapital
        = true ∧
    ∃ psF, punctRun (fun j => (Except.ok (['x'], j + 1) : Except Unit (List Char × Nat)))
        upperId (fun _ => 0) (fun _ => 0) 0 2 (PunctuatedWordSelector.fromWordSelector 0 0) =
      some ((List.range 2).map
          (fun i => if i = 0 then upperFirst upperId ['x'] else ['x']), psF) ∧
      psF.nextIsCapital = decide ((2 : Nat) = 0) :=
  toipe_capitalization_carry_over (fun _ => ['x']) upperId (fun _ => 0) (fun _ => 0)
    (fun _ => List.cons_ne_nil 'x' []) (fun _ => le_refl 0) 2

end Toipe

namespace Toipe

/-! Small arena lemmas. -/

theorem getElem?_some_lt {α : Type} (l : List α) (j : Nat) (x : α) (h : l[j]? = some x) :
    j < l.length := by
  by_contra hc
  rw [List.getElem?_eq_none_iff.mpr (Nat.le_of_not_lt hc)] at h
  cases h

theorem exists_getElem?_of_lt {α : Type} (l : List α) {j : Nat} (h : j < l.length) :
    ∃ x, l[j]? = some x :=
  ⟨l[j], (List.getElem?_eq_some_getElem_iff l j h).mpr trivial⟩

theorem assocGet_some_mem (m : List (List Char × Nat)) (k : List Char) (v : Nat)
    (h : assocGet m k = some v) : (k, v) ∈ m := by
  induction m with
  | nil => simp [assocGet] at h
  | cons p rest ih =>
    obtain ⟨k', v'⟩ := p
    simp only [assocGet] at h
    by_cases hk : k' = k
    · rw [if_pos hk] at h
      cases h
      subst hk
      exact List.mem_cons_self _ _
    · rw [if_neg hk] at h
      exact List.mem_cons_of_mem _ (ih h)

/-! Sampling succeeds on shape-valid tries. -/

theorem sampleScan_result (t : Trie) (ch : List (List Char × Nat)) (id : Nat)
    (hch : ∀ p ∈ ch, p.2 < t.nodes.length) :
    (∃ id', t.sampleScan ch id = Except.ok (none, id')) ∨
    (∃ k c child id', (k, c) ∈ ch ∧ t.nodes[c]? = some child ∧
      t.sampleScan ch id = Except.ok (some (k, child), id')) := by
  induction ch generalizing id with
  | nil => exact Or.inl ⟨id, rfl⟩
  | cons p rest ih =>
    obtain ⟨k, c⟩ := p
    obtain ⟨child, hc⟩ := exists_getElem?_of_lt t.nodes (hch (k, c) (List.mem_cons_self _ _))
    by_cases hlt : id < child.count
    · exact Or.inr ⟨k, c, child, id, List.mem_cons_self _ _, hc,
        by simp [Trie.sampleScan, hc, hlt]⟩
    · have hstep : t.sampleScan ((k, c) :: rest) id = t.sampleScan rest (id - child.count) := by
        simp [Trie.sampleScan, hc, hlt]
      rcases ih (id - child.count) (fun p hp => hch p (List.mem_cons_of_mem _ hp)) with
        ⟨id', h⟩ | ⟨k', c', child', id', hmem, hc', h⟩
      · exact Or.inl ⟨id', by rw [hstep]; exact h⟩
      · exact Or.inr ⟨k', c', child', id', List.mem_cons_of_mem _ hmem, hc',
          by rw [hstep]; exact h⟩

theorem sampleGo_ok (t : Trie) (hs : ShapeValid t.nodes) :
    ∀ (fuel i : Nat) (nd : Node), t.nodes[i]? = some nd → t.nodes.length - i < fuel →
      ∀ (id : Nat) (w : List Char), ∃ res, t.sampleGo fuel nd id w = some (Except.ok res) := by
  intro fuel
  induction fuel with
  | zero =>
    intro i nd hnd hlt id w
    omega
  | succ fuel ih =>
    intro i nd hnd hlt id w
    have hch : ∀ p ∈ nd.children, p.2 < t.nodes.length := fun p hp => (hs i nd hnd p hp).2
    rcases sampleScan_result t nd.children id hch with
      ⟨id', hscan⟩ | ⟨k, c, child, id', hmem, hc, hscan⟩
    · exact ⟨w, by simp [Trie.sampleGo, hscan]⟩
    · have hci : i < c := (hs i nd hnd (k, c) hmem).1
      have hclen : c < t.nodes.length := (hs i nd hnd (k, c) hmem).2
      have hi : i < t.nodes.length := getElem?_some_lt _ _ _ hnd
      obtain ⟨res, hres⟩ := ih c child hc (by omega) id' (w ++ k)
      exact ⟨res, by simp [Trie.sampleGo, hscan, hres]⟩

theorem sample_ok (t : Trie) (hs : ShapeValid t.nodes) (root : Node)
    (hroot : t.nodes[0]? = some root) (hc : root.count ≠ 0) (id : Nat) :
    ∃ w, t.sample id = some (Except.ok w) := by
  obtain ⟨res, hres⟩ :=
    sampleGo_ok t hs (t.nodes.length + 1) 0 root hroot (by omega) (id % root.count) []
  refine ⟨res, ?_⟩
  simp [Trie.sample, hroot, hc, hres]

theorem sample_mod (t : Trie) (root : Node) (hroot : t.nodes[0]? = some root)
    (hpos : root.count ≠ 0) (id : Nat) :
    t.sample (id + root.count) = t.sample id := by
  simp only [Trie.sample, hroot, hpos, if_false, Nat.add_mod_right]

/-! Insertion succeeds and preserves the shape invariant. -/

theorem shapeValid_set_same_children (nodes : List Node) (i : Nat) (nd nd' : Node)
    (h : ShapeValid nodes) (hnd : nodes[i]? = some nd) (hch : nd'.children = nd.children) :
    ShapeValid (nodes.set i nd') := by
  intro j m hm p hp
  rw [List.length_set]
  by_cases hji : j = i
  · subst hji
    rw [List.getElem?_set_self (getElem?_some_lt _ _ _ hnd)] at hm
    cases hm
    rw [hch] at hp
    exact h j nd hnd p hp
  · rw [List.getElem?_set_ne (fun he => hji he.symm)] at hm
    exact h j m hm p hp

theorem shapeValid_append_child (nodes : List Node) (i : Nat) (nd : Node) (k : List Char)
    (cnt : Nat) (h : ShapeValid nodes) (hnd : nodes[i]? = some nd) :
    ShapeValid ((nodes.set i ⟨nd.children ++ [(k, nodes.length)], cnt⟩) ++ [Node.new]) := by
  intro j m hm p hp
  have hlen : ((nodes.set i ⟨nd.children ++ [(k, nodes.length)], cnt⟩) ++ [Node.new]).length
      = nodes.length + 1 := by simp
  rw [hlen]
  by_cases hj : j < nodes.length
  · rw [List.getElem?_append_left (by simpa using hj)] at hm
    by_cases hji : j = i
    · subst hji
      rw [List.getElem?_set_self (getElem?_some_lt _ _ _ hnd)] at hm
      cases hm
      rcases List.mem_append.mp hp with hold | hnew
      · obtain ⟨h1, h2⟩ := h j nd hnd p hold
        exact ⟨h1, by omega⟩
      · rcases List.mem_singleton.mp hnew with rfl
        exact ⟨getElem?_some_lt _ _ _ hnd, by omega⟩
    · rw [List.getElem?_set_ne (fun he => hji he.symm)] at hm
      obtain ⟨h1, h2⟩ := h j m hm p hp
      exact ⟨h1, by omega⟩
  · rw [List.getElem?_append_right (by simpa using Nat.le_of_not_lt hj)] at hm
    have : m = Node.new := by
      rcases List.getElem?_eq_some_iff.mp hm with ⟨hb, hv⟩
      simp at hv
      exact hv.symm
    subst this
    simp [Node.new] at hp

theorem insertGo_ok_shape : ∀ (w : List Char) (t : Trie) (i : Nat), ShapeValid t.nodes →
    i < t.nodes.length →
    ∃ t', Trie.insertGo t i w = Except.ok t' ∧ ShapeValid t'.nodes ∧
      t.nodes.length ≤ t'.nodes.length := by
  intro w
  induction w with
  | nil =>
    intro t i hs hi
    obtain ⟨nd, hnd⟩ := exists_getElem?_of_lt t.nodes hi
    refine ⟨t.setNode i ⟨nd.children, nd.count + 1⟩, ?_, ?_, ?_⟩
    · simp [Trie.insertGo, hnd]
    · exact shapeValid_set_same_children _ i nd _ hs hnd rfl
    · simp [Trie.setNode]
  | cons ch rest ih =>
    intro t i hs hi
    obtain ⟨nd, hnd⟩ := exists_getElem?_of_lt t.nodes hi
    have hs1 : ShapeValid (t.setNode i ⟨nd.children, nd.count + 1⟩).nodes :=
      shapeValid_set_same_children _ i nd _ hs hnd rfl
    have hlen1 : (t.setNode i ⟨nd.children, nd.count + 1⟩).nodes.length = t.nodes.length := by
      simp [Trie.setNode]
    cases hg : assocGet nd.children [ch] with
    | some index =>
      have hmem : ([ch], index) ∈ nd.children := assocGet_some_mem _ _ _ hg
      have hidx : index < t.nodes.length := (hs i nd hnd _ hmem).2
      obtain ⟨t', h1, h2, h3⟩ :=
        ih (t.setNode i ⟨nd.children, nd.count + 1⟩) index hs1 (by omega)
      refine ⟨t', ?_, h2, by omega⟩
      simp only [Trie.insertGo, hnd, hg]
      exact h1
    | none =>
      have hnd1 : (t.setNode i ⟨nd.children, nd.count + 1⟩).nodes[i]?
          = some ⟨nd.children, nd.count + 1⟩ := by
        simp only [Trie.setNode]
        exact List.getElem?_set_self (by omega)
      have hadd : (t.setNode i ⟨nd.children, nd.count + 1⟩).addNode i [ch] =
          Except.ok (⟨((t.setNode i ⟨nd.children, nd.count + 1⟩).nodes.set i
            ⟨nd.children ++ [([ch], (t.setNode i ⟨nd.children, nd.count + 1⟩).nodes.length)],
              nd.count + 1⟩) ++ [Node.new]⟩,
            (t.setNode i ⟨nd.children, nd.count + 1⟩).nodes.length) := by
        simp only [Trie.addNode, hnd1, hg]
      set t1 := t.setNode i ⟨nd.children, nd.count + 1⟩ with ht1
      set t2 : Trie := ⟨(t1.nodes.set i
        ⟨nd.children ++ [([ch], t1.nodes.length)], nd.count + 1⟩) ++ [Node.new]⟩ with ht2
      have hs2 : ShapeValid t2.nodes := by
        have := shapeValid_append_child t1.nodes i ⟨nd.children, nd.count + 1⟩ [ch]
          (nd.count + 1) hs1 hnd1
        exact this
      have hlen2 : t2.nodes.length = t.nodes.length + 1 := by
        simp [ht2, hlen1]
      obtain ⟨t', h1, h2, h3⟩ := ih t2 t1.nodes.length hs2 (by rw [hlen2, hlen1]; omega)
      refine ⟨t', ?_, h2, by omega⟩
      simp only [Trie.insertGo, hnd, hg, hadd]
      exact h1

theorem insertAll_ok_shape : ∀ (ws : List (List Char)) (t : Trie), ShapeValid t.nodes →
    0 < t.nodes.length →
    ∃ t', t.insertAll ws = Except.ok t' ∧ ShapeValid t'.nodes ∧
      t.nodes.length ≤ t'.nodes.length := by
  intro ws
  induction ws with
  | nil => intro t hs hn; exact ⟨t, rfl, hs, le_refl _⟩
  | cons w rest ih =>
    intro t hs hn
    obtain ⟨t1, h1, hs1, hl1⟩ := insertGo_ok_shape w t 0 hs hn
    obtain ⟨t', h2, hs2, hl2⟩ := ih t1 hs1 (by omega)
    refine ⟨t', ?_, hs2, by omega⟩
    simp only [Trie.insertAll, Trie.insert, h1]
    exact h2

theorem new_shape : ShapeValid Trie.new.nodes := by
  intro i nd hnd p hp
  match i, hnd with
  | 0, h =>
    simp only [Trie.new, Node.new] at h
    cases h
    simp at hp

theorem built_shape {ws : List (List Char)} {t : Trie} (h : Built ws t) :
    ShapeValid t.nodes ∧ 0 < t.nodes.length := by
  obtain ⟨t', h1, h2, h3⟩ := insertAll_ok_shape ws Trie.new new_shape (by simp [Trie.new])
  rw [Built] at h
  rw [h] at h1
  cases h1
  exact ⟨h2, by simpa [Trie.new] using h3⟩

end Toipe

namespace Toipe

/-! List update helpers. -/

theorem set_self_of_getElem? {α : Type} (l : List α) (i : Nat) (x : α) (h : l[i]? = some x) :
    l.set i x = l := by
  apply List.ext_getElem?
  intro j
  by_cases hj : j = i
  · subst hj
    rw [List.getElem?_set_self (getElem?_some_lt _ _ _ h)]
    exact h.symm
  · exact List.getElem?_set_ne (fun he => hj he.symm)

theorem getD_set_self {α : Type} (l : List α) (i : Nat) (a d : α) (h : i < l.length) :
    (l.set i a).getD i d = a := by
  simp [List.getD, List.getElem?_set_self h]

theorem getD_set_ne {α : Type} (l : List α) (i j : Nat) (a d : α) (h : i ≠ j) :
    (l.set i a).getD j d = l.getD j d := by
  simp [List.getD, List.getElem?_set_ne h]

theorem getD_eq_of_getElem? {α : Type} (l : List α) (i : Nat) (x d : α) (h : l[i]? = some x) :
    l.getD i d = x := by
  simp [List.getD, h]

/-! Association list lemmas. -/

theorem assocGet_none_keys (m : List (List Char × Nat)) (k : List Char)
    (h : assocGet m k = none) : ∀ p ∈ m, p.1 ≠ k := by
  induction m with
  | nil => intro p hp; simp at hp
  | cons q rest ih =>
    obtain ⟨k', v'⟩ := q
    simp only [assocGet] at h
    by_cases hk : k' = k
    · rw [if_pos hk] at h; cases h
    · rw [if_neg hk] at h
      intro p hp
      rcases List.mem_cons.mp hp with rfl | hmem
      · exact hk
      · exact ih h p hmem

theorem keys_nodup_split (m : List (List Char × Nat)) (k : List Char) (v : Nat)
    (hmem : (k, v) ∈ m) (hnd : (m.map Prod.fst).Nodup) :
    ∃ m1 m2, m = m1 ++ (k, v) :: m2 ∧ (∀ p ∈ m1, p.1 ≠ k) ∧ (∀ p ∈ m2, p.1 ≠ k) := by
  induction m with
  | nil => simp at hmem
  | cons q rest ih =>
    rw [List.map_cons, List.nodup_cons] at hnd
    rcases List.mem_cons.mp hmem with rfl | hmem'
    · refine ⟨[], rest, rfl, by simp, ?_⟩
      intro p hp hpk
      have hx : k ∈ List.map Prod.fst rest := by
        rw [← hpk]
        exact List.mem_map_of_mem Prod.fst hp
      exact hnd.1 hx
    · obtain ⟨m1, m2, heq, h1, h2⟩ := ih hmem' hnd.2
      refine ⟨q :: m1, m2, by rw [heq]; rfl, ?_, h2⟩
      intro p hp
      rcases List.mem_cons.mp hp with rfl | hp'
      · intro hpk
        have hx : k ∈ List.map Prod.fst rest := List.mem_map_of_mem Prod.fst hmem'
        exact hnd.1 (by rw [hpk]; exact hx)
      · exact h1 p hp'

theorem assocErase_of_split (m1 m2 : List (List Char × Nat)) (k : List Char) (v : Nat)
    (h1 : ∀ p ∈ m1, p.1 ≠ k) : assocErase (m1 ++ (k, v) :: m2) k = m1 ++ m2 := by
  induction m1 with
  | nil => simp [assocErase]
  | cons q rest ih =>
    obtain ⟨k', v'⟩ := q
    have hk : k' ≠ k := h1 (k', v') (List.mem_cons_self _ _)
    simp only [List.cons_append, assocErase, if_neg hk]
    exact congrArg _ (ih (fun p hp => h1 p (List.mem_cons_of_mem _ hp)))

theorem assocInsert_of_notin (m : List (List Char × Nat)) (k : List Char) (v : Nat)
    (h : ∀ p ∈ m, p.1 ≠ k) : assocInsert m k v = m ++ [(k, v)] := by
  induction m with
  | nil => rfl
  | cons q rest ih =>
    obtain ⟨k', v'⟩ := q
    have hk : k' ≠ k := h (k', v') (List.mem_cons_self _ _)
    simp only [assocInsert, if_neg hk, List.cons_append]
    exact congrArg _ (ih (fun p hp => h p (List.mem_cons_of_mem _ hp)))

theorem assocSetValue_of_split (m1 m2 : List (List Char × Nat)) (k : List Char) (v v' : Nat)
    (h1 : ∀ p ∈ m1, p.1 ≠ k) :
    assocSetValue (m1 ++ (k, v) :: m2) k v' = m1 ++ (k, v') :: m2 := by
  induction m1 with
  | nil => simp [assocSetValue]
  | cons q rest ih =>
    obtain ⟨k', v''⟩ := q
    have hk : k' ≠ k := h1 (k', v'') (List.mem_cons_self _ _)
    simp only [List.cons_append, assocSetValue, if_neg hk]
    exact congrArg _ (ih (fun p hp => h1 p (List.mem_cons_of_mem _ hp)))

/-! One-step unfolding lemmas for the fueled denotations. -/

theorem denB_zero (nodes : List Node) (i : Nat) : denB nodes 0 i = 0 := rfl

theorem denB_none (nodes : List Node) (i : Nat) (b : Nat) (h : nodes[i]? = none) :
    denB nodes (b + 1) i = 0 := by
  simp only [denB, h]

theorem denB_some (nodes : List Node) (i : Nat) (nd : Node) (b : Nat)
    (h : nodes[i]? = some nd) :
    denB nodes (b + 1) i =
      (nd.count - sumCounts nodes nd.children) • ({[]} : Multiset (List Char)) +
        (nd.children.map (fun p =>
          if i < p.2 then Multiset.map (fun w => p.1 ++ w) (denB nodes b p.2) else 0)).sum := by
  simp only [denB, h]

theorem denMB_zero (orig newN : List Node) (S f : List Nat) (j : Nat) :
    denMB orig newN S f 0 j = 0 := rfl

theorem denMB_pending (orig newN : List Node) (S f : List Nat) (b j : Nat) (h : j ∈ S) :
    denMB orig newN S f (b + 1) j = den orig (f.getD j 0) := by
  simp only [denMB, h, if_true]

theorem denMB_done_none (orig newN : List Node) (S f : List Nat) (b j : Nat) (h1 : j ∉ S)
    (h2 : newN[j]? = none) : denMB orig newN S f (b + 1) j = 0 := by
  simp only [denMB, h1, if_false, h2]

theorem denMB_done_some (orig newN : List Node) (S f : List Nat) (b j : Nat) (nd : Node)
    (h1 : j ∉ S) (h2 : newN[j]? = some nd) :
    denMB orig newN S f (b + 1) j =
      (nd.count - sumCounts newN nd.children) • ({[]} : Multiset (List Char)) +
        (nd.children.map (fun p =>
          if j < p.2 then Multiset.map (fun w => p.1 ++ w) (denMB orig newN S f b p.2)
          else 0)).sum := by
  simp only [denMB, h1, if_false, h2]

/-! Fuel stability of the denotations. -/

theorem denB_stable_succ (nodes : List Node) :
    ∀ (b i : Nat), nodes.length - i ≤ b → denB nodes (b + 1) i = denB nodes b i := by
  intro b
  induction b with
  | zero =>
    intro i hi
    have hn : nodes[i]? = none := List.getElem?_eq_none_iff.mpr (by omega)
    rw [denB_none nodes i 0 hn, denB_zero]
  | succ b ih =>
    intro i hi
    by_cases hlen : i < nodes.length
    case neg =>
      have hn : nodes[i]? = none := List.getElem?_eq_none_iff.mpr (by omega)
      rw [denB_none nodes i (b + 1) hn, denB_none nodes i b hn]
    case pos =>
      cases hnd : nodes[i]? with
      | none => rw [denB_none nodes i b hnd, denB_none nodes i (b + 1) hnd]
      | some nd =>
        rw [denB_some nodes i nd (b + 1) hnd, denB_some nodes i nd b hnd]
        refine congrArg _ (congrArg _ (List.map_congr_left ?_))
        intro p _
        by_cases hp : i < p.2
        · rw [if_pos hp, if_pos hp, ih p.2 (by omega)]
        · rw [if_neg hp, if_neg hp]

theorem denB_stable (nodes : List Node) (i : Nat) :
    ∀ (b b' : Nat), nodes.length - i ≤ b → nodes.length - i ≤ b' →
      denB nodes b i = denB nodes b' i := by
  have aux : ∀ (d b : Nat), nodes.length - i ≤ b → denB nodes (b + d) i = denB nodes b i := by
    intro d
    induction d with
    | zero => intro b _; rfl
    | succ d ih =>
      intro b hb
      have h1 : b + (d + 1) = (b + d) + 1 := by omega
      rw [h1, denB_stable_succ nodes (b + d) i (by omega), ih b hb]
  intro b b' hb hb'
  rcases Nat.le_total b b' with h | h
  · rw [show b' = b + (b' - b) by omega, aux (b' - b) b hb]
  · rw [show b = b' + (b - b') by omega, aux (b - b') b' hb']

theorem den_eq_denB (nodes : List Node) (i : Nat) (b : Nat) (hb : nodes.length - i ≤ b) :
    den nodes i = denB nodes b i :=
  denB_stable nodes i nodes.length b (by omega) hb

theorem denMB_stable_succ (orig newN : List Node) (S : List Nat) (f : List Nat)
    (hS : ∀ j ∈ S, j < newN.length) :
    ∀ (b j : Nat), newN.length - j ≤ b → denMB orig newN S f (b + 1) j = denMB orig newN S f b j := by
  intro b
  induction b with
  | zero =>
    intro j hj
    have hnot : j ∉ S := fun hc => by have := hS j hc; omega
    have hn : newN[j]? = none := List.getElem?_eq_none_iff.mpr (by omega)
    rw [denMB_done_none orig newN S f 0 j hnot hn, denMB_zero]
  | succ b ih =>
    intro j hj
    by_cases hjS : j ∈ S
    · rw [denMB_pending orig newN S f (b + 1) j hjS, denMB_pending orig newN S f b j hjS]
    · cases hnd : newN[j]? with
      | none =>
        rw [denMB_done_none orig newN S f (b + 1) j hjS hnd,
          denMB_done_none orig newN S f b j hjS hnd]
      | some nd =>
        have hjlen : j < newN.length := getElem?_some_lt _ _ _ hnd
        rw [denMB_done_some orig newN S f (b + 1) j nd hjS hnd,
          denMB_done_some orig newN S f b j nd hjS hnd]
        refine congrArg _ (congrArg _ (List.map_congr_left ?_))
        intro p _
        by_cases hp : j < p.2
        · rw [if_pos hp, if_pos hp, ih p.2 (by omega)]
        · rw [if_neg hp, if_neg hp]

theorem denMB_stable (orig newN : List Node) (S : List Nat) (f : List Nat)
    (hS : ∀ j ∈ S, j < newN.length) (j : Nat) :
    ∀ (b b' : Nat), newN.length - j ≤ b → newN.length - j ≤ b' →
      denMB orig newN S f b j = denMB orig newN S f b' j := by
  have aux : ∀ (d b : Nat), newN.length - j ≤ b →
      denMB orig newN S f (b + d) j = denMB orig newN S f b j := by
    intro d
    induction d with
    | zero => intro b _; rfl
    | succ d ih =>
      intro b hb
      have h1 : b + (d + 1) = (b + d) + 1 := by omega
      rw [h1, denMB_stable_succ orig newN S f hS (b + d) j (by omega), ih b hb]
  intro b b' hb hb'
  rcases Nat.le_total b b' with h | h
  · rw [show b' = b + (b' - b) by omega, aux (b' - b) b hb]
  · rw [show b = b' + (b - b') by omega, aux (b - b') b' hb']

theorem denMB_empty (orig newN : List Node) (f : List Nat) :
    ∀ (b j : Nat), denMB orig newN [] f b j = denB newN b j := by
  intro b
  induction b with
  | zero => intro j; rfl
  | succ b ih =>
    intro j
    cases hnd : newN[j]? with
    | none =>
      rw [denMB_done_none orig newN [] f b j (List.not_mem_nil j) hnd, denB_none newN j b hnd]
    | some nd =>
      rw [denMB_done_some orig newN [] f b j nd (List.not_mem_nil j) hnd,
        denB_some newN j nd b hnd]
      refine congrArg _ (congrArg _ (List.map_congr_left ?_))
      intro p _
      by_cases hp : j < p.2
      · rw [if_pos hp, if_pos hp, ih p.2]
      · rw [if_neg hp, if_neg hp]

theorem denB_congr (nodes nodes' : List Node) :
    ∀ (b i : Nat), (∀ m, Reach nodes i m → nodes'[m]? = nodes[m]?) →
      denB nodes' b i = denB nodes b i := by
  intro b
  induction b with
  | zero => intro i _; rfl
  | succ b ih =>
    intro i h
    cases hnd : nodes[i]? with
    | none =>
      have hn' : nodes'[i]? = none := by rw [h i (Reach.refl i), hnd]
      rw [denB_none nodes' i b hn', denB_none nodes i b hnd]
    | some nd =>
      have hi' : nodes'[i]? = some nd := by rw [h i (Reach.refl i), hnd]
      have hsum : sumCounts nodes' nd.children = sumCounts nodes nd.children := by
        unfold sumCounts
        refine congrArg _ (List.map_congr_left ?_)
        intro p hp
        unfold countAt
        rw [h p.2 (Reach.edge i nd p hnd hp)]
      rw [denB_some nodes' i nd b hi', denB_some nodes i nd b hnd, hsum]
      refine congrArg _ (congrArg _ (List.map_congr_left ?_))
      intro p hp
      by_cases hlt : i < p.2
      · rw [if_pos hlt, if_pos hlt,
          ih p.2 (fun m hm => h m (Reach.step i m nd p hnd hp hlt hm))]
      · rw [if_neg hlt, if_neg hlt]

end Toipe

namespace Toipe

theorem setAt?_some {α : Type} (l : List α) (i : Nat) (a : α) (l' : List α)
    (h : setAt? l i a = some l') : i < l.length ∧ l' = l.set i a := by
  unfold setAt? at h
  by_cases hc : i < l.length
  · rw [if_pos hc] at h
    cases h
    exact ⟨hc, rfl⟩
  · rw [if_neg hc] at h
    cases h

theorem keys_nodup_mid (m1 m2 : List (List Char × Nat)) (k : List Char) (c : Nat)
    (hnd : ((m1 ++ (k, c) :: m2).map Prod.fst).Nodup) :
    (∀ p ∈ m1, p.1 ≠ k) ∧ (∀ p ∈ m2, p.1 ≠ k) := by
  rw [List.map_append, List.map_cons] at hnd
  rcases List.nodup_append.mp hnd with ⟨h1, h2, hdisj⟩
  constructor
  · intro p hp hpk
    exact hdisj (List.mem_map_of_mem Prod.fst hp) (by rw [hpk]; exact List.mem_cons_self _ _)
  · intro p hp hpk
    rcases List.nodup_cons.mp h2 with ⟨hk, _⟩
    have hx : p.1 ∈ List.map Prod.fst m2 := List.mem_map_of_mem Prod.fst hp
    rw [hpk] at hx
    exact hk hx

theorem copyChildren_some (orig : List Node) (index : Nat) :
    ∀ (ch m1 : List (List Char × Nat)) (st st' : CState) (cnt : Nat),
      st.newNodes[index]? = some ⟨m1 ++ ch, cnt⟩ →
      ((m1 ++ ch).map Prod.fst).Nodup →
      copyChildren orig index ch st = some st' →
      ∃ cs : List Node,
        List.Forall₂ (fun (p : List Char × Nat) (cnode : Node) =>
          orig[p.2]? = some cnode) ch cs ∧
        st'.newNodes =
          (st.newNodes.set index ⟨m1 ++ remapAll ch st.newNodes.length, cnt⟩) ++ cs ∧
        st'.stack = (List.range' st.newNodes.length ch.length).reverse ++ st.stack ∧
        st'.parents.length = st.parents.length ∧
        st'.prefixes.length = st.prefixes.length ∧
        (∀ q, q < st.newNodes.length →
          st'.parents[q]? = st.parents[q]? ∧
          st'.prefixes[q]? = st.prefixes[q]?) ∧
        (∀ j p, ch[j]? = some p →
          st'.parents[st.newNodes.length + j]? = some index ∧
          st'.prefixes[st.newNodes.length + j]? = some p.1) := by
  intro ch
  induction ch with
  | nil =>
    intro m1 st st' cnt hget hnd h
    simp only [copyChildren] at h
    cases h
    refine ⟨[], List.Forall₂.nil, ?_, by simp, rfl, rfl, fun q _ => ⟨rfl, rfl⟩, ?_⟩
    · show st.newNodes =
        (st.newNodes.set index ⟨m1 ++ remapAll [] st.newNodes.length, cnt⟩) ++ []
      rw [List.append_nil]
      have hget' : st.newNodes[index]? =
          some ⟨m1 ++ remapAll [] st.newNodes.length, cnt⟩ := hget
      exact (set_self_of_getElem? _ _ _ hget').symm
    · intro j p hp
      simp at hp
  | cons q restCh ih =>
    intro m1 st st' cnt hget hnd h
    obtain ⟨k, c⟩ := q
    have hidx : index < st.newNodes.length := getElem?_some_lt _ _ _ hget
    simp only [copyChildren, hget] at h
    cases horig : orig[c]? with
    | none => rw [horig] at h; cases h
    | some cnode =>
      rw [horig] at h
      cases hpa : setAt? st.parents st.newNodes.length index with
      | none => rw [hpa] at h; cases h
      | some pa' =>
        rw [hpa] at h
        cases hpf : setAt? st.prefixes st.newNodes.length k with
        | none => rw [hpf] at h; cases h
        | some pfx' =>
          rw [hpf] at h
          obtain ⟨hpaLt, hpaEq⟩ := setAt?_some _ _ _ _ hpa
          obtain ⟨hpfLt, hpfEq⟩ := setAt?_some _ _ _ _ hpf
          obtain ⟨hm1k, _⟩ := keys_nodup_mid m1 restCh k c hnd
          have hsetv : assocSetValue (m1 ++ (k, c) :: restCh) k st.newNodes.length =
              (m1 ++ [(k, st.newNodes.length)]) ++ restCh := by
            rw [assocSetValue_of_split m1 restCh k c st.newNodes.length hm1k]
            simp
          set st1 : CState :=
            ⟨(st.newNodes.set index
                ⟨assocSetValue (⟨m1 ++ (k, c) :: restCh, cnt⟩ : Node).children k
                  st.newNodes.length, cnt⟩) ++ [cnode],
              pfx', pa', st.newNodes.length :: st.stack⟩ with hst1
          have hget1 : st1.newNodes[index]? =
              some ⟨(m1 ++ [(k, st.newNodes.length)]) ++ restCh, cnt⟩ := by
            show ((st.newNodes.set index _) ++ [cnode])[index]? = _
            rw [List.getElem?_append_left (by rw [List.length_set]; exact hidx),
              List.getElem?_set_self hidx]
            simp only [hsetv]
          have hnd1 : (((m1 ++ [(k, st.newNodes.length)]) ++ restCh).map Prod.fst).Nodup := by
            have : ((m1 ++ [(k, st.newNodes.length)]) ++ restCh).map Prod.fst =
                (m1 ++ (k, c) :: restCh).map Prod.fst := by simp
            rw [this]
            exact hnd
          have hlen1 : st1.newNodes.length = st.newNodes.length + 1 := by
            simp [hst1]
          obtain ⟨cs', hfa, hnn, hstk, hplen, hflen, hpres, hnew⟩ :=
            ih (m1 ++ [(k, st.newNodes.length)]) st1 st' cnt hget1 hnd1 h
          refine ⟨cnode :: cs', List.Forall₂.cons horig hfa, ?_, ?_, ?_, ?_, ?_, ?_⟩
          · rw [hnn, hlen1]
            have hre : remapAll ((k, c) :: restCh) st.newNodes.length =
                (k, st.newNodes.length) :: remapAll restCh (st.newNodes.length + 1) := rfl
            rw [hre]
            show ((st.newNodes.set index _ ++ [cnode]).set index _) ++ cs' = _
            rw [List.set_append_left _ _ (by rw [List.length_set]; exact hidx),
              List.set_set]
            simp
          · rw [hstk, hlen1, hst1]
            show (List.range' (st.newNodes.length + 1) restCh.length).reverse ++
              (st.newNodes.length :: st.stack) = _
            have : List.range' st.newNodes.length (restCh.length + 1) =
                st.newNodes.length :: List.range' (st.newNodes.length + 1) restCh.length := rfl
            rw [List.length_cons, this]
            simp
          · rw [hplen, hst1]
            show pa'.length = _
            rw [hpaEq, List.length_set]
          · rw [hflen, hst1]
            show pfx'.length = _
            rw [hpfEq, List.length_set]
          · intro q hq
            obtain ⟨hp1, hp2⟩ := hpres q (by omega)
            constructor
            · rw [hp1]
              show pa'[q]? = _
              rw [hpaEq, List.getElem?_set_ne (by omega)]
            · rw [hp2]
              show pfx'[q]? = _
              rw [hpfEq, List.getElem?_set_ne (by omega)]
          · intro j p hp
            cases j with
            | zero =>
              simp only [List.getElem?_cons_zero] at hp
              cases hp
              obtain ⟨hp1, hp2⟩ := hpres st.newNodes.length (by omega)
              constructor
              · rw [Nat.add_zero, hp1]
                show pa'[st.newNodes.length]? = some index
                rw [hpaEq, List.getElem?_set_self hpaLt]
              · rw [Nat.add_zero, hp2]
                show pfx'[st.newNodes.length]? = _
                rw [hpfEq, List.getElem?_set_self hpfLt]
            | succ j =>
              simp only [List.getElem?_cons_succ] at hp
              obtain ⟨hp1, hp2⟩ := hnew j p hp
              rw [hlen1] at hp1 hp2
              constructor
              · rw [show st.newNodes.length + (j + 1) = st.newNodes.length + 1 + j by omega]
                exact hp1
              · rw [show st.newNodes.length + (j + 1) = st.newNodes.length + 1 + j by omega]
                exact hp2

end Toipe

namespace Toipe

/-! Counting lemmas for reference counts. -/

theorem getElem?_sum_le (l : List Nat) : ∀ (i a : Nat), l[i]? = some a → a ≤ l.sum := by
  induction l with
  | nil => intro i a h; simp at h
  | cons x rest ih =>
    intro i a h
    cases i with
    | zero =>
      simp only [List.getElem?_cons_zero] at h
      cases h
      simp [List.sum_cons]
    | succ i =>
      simp only [List.getElem?_cons_succ] at h
      have := ih i a h
      simp only [List.sum_cons]
      omega

theorem two_getElem?_sum_le (l : List Nat) : ∀ (i1 i2 a b : Nat), i1 ≠ i2 →
    l[i1]? = some a → l[i2]? = some b → a + b ≤ l.sum := by
  induction l with
  | nil => intro i1 i2 a b _ h; simp at h
  | cons x rest ih =>
    intro i1 i2 a b hne h1 h2
    cases i1 with
    | zero =>
      simp only [List.getElem?_cons_zero] at h1
      cases h1
      cases i2 with
      | zero => exact absurd rfl hne
      | succ i2 =>
        simp only [List.getElem?_cons_succ] at h2
        have := getElem?_sum_le rest i2 b h2
        simp only [List.sum_cons]
        omega
    | succ i1 =>
      simp only [List.getElem?_cons_succ] at h1
      cases i2 with
      | zero =>
        simp only [List.getElem?_cons_zero] at h2
        cases h2
        have := getElem?_sum_le rest i1 a h1
        simp only [List.sum_cons]
        omega
      | succ i2 =>
        simp only [List.getElem?_cons_succ] at h2
        have := ih i1 i2 a b (fun he => hne (by rw [he])) h1 h2
        simp only [List.sum_cons]
        omega

theorem mem_two_le_length {α : Type} (l : List α) (a b : α) (ha : a ∈ l) (hb : b ∈ l)
    (hne : a ≠ b) : 2 ≤ l.length := by
  induction l with
  | nil => simp at ha
  | cons x rest ih =>
    rcases List.mem_cons.mp ha with rfl | ha'
    · rcases List.mem_cons.mp hb with rfl | hb'
      · exact absurd rfl hne
      · have : 1 ≤ rest.length := List.length_pos.mpr (List.ne_nil_of_mem hb')
        simp only [List.length_cons]
        omega
    · have : 1 ≤ rest.length := List.length_pos.mpr (List.ne_nil_of_mem ha')
      simp only [List.length_cons]
      omega

theorem refCount_entry_le (nodes : List Node) (j : Nat) (nd : Node) (c : Nat)
    (h : nodes[j]? = some nd) :
    (nd.children.filter (fun p => p.2 = c)).length ≤ refCount nodes c := by
  unfold refCount
  refine getElem?_sum_le _ j _ ?_
  rw [List.getElem?_map, h]
  rfl

theorem refCount_pos (nodes : List Node) (j : Nat) (nd : Node) (p : List Char × Nat) (c : Nat)
    (h : nodes[j]? = some nd) (hp : p ∈ nd.children) (hc : p.2 = c) :
    1 ≤ refCount nodes c := by
  refine le_trans ?_ (refCount_entry_le nodes j nd c h)
  have : p ∈ nd.children.filter (fun p => p.2 = c) :=
    List.mem_filter.mpr ⟨hp, by simp [hc]⟩
  exact List.length_pos.mpr (List.ne_nil_of_mem this)

theorem refCount_two (nodes : List Node) (j1 j2 : Nat) (nd1 nd2 : Node)
    (p1 p2 : List Char × Nat) (c : Nat) (hne : j1 ≠ j2)
    (h1 : nodes[j1]? = some nd1) (h2 : nodes[j2]? = some nd2)
    (hp1 : p1 ∈ nd1.children) (hp2 : p2 ∈ nd2.children)
    (hc1 : p1.2 = c) (hc2 : p2.2 = c) : 2 ≤ refCount nodes c := by
  unfold refCount
  have e1 : (nodes.map (fun nd => (nd.children.filter (fun p => p.2 = c)).length))[j1]? =
      some ((nd1.children.filter (fun p => p.2 = c)).length) := by
    rw [List.getElem?_map, h1]; rfl
  have e2 : (nodes.map (fun nd => (nd.children.filter (fun p => p.2 = c)).length))[j2]? =
      some ((nd2.children.filter (fun p => p.2 = c)).length) := by
    rw [List.getElem?_map, h2]; rfl
  have l1 : 1 ≤ (nd1.children.filter (fun p => p.2 = c)).length :=
    List.length_pos.mpr (List.ne_nil_of_mem (List.mem_filter.mpr ⟨hp1, by simp [hc1]⟩))
  have l2 : 1 ≤ (nd2.children.filter (fun p => p.2 = c)).length :=
    List.length_pos.mpr (List.ne_nil_of_mem (List.mem_filter.mpr ⟨hp2, by simp [hc2]⟩))
  have := two_getElem?_sum_le _ j1 j2 _ _ hne e1 e2
  omega

theorem refCount_two_same (nodes : List Node) (j : Nat) (nd : Node)
    (p1 p2 : List Char × Nat) (c : Nat) (h : nodes[j]? = some nd)
    (hp1 : p1 ∈ nd.children) (hp2 : p2 ∈ nd.children) (hne : p1 ≠ p2)
    (hc1 : p1.2 = c) (hc2 : p2.2 = c) : 2 ≤ refCount nodes c := by
  refine le_trans ?_ (refCount_entry_le nodes j nd c h)
  exact mem_two_le_length _ p1 p2 (List.mem_filter.mpr ⟨hp1, by simp [hc1]⟩)
    (List.mem_filter.mpr ⟨hp2, by simp [hc2]⟩) hne

theorem doneRefCount_entry_le (st : CState) (j : Nat) (nd : Node) (c : Nat)
    (hj : j ∉ st.stack) (h : st.newNodes[j]? = some nd) :
    (nd.children.filter (fun p => p.2 = c)).length ≤ doneRefCount st c := by
  unfold doneRefCount
  refine getElem?_sum_le _ j _ ?_
  rw [List.getElem?_map]
  rw [List.getElem?_range (getElem?_some_lt _ _ _ h)]
  simp [hj, h]

theorem doneRefCount_pos (st : CState) (j : Nat) (nd : Node) (p : List Char × Nat) (c : Nat)
    (hj : j ∉ st.stack) (h : st.newNodes[j]? = some nd) (hp : p ∈ nd.children) (hc : p.2 = c) :
    1 ≤ doneRefCount st c := by
  refine le_trans ?_ (doneRefCount_entry_le st j nd c hj h)
  exact List.length_pos.mpr (List.ne_nil_of_mem (List.mem_filter.mpr ⟨hp, by simp [hc]⟩))

theorem doneRefCount_two (st : CState) (j1 j2 : Nat) (nd1 nd2 : Node)
    (p1 p2 : List Char × Nat) (c : Nat) (hne : j1 ≠ j2)
    (hj1 : j1 ∉ st.stack) (hj2 : j2 ∉ st.stack)
    (h1 : st.newNodes[j1]? = some nd1) (h2 : st.newNodes[j2]? = some nd2)
    (hp1 : p1 ∈ nd1.children) (hp2 : p2 ∈ nd2.children)
    (hc1 : p1.2 = c) (hc2 : p2.2 = c) : 2 ≤ doneRefCount st c := by
  unfold doneRefCount
  have e1 : ((List.range st.newNodes.length).map (fun j =>
      if j ∈ st.stack then 0
      else match st.newNodes[j]? with
        | none => 0
        | some nd => (nd.children.filter (fun p => p.2 = c)).length))[j1]? =
      some ((nd1.children.filter (fun p => p.2 = c)).length) := by
    rw [List.getElem?_map, List.getElem?_range (getElem?_some_lt _ _ _ h1)]
    simp [hj1, h1]
  have e2 : ((List.range st.newNodes.length).map (fun j =>
      if j ∈ st.stack then 0
      else match st.newNodes[j]? with
        | none => 0
        | some nd => (nd.children.filter (fun p => p.2 = c)).length))[j2]? =
      some ((nd2.children.filter (fun p => p.2 = c)).length) := by
    rw [List.getElem?_map, List.getElem?_range (getElem?_some_lt _ _ _ h2)]
    simp [hj2, h2]
  have l1 : 1 ≤ (nd1.children.filter (fun p => p.2 = c)).length :=
    List.length_pos.mpr (List.ne_nil_of_mem (List.mem_filter.mpr ⟨hp1, by simp [hc1]⟩))
  have l2 : 1 ≤ (nd2.children.filter (fun p => p.2 = c)).length :=
    List.length_pos.mpr (List.ne_nil_of_mem (List.mem_filter.mpr ⟨hp2, by simp [hc2]⟩))
  have := two_getElem?_sum_le _ j1 j2 _ _ hne e1 e2
  omega

theorem doneRefCount_two_same (st : CState) (j : Nat) (nd : Node)
    (p1 p2 : List Char × Nat) (c : Nat) (hj : j ∉ st.stack) (h : st.newNodes[j]? = some nd)
    (hp1 : p1 ∈ nd.children) (hp2 : p2 ∈ nd.children) (hne : p1 ≠ p2)
    (hc1 : p1.2 = c) (hc2 : p2.2 = c) : 2 ≤ doneRefCount st c := by
  refine le_trans ?_ (doneRefCount_entry_le st j nd c hj h)
  exact mem_two_le_length _ p1 p2 (List.mem_filter.mpr ⟨hp1, by simp [hc1]⟩)
    (List.mem_filter.mpr ⟨hp2, by simp [hc2]⟩) hne

end Toipe

namespace Toipe

/-! The compress loop invariant: initial state and final-state consequences. -/

theorem cinv_init (orig : List Node) (root : Node) (h0 : orig[0]? = some root)
    (P : List (List Char)) (Pa : List Nat) :
    CInv orig ⟨[root], P, Pa, [0]⟩ [0] [] := by
  refine ⟨rfl, by simp, ?_, ?_, rfl, ?_, ?_, ?_, ?_, ?_, ?_, ?_, ?_, ?_, ?_, ?_, ?_, ?_⟩
  · intro j hj
    simp only [List.mem_singleton] at hj
    subst hj
    simp
  · intro j hj
    simp only [List.mem_singleton] at hj
    subst hj
    simpa using h0.symm
  · intro j hj hj0
    have hj1 : j = 0 := by simp at hj; omega
    exact absurd hj1 hj0
  · intro j hj
    have hj1 : j = 0 := by simp at hj; omega
    subst hj1
    simpa using getElem?_some_lt _ _ _ h0
  · intro j nd hj hnd
    have hj1 : j = 0 := by have := getElem?_some_lt _ _ _ hnd; simp at this; omega
    subst hj1
    exact absurd (List.mem_singleton.mpr rfl) hj
  · intro j nd hj hnd
    have hj1 : j = 0 := by have := getElem?_some_lt _ _ _ hnd; simp at this; omega
    subst hj1
    exact absurd (List.mem_singleton.mpr rfl) hj
  · intro j nd hj hnd
    have hj1 : j = 0 := by have := getElem?_some_lt _ _ _ hnd; simp at this; omega
    subst hj1
    exact absurd (List.mem_singleton.mpr rfl) hj
  · intro j nd hj hnd
    have hj1 : j = 0 := by have := getElem?_some_lt _ _ _ hnd; simp at this; omega
    subst hj1
    exact absurd (List.mem_singleton.mpr rfl) hj
  · intro j hj hjs
    have hj1 : j = 0 := by simp at hj; omega
    subst hj1
    exact absurd (List.mem_singleton.mpr rfl) hjs
  · intro c hc1 hc2
    simp only [List.length_singleton] at hc2
    omega
  · show doneRefCount ⟨[root], P, Pa, [0]⟩ 0 = 0
    have h1 : List.range 1 = [0] := rfl
    simp [doneRefCount, h1]
  · intro c hc hc0
    simp only [List.mem_singleton] at hc
    exact absurd hc hc0
  · show denMB orig [root] [0] [0] 1 0 = den orig 0
    rw [denMB_pending orig [root] [0] [0] 0 0 (List.mem_singleton.mpr rfl)]
    rfl
  · intro x
    constructor
    · intro hr
      exact Or.inr (Or.inl ⟨0, List.mem_singleton.mpr rfl, hr⟩)
    · intro h
      rcases h with ⟨j, hj, hjs, _⟩ | ⟨j, hj, hr⟩ | hx
      · simp only [List.length_singleton] at hj
        have hj1 : j = 0 := by omega
        subst hj1
        exact absurd (List.mem_singleton.mpr rfl) hjs
      · simp only [List.mem_singleton] at hj
        subst hj
        exact hr
      · simp at hx
  · intro x hx
    simp at hx

theorem doneRefCount_stack_empty (st : CState) (hempty : st.stack = []) (c : Nat) :
    doneRefCount st c = refCount st.newNodes c := by
  unfold doneRefCount refCount
  refine congrArg _ ?_
  apply List.ext_getElem
  · simp
  · intro i h1 h2
    simp only [List.getElem_map, List.getElem_range, hempty, List.not_mem_nil, if_false]
    have hlt : i < st.newNodes.length := by simpa using h1
    have : st.newNodes[i]? = some st.newNodes[i] :=
      (List.getElem?_eq_some_getElem_iff _ _ hlt).mpr trivial
    rw [this]

theorem cinv_final_den (orig : List Node) (st : CState) (f spl : List Nat)
    (hinv : CInv orig st f spl) (hempty : st.stack = []) :
    den st.newNodes 0 = den orig 0 := by
  have h1 := hinv.denPres
  rw [hempty] at h1
  rw [denMB_empty orig st.newNodes f st.newNodes.length 0] at h1
  exact h1

theorem cinv_final_shape (orig : List Node) (st : CState) (f spl : List Nat)
    (hinv : CInv orig st f spl) (hempty : st.stack = []) :
    ShapeValid st.newNodes := by
  intro i nd hnd p hp
  exact hinv.doneChild i nd (by rw [hempty]; exact List.not_mem_nil i) hnd p hp

theorem cinv_final_residual (orig : List Node) (hO : OrigOk orig) (st : CState)
    (f spl : List Nat) (hinv : CInv orig st f spl) (hempty : st.stack = []) :
    ResidualOk st.newNodes := by
  intro i nd hnd
  obtain ⟨ond, hond, hcnt, hsum⟩ :=
    hinv.doneCount i nd (by rw [hempty]; exact List.not_mem_nil i) hnd
  rw [hsum, hcnt]
  exact hO.residual (f.getD i 0) ond hond

end Toipe

namespace Toipe

/-! Helpers for the splice case of compression. -/

theorem keysFC_to_nodup (m : List (List Char × Nat))
    (h : (m.map (fun p => p.1.head?)).Nodup) : (m.map Prod.fst).Nodup := by
  have heq : m.map (fun p => p.1.head?) = (m.map Prod.fst).map (fun k => k.head?) := by
    rw [List.map_map]
    rfl
  rw [heq] at h
  exact h.of_map _

theorem head?_append_left {α : Type} (l l' : List α) (h : l ≠ []) :
    (l ++ l').head? = l.head? := by
  cases l with
  | nil => exact absurd rfl h
  | cons a r => rfl

theorem reach_singleton (orig : List Node) (i : Nat) (nd : Node) (cpfx : List Char)
    (cindex : Nat) (h : orig[i]? = some nd) (hch : nd.children = [(cpfx, cindex)])
    (hlt : i < cindex) :
    ∀ x, Reach orig i x ↔ (x = i ∨ Reach orig cindex x) := by
  intro x
  constructor
  · intro hr
    cases hr with
    | refl => exact Or.inl rfl
    | edge _ nd' p h' hp =>
      rw [h] at h'
      cases h'
      rw [hch] at hp
      rcases List.mem_singleton.mp hp with rfl
      exact Or.inr (Reach.refl cindex)
    | step _ _ nd' p h' hp hlt' hr' =>
      rw [h] at h'
      cases h'
      rw [hch] at hp
      rcases List.mem_singleton.mp hp with rfl
      exact Or.inr hr'
  · intro h'
    rcases h' with rfl | hr
    · exact Reach.refl x
    · exact Reach.step i x nd (cpfx, cindex) h (by rw [hch]; exact List.mem_singleton.mpr rfl)
        hlt hr

theorem den_singleton (orig : List Node) (i : Nat) (nd child : Node)
    (cpfx : List Char) (cindex : Nat) (h : orig[i]? = some nd)
    (hch : nd.children = [(cpfx, cindex)]) (hchild : orig[cindex]? = some child)
    (hcnt : nd.count = child.count) (hlt : i < cindex) :
    den orig i = Multiset.map (fun w => cpfx ++ w) (den orig cindex) := by
  have hilen : i < orig.length := getElem?_some_lt _ _ _ h
  have hclen : cindex < orig.length := getElem?_some_lt _ _ _ hchild
  obtain ⟨b, hb⟩ : ∃ b, orig.length = b + 1 := ⟨orig.length - 1, by omega⟩
  have hsum : sumCounts orig nd.children = child.count := by
    rw [hch]
    simp [sumCounts, countAt, hchild]
  have hstab : denB orig b cindex = denB orig (b + 1) cindex :=
    denB_stable orig cindex b (b + 1) (by omega) (by omega)
  show denB orig orig.length i = Multiset.map (fun w => cpfx ++ w) (denB orig orig.length cindex)
  rw [hb, denB_some orig i nd b h, hsum, hcnt, Nat.sub_self, zero_smul, zero_add, hch,
    List.map_singleton, if_pos hlt, List.sum_singleton, hstab]

end Toipe


namespace Toipe

theorem cinv_splice (orig : List Node) (hO : OrigOk orig) (st : CState) (f spl : List Nat)
    (index : Nat) (rest : List Nat) (nd child parentNode : Node)
    (cpfx pfx0 : List Char) (cindex par : Nat)
    (hinv : CInv orig st f spl) (hstk : st.stack = index :: rest) (hidx0 : index ≠ 0)
    (hnd : st.newNodes[index]? = some nd) (hch : nd.children = [(cpfx, cindex)])
    (hchild : orig[cindex]? = some child) (hcnt : nd.count = child.count)
    (hpfx : st.prefixes[index]? = some pfx0) (hpar : st.parents[index]? = some par)
    (hparNode : st.newNodes[par]? = some parentNode) :
    CInv orig
      ⟨(st.newNodes.set par ⟨assocInsert (assocErase parentNode.children pfx0)
          (pfx0 ++ cpfx) index, parentNode.count⟩).set index child,
        st.prefixes.set index (pfx0 ++ cpfx), st.parents, index :: rest⟩
      (f.set index cindex) (f.getD index 0 :: spl) := by
  have hmem : index ∈ st.stack := by rw [hstk]; exact List.mem_cons_self _ _
  have hidxLt : index < st.newNodes.length := hinv.stackLt index hmem
  have hfidx : index < f.length := by rw [hinv.flen]; exact hidxLt
  have hpendO : orig[f.getD index 0]? = some nd := by
    rw [← hinv.pendContent index hmem]; exact hnd
  have hfne : f.getD index 0 ≠ 0 := hinv.fPos index hidxLt hidx0
  have hchmem : (cpfx, cindex) ∈ nd.children := by rw [hch]; exact List.mem_singleton.mpr rfl
  have hOchild := hO.shape (f.getD index 0) nd hpendO (cpfx, cindex) hchmem
  have hflt : f.getD index 0 < cindex := hOchild.1
  have hclen : cindex < orig.length := hOchild.2
  obtain ⟨j0, ndj, hj0done, hj0node, hj0par, key0, hj0key, hj0mem⟩ :=
    hinv.parentTrack index hmem hidx0
  have hj0eq : j0 = par := by rw [hpar] at hj0par; exact (Option.some.inj hj0par).symm
  have hparDone : par ∉ st.stack := by rw [← hj0eq]; exact hj0done
  have hparNode2 : st.newNodes[par]? = some ndj := by rw [← hj0eq]; exact hj0node
  have hndjeq : ndj = parentNode := by
    rw [hparNode] at hparNode2; exact (Option.some.inj hparNode2).symm
  have hkey0eq : key0 = pfx0 := by rw [hpfx] at hj0key; exact (Option.some.inj hj0key).symm
  have hparmem : (pfx0, index) ∈ parentNode.children := by
    rw [← hkey0eq, ← hndjeq]; exact hj0mem
  have hparLt : par < index :=
    (hinv.doneChild par parentNode hparDone hparNode _ hparmem).1
  have hparLen : par < st.newNodes.length := getElem?_some_lt _ _ _ hparNode
  have hparNe : par ≠ index := Nat.ne_of_lt hparLt
  have hfc := hinv.doneKeysFC par parentNode hparDone hparNode
  have hknd := keysFC_to_nodup _ hfc
  obtain ⟨m1, m2, hm, hm1k, hm2k⟩ :=
    keys_nodup_split parentNode.children pfx0 index hparmem hknd
  have hpfx0ne : pfx0 ≠ [] := hinv.doneKeysNe par parentNode hparDone hparNode _ hparmem
  have hheads : ∀ p ∈ m1 ++ m2, p.1.head? ≠ pfx0.head? := by
    have hfc2 := hfc
    rw [hm, List.map_append, List.map_cons] at hfc2
    rcases List.nodup_append.mp hfc2 with ⟨h1, h2, hdisj⟩
    intro p hp
    rcases List.mem_append.mp hp with hp1 | hp2
    · intro he
      exact hdisj (List.mem_map_of_mem _ hp1) (by rw [he]; exact List.mem_cons_self _ _)
    · intro he
      rcases List.nodup_cons.mp h2 with ⟨hn, _⟩
      exact hn (he ▸ List.mem_map_of_mem (fun p => p.1.head?) hp2)
  have hpfx1ne : ∀ p ∈ m1 ++ m2, p.1 ≠ pfx0 ++ cpfx := by
    intro p hp he
    exact hheads p hp (by rw [he, head?_append_left _ _ hpfx0ne])
  have hins : assocInsert (assocErase parentNode.children pfx0) (pfx0 ++ cpfx) index =
      (m1 ++ m2) ++ [(pfx0 ++ cpfx, index)] := by
    rw [hm, assocErase_of_split _ _ _ _ hm1k, assocInsert_of_notin _ _ _ hpfx1ne]
  have hidxPos : 0 < index := Nat.pos_of_ne_zero hidx0
  have hrefs1 : doneRefCount st index = 1 := hinv.refsOnce index hidxPos hidxLt
  have hmemPC : ∀ p ∈ m1 ++ m2, p ∈ parentNode.children := by
    intro p hp
    rw [hm]
    rcases List.mem_append.mp hp with h1 | h2
    · exact List.mem_append.mpr (Or.inl h1)
    · exact List.mem_append.mpr (Or.inr (List.mem_cons_of_mem _ h2))
  have hnoref_par : ∀ p ∈ m1 ++ m2, p.2 ≠ index := by
    intro p hp he
    have hpne : p ≠ (pfx0, index) := by
      intro he2
      have h3 : p.1 ≠ pfx0 := by
        rcases List.mem_append.mp hp with h1 | h2
        · exact hm1k p h1
        · exact hm2k p h2
      exact h3 (by rw [he2])
    have := doneRefCount_two_same st par parentNode p (pfx0, index) index hparDone hparNode
      (hmemPC p hp) hparmem hpne he rfl
    omega
  have hnoref_other : ∀ (q : Nat) (ndq : Node), q ∉ st.stack → st.newNodes[q]? = some ndq →
      q ≠ par → ∀ p ∈ ndq.children, p.2 ≠ index := by
    intro q ndq hqS hq hqpar p hp he
    have := doneRefCount_two st q par ndq parentNode p (pfx0, index) index hqpar hqS hparDone
      hq hparNode hp hparmem he rfl
    omega
  set pfx1 : List Char := pfx0 ++ cpfx with hpfx1def
  set parentNode' : Node :=
    ⟨assocInsert (assocErase parentNode.children pfx0) pfx1 index, parentNode.count⟩
    with hparentNodeDef
  set N' : List Node := (st.newNodes.set par parentNode').set index child with hNdef2
  have hc' : parentNode'.children = (m1 ++ m2) ++ [(pfx1, index)] := hins
  have hN'len : N'.length = st.newNodes.length := by simp [hNdef2]
  have hN'idx : N'[index]? = some child := by
    rw [hNdef2]
    exact List.getElem?_set_self (by rw [List.length_set]; exact hidxLt)
  have hN'par : N'[par]? = some parentNode' := by
    rw [hNdef2, List.getElem?_set_ne (fun he => hparNe he.symm),
      List.getElem?_set_self hparLen]
  have hN'get : ∀ q, q ≠ index → q ≠ par → N'[q]? = st.newNodes[q]? := by
    intro q h1 h2
    rw [hNdef2, List.getElem?_set_ne (fun he => h1 he.symm),
      List.getElem?_set_ne (fun he => h2 he.symm)]
  have hcountAt : ∀ q, countAt N' q = countAt st.newNodes q := by
    intro q
    by_cases h1 : q = index
    · subst h1
      unfold countAt
      rw [hN'idx, hnd]
      simp [hcnt]
    · by_cases h2 : q = par
      · subst h2
        unfold countAt
        rw [hN'par, hparNode]
        rfl
      · unfold countAt
        rw [hN'get q h1 h2]
  have hsums : ∀ m : List (List Char × Nat), sumCounts N' m = sumCounts st.newNodes m := by
    intro m
    unfold sumCounts
    exact congrArg _ (List.map_congr_left (fun p _ => hcountAt p.2))
  have hsumRe : sumCounts st.newNodes parentNode'.children =
      sumCounts st.newNodes parentNode.children := by
    rw [hc', hm]
    unfold sumCounts
    simp only [List.map_append, List.sum_append, List.map_cons, List.sum_cons,
      List.map_singleton, List.sum_singleton, List.map_nil, List.sum_nil]
    omega
  have hdenidx : den orig (f.getD index 0) =
      Multiset.map (fun w => cpfx ++ w) (den orig cindex) :=
    den_singleton orig (f.getD index 0) nd child cpfx cindex hpendO hch hchild hcnt hflt
  have hf'idx : (f.set index cindex).getD index 0 = cindex := getD_set_self _ _ _ _ hfidx
  have hf'ne : ∀ q, q ≠ index → (f.set index cindex).getD q 0 = f.getD q 0 :=
    fun q hq => getD_set_ne _ _ _ _ _ (fun he => hq he.symm)
  have hD : ∀ (b q : Nat), q ≠ index →
      denMB orig N' st.stack (f.set index cindex) b q =
        denMB orig st.newNodes st.stack f b q := by
    intro b
    induction b with
    | zero => intro q _; rfl
    | succ b ihb =>
      intro q hq
      by_cases hqS : q ∈ st.stack
      · rw [denMB_pending _ _ _ _ _ _ hqS, denMB_pending _ _ _ _ _ _ hqS, hf'ne q hq]
      · by_cases hqpar : q = par
        · replace hqpar := hqpar.symm
          subst hqpar
          rw [denMB_done_some _ _ _ _ _ _ parentNode' hqS hN'par,
            denMB_done_some _ _ _ _ _ _ parentNode hqS hparNode]
          have hres : parentNode'.count - sumCounts N' parentNode'.children =
              parentNode.count - sumCounts st.newNodes parentNode.children := by
            rw [hsums, hsumRe]
          rw [hres]
          refine congrArg _ ?_
          rw [hc', hm]
          simp only [List.map_append, List.sum_append, List.map_cons, List.sum_cons,
            List.map_singleton, List.sum_singleton]
          have hm12 : ∀ p ∈ m1 ++ m2,
              (if par < p.2 then
                Multiset.map (fun w => p.1 ++ w)
                  (denMB orig N' st.stack (f.set index cindex) b p.2) else 0) =
              (if par < p.2 then
                Multiset.map (fun w => p.1 ++ w)
                  (denMB orig st.newNodes st.stack f b p.2) else 0) := by
            intro p hp
            by_cases hlt : par < p.2
            · rw [if_pos hlt, if_pos hlt, ihb p.2 (hnoref_par p hp)]
            · rw [if_neg hlt, if_neg hlt]
          have he1 : (m1.map (fun p =>
              if par < p.2 then
                Multiset.map (fun w => p.1 ++ w)
                  (denMB orig N' st.stack (f.set index cindex) b p.2) else 0)).sum =
              (m1.map (fun p =>
              if par < p.2 then
                Multiset.map (fun w => p.1 ++ w)
                  (denMB orig st.newNodes st.stack f b p.2) else 0)).sum := by
            refine congrArg _ (List.map_congr_left ?_)
            intro p hp
            exact hm12 p (List.mem_append.mpr (Or.inl hp))
          have he2 : (m2.map (fun p =>
              if par < p.2 then
                Multiset.map (fun w => p.1 ++ w)
                  (denMB orig N' st.stack (f.set index cindex) b p.2) else 0)).sum =
              (m2.map (fun p =>
              if par < p.2 then
                Multiset.map (fun w => p.1 ++ w)
                  (denMB orig st.newNodes st.stack f b p.2) else 0)).sum := by
            refine congrArg _ (List.map_congr_left ?_)
            intro p hp
            exact hm12 p (List.mem_append.mpr (Or.inr hp))
          have hnew : (if par < index then
              Multiset.map (fun w => pfx1 ++ w)
                (denMB orig N' st.stack (f.set index cindex) b index) else 0) =
              (if par < index then
              Multiset.map (fun w => pfx0 ++ w)
                (denMB orig st.newNodes st.stack f b index) else 0) := by
            rw [if_pos hparLt, if_pos hparLt]
            cases b with
            | zero =>
              rw [denMB_zero, denMB_zero]
              simp
            | succ b =>
              rw [denMB_pending _ _ _ _ _ _ hmem, denMB_pending _ _ _ _ _ _ hmem,
                hf'idx, hdenidx, Multiset.map_map]
              refine congrArg (fun g => Multiset.map g (den orig cindex)) ?_
              funext w
              show pfx1 ++ w = pfx0 ++ (cpfx ++ w)
              rw [hpfx1def, List.append_assoc]
          rw [he1, he2, hnew]
          abel
        · have hqget : N'[q]? = st.newNodes[q]? := hN'get q hq hqpar
          cases hcase : st.newNodes[q]? with
          | none =>
            rw [denMB_done_none _ _ _ _ _ _ hqS (by rw [hqget]; exact hcase),
              denMB_done_none _ _ _ _ _ _ hqS hcase]
          | some ndq =>
            rw [denMB_done_some _ _ _ _ _ _ ndq hqS (by rw [hqget]; exact hcase),
              denMB_done_some _ _ _ _ _ _ ndq hqS hcase, hsums]
            refine congrArg _ (congrArg _ (List.map_congr_left ?_))
            intro p hp
            by_cases hlt : q < p.2
            · rw [if_pos hlt, if_pos hlt,
                ihb p.2 (hnoref_other q ndq hqS hcase hqpar p hp)]
            · rw [if_neg hlt, if_neg hlt]
  have hdrc : ∀ c, doneRefCount ⟨N', st.prefixes.set index pfx1, st.parents, index :: rest⟩ c =
      doneRefCount st c := by
    intro c
    unfold doneRefCount
    show ((List.range N'.length).map _).sum = _
    rw [hN'len, ← hstk]
    refine congrArg _ (List.map_congr_left ?_)
    intro j hj
    by_cases hjS : j ∈ st.stack
    · simp only [hjS, if_true]
    · simp only [hjS, if_false]
      by_cases hjpar : j = par
      · replace hjpar := hjpar.symm
        subst hjpar
        rw [hN'par, hparNode]
        show (parentNode'.children.filter (fun p => p.2 = c)).length =
          (parentNode.children.filter (fun p => p.2 = c)).length
        rw [hc', hm]
        simp only [List.filter_append, List.length_append, List.filter_cons]
        by_cases hic : index = c
        · simp [hic, Nat.add_assoc]
        · simp [hic]
      · have hji : j ≠ index := fun he => hjS (he ▸ hmem)
        rw [hN'get j hji hjpar]
  refine ⟨?_, ?_, ?_, ?_, ?_, ?_, ?_, ?_, ?_, ?_, ?_, ?_, ?_, ?_, ?_, ?_, ?_, ?_⟩
  · show (f.set index cindex).length = N'.length
    rw [List.length_set, hN'len, hinv.flen]
  · show (index :: rest).Nodup
    rw [← hstk]
    exact hinv.stackNodup
  · show ∀ j ∈ index :: rest, j < N'.length
    rw [← hstk, hN'len]
    exact hinv.stackLt
  · show ∀ j ∈ index :: rest, N'[j]? = orig[(f.set index cindex).getD j 0]?
    rw [← hstk]
    intro j hj
    by_cases hji : j = index
    · subst hji
      rw [hN'idx, hf'idx, hchild]
    · rw [hf'ne j hji, hN'get j hji (fun he => hparDone (he ▸ hj)),
        hinv.pendContent j hj]
  · show (f.set index cindex).getD 0 0 = 0
    rw [hf'ne 0 (fun he => hidx0 he.symm)]
    exact hinv.f0
  · show ∀ j, j < N'.length → j ≠ 0 → (f.set index cindex).getD j 0 ≠ 0
    intro j hj hj0
    rw [hN'len] at hj
    by_cases hji : j = index
    · subst hji
      rw [hf'idx]
      omega
    · rw [hf'ne j hji]
      exact hinv.fPos j hj hj0
  · show ∀ j, j < N'.length → (f.set index cindex).getD j 0 < orig.length
    intro j hj
    rw [hN'len] at hj
    by_cases hji : j = index
    · subst hji
      rw [hf'idx]
      exact hclen
    · rw [hf'ne j hji]
      exact hinv.fLt j hj
  · show ∀ (j : Nat) (ndq : Node), j ∉ index :: rest → N'[j]? = some ndq →
      ∀ p ∈ ndq.children, j < p.2 ∧ p.2 < N'.length
    rw [← hstk, hN'len]
    intro j ndq hj hndq p hp
    by_cases hji : j = index
    · exact absurd (hji ▸ hmem) hj
    · by_cases hjpar : j = par
      · replace hjpar := hjpar.symm
        subst hjpar
        rw [hN'par] at hndq
        cases Option.some.inj hndq
        have hpc : p ∈ (m1 ++ m2) ++ [(pfx1, index)] := hc' ▸ hp
        rcases List.mem_append.mp hpc with h12 | hsing
        · exact hinv.doneChild par parentNode hj hparNode p (hmemPC p h12)
        · rcases List.mem_singleton.mp hsing with rfl
          exact ⟨hparLt, hidxLt⟩
      · rw [hN'get j hji hjpar] at hndq
        exact hinv.doneChild j ndq hj hndq p hp
  · show ∀ (j : Nat) (ndq : Node), j ∉ index :: rest → N'[j]? = some ndq →
      ∀ p ∈ ndq.children, p.1 ≠ []
    rw [← hstk]
    intro j ndq hj hndq p hp
    by_cases hji : j = index
    · exact absurd (hji ▸ hmem) hj
    · by_cases hjpar : j = par
      · replace hjpar := hjpar.symm
        subst hjpar
        rw [hN'par] at hndq
        cases Option.some.inj hndq
        have hpc : p ∈ (m1 ++ m2) ++ [(pfx1, index)] := hc' ▸ hp
        rcases List.mem_append.mp hpc with h12 | hsing
        · exact hinv.doneKeysNe par parentNode hj hparNode p (hmemPC p h12)
        · rcases List.mem_singleton.mp hsing with rfl
          show pfx1 ≠ []
          rw [hpfx1def]
          simp [hpfx0ne]
      · rw [hN'get j hji hjpar] at hndq
        exact hinv.doneKeysNe j ndq hj hndq p hp
  · show ∀ (j : Nat) (ndq : Node), j ∉ index :: rest → N'[j]? = some ndq →
      (ndq.children.map (fun p => p.1.head?)).Nodup
    rw [← hstk]
    intro j ndq hj hndq
    by_cases hji : j = index
    · exact absurd (hji ▸ hmem) hj
    · by_cases hjpar : j = par
      · replace hjpar := hjpar.symm
        subst hjpar
        rw [hN'par] at hndq
        cases Option.some.inj hndq
        rw [hc']
        have hperm : (((m1 ++ m2) ++ [(pfx1, index)]).map (fun p => p.1.head?)).Perm
            (parentNode.children.map (fun p => p.1.head?)) := by
          rw [hm]
          simp only [List.map_append, List.map_cons, List.map_singleton]
          have hh : pfx1.head? = pfx0.head? := head?_append_left _ _ hpfx0ne
          rw [hh]
          have hp1 : ((m1.map (fun p => p.1.head?) ++ m2.map (fun p => p.1.head?)) ++
              [pfx0.head?]).Perm (pfx0.head? ::
                (m1.map (fun p => p.1.head?) ++ m2.map (fun p => p.1.head?))) :=
            List.perm_append_singleton _ _
          have hp2 : (pfx0.head? ::
              (m1.map (fun p => p.1.head?) ++ m2.map (fun p => p.1.head?))).Perm
              (m1.map (fun p => p.1.head?) ++ pfx0.head? :: m2.map (fun p => p.1.head?)) :=
            List.perm_middle.symm
          exact hp1.trans hp2
        exact hperm.nodup_iff.mpr hfc
      · rw [hN'get j hji hjpar] at hndq
        exact hinv.doneKeysFC j ndq hj hndq
  · show ∀ (j : Nat) (ndq : Node), j ∉ index :: rest → N'[j]? = some ndq →
      ∃ ond : Node, orig[(f.set index cindex).getD j 0]? = some ond ∧
        ndq.count = ond.count ∧ sumCounts N' ndq.children = sumCounts orig ond.children
    rw [← hstk]
    intro j ndq hj hndq
    by_cases hji : j = index
    · exact absurd (hji ▸ hmem) hj
    · rw [hf'ne j hji]
      by_cases hjpar : j = par
      · replace hjpar := hjpar.symm
        subst hjpar
        rw [hN'par] at hndq
        cases Option.some.inj hndq
        obtain ⟨ond, h1, h2, h3⟩ := hinv.doneCount par parentNode hj hparNode
        exact ⟨ond, h1, h2, by rw [hsums, hsumRe]; exact h3⟩
      · rw [hN'get j hji hjpar] at hndq
        obtain ⟨ond, h1, h2, h3⟩ := hinv.doneCount j ndq hj hndq
        exact ⟨ond, h1, h2, by rw [hsums]; exact h3⟩
  · show ∀ j, j < N'.length → j ∉ index :: rest → ¬ eligible orig ((f.set index cindex).getD j 0)
    rw [← hstk, hN'len]
    intro j hj hjS
    have hji : j ≠ index := fun he => hjS (he ▸ hmem)
    rw [hf'ne j hji]
    exact hinv.notElig j hj hjS
  · show ∀ c, 0 < c → c < N'.length → doneRefCount _ c = 1
    rw [hN'len]
    intro c hc1 hc2
    rw [hdrc c]
    exact hinv.refsOnce c hc1 hc2
  · show doneRefCount _ 0 = 0
    rw [hdrc 0]
    exact hinv.refsZero
  · show ∀ c ∈ index :: rest, c ≠ 0 → ∃ (j : Nat) (ndq : Node), j ∉ index :: rest ∧
      N'[j]? = some ndq ∧ st.parents[c]? = some j ∧
      ∃ key, (st.prefixes.set index pfx1)[c]? = some key ∧ (key, c) ∈ ndq.children
    rw [← hstk]
    intro c hc hc0
    by_cases hci : c = index
    · subst hci
      refine ⟨par, parentNode', hparDone, hN'par, hpar, pfx1, ?_, ?_⟩
      · exact List.getElem?_set_self (getElem?_some_lt _ _ _ hpfx)
      · rw [hc']
        exact List.mem_append.mpr (Or.inr (List.mem_singleton.mpr rfl))
    · obtain ⟨j, ndj2, hdone, hnode, hparc, key, hkey, hmem2⟩ :=
        hinv.parentTrack c hc hc0
      have hjne : j ≠ index := fun he => hdone (he ▸ hmem)
      by_cases hjpar : j = par
      · replace hjpar := hjpar.symm
        subst hjpar
        rw [hparNode] at hnode
        cases Option.some.inj hnode
        refine ⟨par, parentNode', hdone, hN'par, hparc, key, ?_, ?_⟩
        · rw [List.getElem?_set_ne (fun he => hci he.symm)]
          exact hkey
        · rw [hc']
          have hkmem : (key, c) ∈ m1 ++ (pfx0, index) :: m2 := hm ▸ hmem2
          rcases List.mem_append.mp hkmem with h1 | h2
          · exact List.mem_append.mpr (Or.inl (List.mem_append.mpr (Or.inl h1)))
          · rcases List.mem_cons.mp h2 with he | h3
            · cases he
              exact absurd rfl hci
            · exact List.mem_append.mpr (Or.inl (List.mem_append.mpr (Or.inr h3)))
      · refine ⟨j, ndj2, hdone, by rw [hN'get j hjne hjpar]; exact hnode, hparc, key, ?_, hmem2⟩
        rw [List.getElem?_set_ne (fun he => hci he.symm)]
        exact hkey
  · show denMB orig N' (index :: rest) (f.set index cindex) N'.length 0 = den orig 0
    rw [← hstk, hN'len]
    rw [hD st.newNodes.length 0 (fun he => hidx0 he.symm)]
    exact hinv.denPres
  · show ∀ x, Reach orig 0 x ↔
      ((∃ j, j < N'.length ∧ j ∉ index :: rest ∧ (f.set index cindex).getD j 0 = x) ∨
       (∃ j ∈ index :: rest, Reach orig ((f.set index cindex).getD j 0) x) ∨
       x ∈ f.getD index 0 :: spl)
    rw [← hstk, hN'len]
    intro x
    have hsing := reach_singleton orig (f.getD index 0) nd cpfx cindex hpendO hch hflt
    have hrestne : ∀ j ∈ rest, j ≠ index := by
      intro j hj he
      have := hinv.stackNodup
      rw [hstk] at this
      rcases List.nodup_cons.mp this with ⟨hni, _⟩
      exact hni (he ▸ hj)
    rw [hinv.cover x]
    constructor
    · intro h
      rcases h with ⟨j, hj1, hj2, hj3⟩ | ⟨j, hj, hr⟩ | hx
      · exact Or.inl ⟨j, hj1, hj2, by
          rw [hf'ne j (fun he => hj2 (he ▸ hmem))]; exact hj3⟩
      · by_cases hji : j = index
        · replace hji := hji.symm
          subst hji
          rcases (hsing x).mp hr with rfl | hr2
          · exact Or.inr (Or.inr (List.mem_cons_self _ _))
          · exact Or.inr (Or.inl ⟨index, hmem, by rw [hf'idx]; exact hr2⟩)
        · exact Or.inr (Or.inl ⟨j, hj, by rw [hf'ne j hji]; exact hr⟩)
      · exact Or.inr (Or.inr (List.mem_cons_of_mem _ hx))
    · intro h
      rcases h with ⟨j, hj1, hj2, hj3⟩ | ⟨j, hj, hr⟩ | hx
      · exact Or.inl ⟨j, hj1, hj2, by
          rw [hf'ne j (fun he => hj2 (he ▸ hmem))] at hj3; exact hj3⟩
      · by_cases hji : j = index
        · replace hji := hji.symm
          subst hji
          rw [hf'idx] at hr
          exact Or.inr (Or.inl ⟨index, hmem, (hsing x).mpr (Or.inr hr)⟩)
        · rw [hf'ne j hji] at hr
          exact Or.inr (Or.inl ⟨j, hj, hr⟩)
      · rcases List.mem_cons.mp hx with rfl | hx2
        · exact Or.inr (Or.inl ⟨index, hmem, (hsing _).mpr (Or.inl rfl)⟩)
        · exact Or.inr (Or.inr hx2)
  · show ∀ x ∈ f.getD index 0 :: spl, eligible orig x
    intro x hx
    rcases List.mem_cons.mp hx with rfl | hx2
    · refine ⟨hfne, nd, cpfx, cindex, hpendO, hch, ?_⟩
      unfold countAt
      rw [hchild]
      exact hcnt
    · exact hinv.splElig x hx2

end Toipe

namespace Toipe

/-! Helpers for the copy case of compression. -/

theorem forall2_getElem? {α β : Type} (R : α → β → Prop) :
    ∀ (l1 : List α) (l2 : List β), List.Forall₂ R l1 l2 →
      ∀ (j : Nat) (a : α), l1[j]? = some a → ∃ b, l2[j]? = some b ∧ R a b := by
  intro l1
  induction l1 with
  | nil =>
    intro l2 h j a ha
    simp at ha
  | cons x r ih =>
    intro l2 h j a ha
    cases h with
    | cons hx hr =>
      cases j with
      | zero =>
        simp only [List.getElem?_cons_zero] at ha
        cases ha
        exact ⟨_, by simp, hx⟩
      | succ j =>
        simp only [List.getElem?_cons_succ] at ha
        obtain ⟨b, hb, hRb⟩ := ih _ hr j a ha
        exact ⟨b, by simpa using hb, hRb⟩

theorem remapAll_length : ∀ (ch : List (List Char × Nat)) (base : Nat),
    (remapAll ch base).length = ch.length := by
  intro ch
  induction ch with
  | nil => intro base; rfl
  | cons q r ih =>
    intro base
    obtain ⟨k, c⟩ := q
    simp only [remapAll, List.length_cons, ih]

theorem remapAll_getElem? : ∀ (ch : List (List Char × Nat)) (base j : Nat)
    (p : List Char × Nat), ch[j]? = some p →
    (remapAll ch base)[j]? = some (p.1, base + j) := by
  intro ch
  induction ch with
  | nil => intro base j p hp; simp at hp
  | cons q r ih =>
    intro base j p hp
    obtain ⟨k, c⟩ := q
    have hre : remapAll ((k, c) :: r) base = (k, base) :: remapAll r (base + 1) := rfl
    cases j with
    | zero =>
      simp only [List.getElem?_cons_zero] at hp
      cases hp
      rw [hre]
      simp
    | succ j =>
      simp only [List.getElem?_cons_succ] at hp
      rw [hre, List.getElem?_cons_succ, ih (base + 1) j p hp,
        show base + 1 + j = base + (j + 1) by omega]

theorem remapAll_mem : ∀ (ch : List (List Char × Nat)) (base : Nat)
    (p : List Char × Nat), p ∈ remapAll ch base →
    ∃ (j : Nat) (q : List Char × Nat), j < ch.length ∧ ch[j]? = some q ∧
      p = (q.1, base + j) := by
  intro ch
  induction ch with
  | nil => intro base p hp; simp [remapAll] at hp
  | cons x r ih =>
    intro base p hp
    obtain ⟨k, c⟩ := x
    have hre : remapAll ((k, c) :: r) base = (k, base) :: remapAll r (base + 1) := rfl
    rw [hre] at hp
    rcases List.mem_cons.mp hp with he | hr
    · exact ⟨0, (k, c), by simp, by simp, by simpa using he⟩
    · obtain ⟨j, q, hj, hq, hpq⟩ := ih (base + 1) p hr
      refine ⟨j + 1, q, by simpa using Nat.succ_lt_succ hj, by simpa using hq, ?_⟩
      rw [hpq, show base + 1 + j = base + (j + 1) by omega]

theorem remapAll_keys : ∀ (ch : List (List Char × Nat)) (base : Nat),
    (remapAll ch base).map Prod.fst = ch.map Prod.fst := by
  intro ch
  induction ch with
  | nil => intro base; rfl
  | cons x r ih =>
    intro base
    obtain ⟨k, c⟩ := x
    simp only [remapAll, List.map_cons, ih]

theorem remapAll_filter_count : ∀ (ch : List (List Char × Nat)) (base c : Nat),
    ((remapAll ch base).filter (fun p => p.2 = c)).length =
      if base ≤ c ∧ c < base + ch.length then 1 else 0 := by
  intro ch
  induction ch with
  | nil =>
    intro base c
    rw [if_neg (by simp only [List.length_nil]; omega)]
    rfl
  | cons x r ih =>
    intro base c
    obtain ⟨k, cc⟩ := x
    have hre : remapAll ((k, cc) :: r) base = (k, base) :: remapAll r (base + 1) := rfl
    rw [hre, List.filter_cons]
    by_cases hbc : base = c
    · rw [if_pos (by simpa using hbc)]
      simp only [List.length_cons, ih (base + 1) c]
      split_ifs <;> omega
    · rw [if_neg (by simpa using hbc)]
      rw [ih (base + 1) c]
      simp only [List.length_cons]
      split_ifs <;> omega

theorem sum_map_update (l : List Nat) (g g' : Nat → Nat) (a d : Nat) :
    a ∈ l → l.Nodup → g' a = g a + d → (∀ x ∈ l, x ≠ a → g' x = g x) →
    (l.map g').sum = (l.map g).sum + d := by
  induction l with
  | nil => intro ha _ _ _; simp at ha
  | cons x r ih =>
    intro ha hnd hga hother
    rcases List.nodup_cons.mp hnd with ⟨hxr, hndr⟩
    rcases List.mem_cons.mp ha with he | har
    · replace he := he.symm
      subst he
      have hrest : ∀ y ∈ r, g' y = g y := by
        intro y hy
        exact hother y (List.mem_cons_of_mem _ hy) (fun h2 => hxr (h2 ▸ hy))
      simp only [List.map_cons, List.sum_cons, hga,
        List.map_congr_left hrest]
      omega
    · have hxa : x ≠ a := fun he => hxr (he ▸ har)
      simp only [List.map_cons, List.sum_cons]
      rw [hother x (List.mem_cons_self _ _) hxa,
        ih har hndr hga (fun y hy hya => hother y (List.mem_cons_of_mem _ hy) hya)]
      omega

theorem remapAll_map_sum {β : Type} [AddCommMonoid β] (F G : List Char × Nat → β) :
    ∀ (ch : List (List Char × Nat)) (base : Nat),
      (∀ (m : Nat) (p : List Char × Nat), ch[m]? = some p → F (p.1, base + m) = G p) →
      ((remapAll ch base).map F).sum = (ch.map G).sum := by
  intro ch
  induction ch with
  | nil => intro base _; rfl
  | cons x r ih =>
    intro base h
    obtain ⟨k, c⟩ := x
    have hre : remapAll ((k, c) :: r) base = (k, base) :: remapAll r (base + 1) := rfl
    rw [hre]
    simp only [List.map_cons, List.sum_cons]
    have h0 : F (k, base) = G (k, c) := by
      have := h 0 (k, c) (by simp)
      simpa using this
    rw [h0, ih (base + 1) (fun m p hp => by
      have := h (m + 1) p (by simpa using hp)
      rwa [show base + (m + 1) = base + 1 + m by omega] at this)]

theorem reach_unfold (orig : List Node) (i : Nat) (nd : Node)
    (h : orig[i]? = some nd) (hlt : ∀ p ∈ nd.children, i < p.2) :
    ∀ x, Reach orig i x ↔ (x = i ∨ ∃ p ∈ nd.children, Reach orig p.2 x) := by
  intro x
  constructor
  · intro hr
    cases hr with
    | refl => exact Or.inl rfl
    | edge _ nd' p h' hp =>
      rw [h] at h'
      cases h'
      exact Or.inr ⟨p, hp, Reach.refl p.2⟩
    | step _ _ nd' p h' hp hlt' hr' =>
      rw [h] at h'
      cases h'
      exact Or.inr ⟨p, hp, hr'⟩
  · intro h'
    rcases h' with rfl | ⟨p, hp, hr⟩
    · exact Reach.refl x
    · exact Reach.step i x nd p h hp (hlt p hp) hr

end Toipe

namespace Toipe

theorem doneRefCount_eq_sum (st2 : CState) (c : Nat) :
    doneRefCount st2 c = ((List.range st2.newNodes.length).map (fun j =>
      if j ∈ st2.stack then 0 else
        ((st2.newNodes[j]?.map (fun nd2 =>
          (nd2.children.filter (fun p => p.2 = c)).length)).getD 0))).sum := by
  unfold doneRefCount
  refine congrArg _ (List.map_congr_left ?_)
  intro j hj
  by_cases hjs : j ∈ st2.stack
  · simp [hjs]
  · simp only [hjs, if_false]
    cases h : st2.newNodes[j]? with
    | none => rfl
    | some nd2 => rfl

theorem sum_range_add_zero (L n : Nat) (g : Nat → Nat)
    (hg : ∀ m, m < n → g (L + m) = 0) :
    ((List.range (L + n)).map g).sum = ((List.range L).map g).sum := by
  rw [List.range_add, List.map_append, List.sum_append]
  have h2 : (((List.range n).map (fun x => L + x)).map g).sum = 0 := by
    refine List.sum_eq_zero ?_
    intro x hx
    rcases List.mem_map.mp hx with ⟨y, hy1, hy2⟩
    rcases List.mem_map.mp hy1 with ⟨m, hm1, hm2⟩
    rw [← hy2, ← hm2]
    exact hg m (List.mem_range.mp hm1)
  rw [h2, Nat.add_zero]

theorem cinv_copy (orig : List Node) (hO : OrigOk orig) (st : CState) (f spl : List Nat)
    (index : Nat) (rest : List Nat) (nd : Node) (st' : CState)
    (hinv : CInv orig st f spl) (hstk : st.stack = index :: rest)
    (hnd : st.newNodes[index]? = some nd)
    (hnelig : ¬ eligible orig (f.getD index 0))
    (hcopy : copyChildren orig index nd.children
      ⟨st.newNodes, st.prefixes, st.parents, rest⟩ = some st') :
    CInv orig st' (f ++ nd.children.map Prod.snd) spl := by
  have hmem : index ∈ st.stack := by rw [hstk]; exact List.mem_cons_self _ _
  have hidxLt : index < st.newNodes.length := hinv.stackLt index hmem
  have hpendO : orig[f.getD index 0]? = some nd := by
    rw [← hinv.pendContent index hmem]; exact hnd
  have hOchild : ∀ p ∈ nd.children, f.getD index 0 < p.2 ∧ p.2 < orig.length :=
    hO.shape (f.getD index 0) nd hpendO
  have hkeysNe : ∀ p ∈ nd.children, p.1 ≠ [] := hO.keysNe (f.getD index 0) nd hpendO
  have hkeysFC : (nd.children.map (fun p => p.1.head?)).Nodup :=
    hO.keysFC (f.getD index 0) nd hpendO
  have hknd : (nd.children.map Prod.fst).Nodup := keysFC_to_nodup _ hkeysFC
  have hchNz : ∀ p ∈ nd.children, p.2 ≠ 0 := by
    intro p hp he
    have h1 := refCount_pos orig (f.getD index 0) nd p 0 hpendO hp he
    have h2 := hO.refs0
    omega
  have hrestLt : ∀ q ∈ rest, q < st.newNodes.length := by
    intro q hq
    exact hinv.stackLt q (by rw [hstk]; exact List.mem_cons_of_mem _ hq)
  have hrestNe : ∀ q ∈ rest, q ≠ index := by
    intro q hq he
    have h1 := hinv.stackNodup
    rw [hstk] at h1
    rcases List.nodup_cons.mp h1 with ⟨h2, _⟩
    exact h2 (he ▸ hq)
  have hrestNodup : rest.Nodup := by
    have h1 := hinv.stackNodup
    rw [hstk] at h1
    exact (List.nodup_cons.mp h1).2
  have hrestStack : ∀ q ∈ rest, q ∈ st.stack := by
    intro q hq
    rw [hstk]
    exact List.mem_cons_of_mem _ hq
  obtain ⟨cs, hfa, hnn, hstk', hplen, hflen, hpres, hnew⟩ :=
    copyChildren_some orig index nd.children []
      ⟨st.newNodes, st.prefixes, st.parents, rest⟩ st' nd.count hnd (by simpa using hknd)
      hcopy
  simp only [List.nil_append] at hnn hstk' hplen hflen hpres hnew
  have hcsLen : cs.length = nd.children.length := hfa.length_eq.symm
  have hN''len : st'.newNodes.length = st.newNodes.length + nd.children.length := by
    rw [hnn]
    simp [hcsLen]
  have hN''idx : st'.newNodes[index]? =
      some ⟨remapAll nd.children st.newNodes.length, nd.count⟩ := by
    rw [hnn, List.getElem?_append_left (by rw [List.length_set]; exact hidxLt),
      List.getElem?_set_self hidxLt]
  have hN''old : ∀ q, q < st.newNodes.length → q ≠ index →
      st'.newNodes[q]? = st.newNodes[q]? := by
    intro q hq hqi
    rw [hnn, List.getElem?_append_left (by rw [List.length_set]; exact hq),
      List.getElem?_set_ne (fun he => hqi he.symm)]
  have hN''new : ∀ (j : Nat) (p : List Char × Nat), nd.children[j]? = some p →
      ∃ cn : Node, st'.newNodes[st.newNodes.length + j]? = some cn ∧
        orig[p.2]? = some cn := by
    intro j p hp
    obtain ⟨cn, hcn, hR⟩ := forall2_getElem? _ nd.children cs hfa j p hp
    refine ⟨cn, ?_, hR⟩
    rw [hnn, List.getElem?_append_right (by rw [List.length_set]; omega),
      List.length_set,
      show st.newNodes.length + j - st.newNodes.length = j by omega]
    exact hcn
  have hfLen : f.length = st.newNodes.length := hinv.flen
  have hf'old : ∀ q, q < st.newNodes.length →
      (f ++ nd.children.map Prod.snd).getD q 0 = f.getD q 0 := by
    intro q hq
    rw [List.getD_eq_getElem?_getD, List.getD_eq_getElem?_getD,
      List.getElem?_append_left (by rw [hfLen]; exact hq)]
  have hf'new : ∀ (j : Nat) (p : List Char × Nat), nd.children[j]? = some p →
      (f ++ nd.children.map Prod.snd).getD (st.newNodes.length + j) 0 = p.2 := by
    intro j p hp
    rw [List.getD_eq_getElem?_getD,
      List.getElem?_append_right (by rw [hfLen]; omega), hfLen,
      show st.newNodes.length + j - st.newNodes.length = j by omega,
      List.getElem?_map, hp]
    rfl
  have hS'iff : ∀ q, q ∈ st'.stack ↔
      ((st.newNodes.length ≤ q ∧ q < st.newNodes.length + nd.children.length) ∨
        q ∈ rest) := by
    intro q
    rw [hstk', List.mem_append, List.mem_reverse, List.mem_range'_1]
  have hidxS' : index ∉ st'.stack := by
    rw [hS'iff]
    intro h
    rcases h with ⟨h1, _⟩ | h2
    · omega
    · exact hrestNe index h2 rfl
  have hS'old : ∀ q, q < st.newNodes.length → q ≠ index →
      (q ∈ st'.stack ↔ q ∈ st.stack) := by
    intro q hq hqi
    rw [hS'iff, hstk]
    constructor
    · intro h
      rcases h with ⟨h1, _⟩ | h2
      · omega
      · exact List.mem_cons_of_mem _ h2
    · intro h
      rcases List.mem_cons.mp h with he | h2
      · exact absurd he hqi
      · exact Or.inr h2
  have hcountAt : ∀ q, q < st.newNodes.length →
      countAt st'.newNodes q = countAt st.newNodes q := by
    intro q hq
    by_cases hqi : q = index
    · replace hqi := hqi.symm
      subst hqi
      unfold countAt
      rw [hN''idx, hnd]
      rfl
    · unfold countAt
      rw [hN''old q hq hqi]
  have hcountNew : ∀ (j : Nat) (p : List Char × Nat), nd.children[j]? = some p →
      countAt st'.newNodes (st.newNodes.length + j) = countAt orig p.2 := by
    intro j p hp
    obtain ⟨cn, hcn, ho⟩ := hN''new j p hp
    unfold countAt
    rw [hcn, ho]
  have hsumRemap : sumCounts st'.newNodes (remapAll nd.children st.newNodes.length) =
      sumCounts orig nd.children := by
    unfold sumCounts
    refine remapAll_map_sum _ _ nd.children st.newNodes.length ?_
    intro m p hp
    exact hcountNew m p hp
  have hsumOld : ∀ m : List (List Char × Nat), (∀ p ∈ m, p.2 < st.newNodes.length) →
      sumCounts st'.newNodes m = sumCounts st.newNodes m := by
    intro m hm
    unfold sumCounts
    refine congrArg _ (List.map_congr_left ?_)
    intro p hp
    exact hcountAt p.2 (hm p hp)
  have hdrcF : ∀ c, doneRefCount st' c = doneRefCount st c +
      ((remapAll nd.children st.newNodes.length).filter (fun p => p.2 = c)).length := by
    intro c
    rw [doneRefCount_eq_sum st' c, doneRefCount_eq_sum st c, hN''len]
    have hz : ∀ m, m < nd.children.length →
        (fun j => if j ∈ st'.stack then 0 else
          ((st'.newNodes[j]?.map (fun nd2 =>
            (nd2.children.filter (fun p => p.2 = c)).length)).getD 0))
          (st.newNodes.length + m) = 0 := by
      intro m hm
      show (if st.newNodes.length + m ∈ st'.stack then 0 else
        ((st'.newNodes[st.newNodes.length + m]?.map (fun nd2 =>
          (nd2.children.filter (fun p => p.2 = c)).length)).getD 0)) = 0
      rw [if_pos ((hS'iff _).mpr (Or.inl ⟨by omega, by omega⟩))]
    rw [sum_range_add_zero st.newNodes.length nd.children.length
      (fun j => if j ∈ st'.stack then 0 else
        ((st'.newNodes[j]?.map (fun nd2 =>
          (nd2.children.filter (fun p => p.2 = c)).length)).getD 0)) hz]
    refine sum_map_update (List.range st.newNodes.length) _ _ index
      (((remapAll nd.children st.newNodes.length).filter (fun p => p.2 = c)).length)
      (List.mem_range.mpr hidxLt) (List.nodup_range _) ?_ ?_
    · show (if index ∈ st'.stack then 0 else
          ((st'.newNodes[index]?.map (fun nd2 =>
            (nd2.children.filter (fun p => p.2 = c)).length)).getD 0)) =
        (if index ∈ st.stack then 0 else
          ((st.newNodes[index]?.map (fun nd2 =>
            (nd2.children.filter (fun p => p.2 = c)).length)).getD 0)) +
        ((remapAll nd.children st.newNodes.length).filter (fun p => p.2 = c)).length
      rw [if_neg hidxS', if_pos hmem, hN''idx]
      simp
    · intro y hy hyi
      show (if y ∈ st'.stack then 0 else
          ((st'.newNodes[y]?.map (fun nd2 =>
            (nd2.children.filter (fun p => p.2 = c)).length)).getD 0)) =
        (if y ∈ st.stack then 0 else
          ((st.newNodes[y]?.map (fun nd2 =>
            (nd2.children.filter (fun p => p.2 = c)).length)).getD 0))
      have hyL : y < st.newNodes.length := List.mem_range.mp hy
      by_cases hyS : y ∈ st.stack
      · rw [if_pos hyS, if_pos ((hS'old y hyL hyi).mpr hyS)]
      · rw [if_neg hyS, if_neg (fun hcon => hyS ((hS'old y hyL hyi).mp hcon)),
          hN''old y hyL hyi]
  have hdrcHi : ∀ c, st.newNodes.length ≤ c → doneRefCount st c = 0 := by
    intro c hc
    rw [doneRefCount_eq_sum]
    refine List.sum_eq_zero ?_
    intro x hx
    rcases List.mem_map.mp hx with ⟨j, hj1, hj2⟩
    rw [← hj2]
    by_cases hjs : j ∈ st.stack
    · simp [hjs]
    · simp only [hjs, if_false]
      cases hcase : st.newNodes[j]? with
      | none => rfl
      | some ndj =>
        show ((ndj.children.filter (fun p => p.2 = c)).length) = 0
        have hemp : ndj.children.filter (fun p => p.2 = c) = [] := by
          rw [List.filter_eq_nil_iff]
          intro p hp
          have h3 := (hinv.doneChild j ndj hjs hcase p hp).2
          simp only [decide_eq_true_eq]
          omega
        rw [hemp]
        rfl
  have hDD : ∀ (b q : Nat), q < st.newNodes.length →
      st.newNodes.length + nd.children.length - q ≤ b →
      denMB orig st'.newNodes st'.stack (f ++ nd.children.map Prod.snd) b q =
        denMB orig st.newNodes st.stack f b q := by
    intro b
    induction b with
    | zero => intro q _ _; rfl
    | succ b ihb =>
      intro q hq hb
      by_cases hqr : q ∈ rest
      · have h1 : q ∈ st'.stack := (hS'iff q).mpr (Or.inr hqr)
        have h2 : q ∈ st.stack := hrestStack q hqr
        rw [denMB_pending _ _ _ _ _ _ h1, denMB_pending _ _ _ _ _ _ h2, hf'old q hq]
      · by_cases hqi : q = index
        · replace hqi := hqi.symm
          subst hqi
          rw [denMB_pending _ _ _ _ _ _ hmem,
            denMB_done_some _ _ _ _ _ _ _ hidxS' hN''idx]
          show (nd.count - sumCounts st'.newNodes
              (remapAll nd.children st.newNodes.length)) •
              ({[]} : Multiset (List Char)) +
            ((remapAll nd.children st.newNodes.length).map (fun p =>
              if index < p.2 then Multiset.map (fun w => p.1 ++ w)
                (denMB orig st'.newNodes st'.stack (f ++ nd.children.map Prod.snd) b p.2)
              else 0)).sum = den orig (f.getD index 0)
          obtain ⟨bo, hbo⟩ : ∃ bo, orig.length = bo + 1 :=
            ⟨orig.length - 1, by have := hO.ne; omega⟩
          have hrhs : den orig (f.getD index 0) =
              (nd.count - sumCounts orig nd.children) • ({[]} : Multiset (List Char)) +
              (nd.children.map (fun p => if f.getD index 0 < p.2 then
                Multiset.map (fun w => p.1 ++ w) (denB orig bo p.2) else 0)).sum := by
            show denB orig orig.length (f.getD index 0) = _
            rw [hbo, denB_some orig (f.getD index 0) nd bo hpendO]
          rw [hrhs, hsumRemap]
          refine congrArg _ ?_
          refine remapAll_map_sum
            (fun p => if index < p.2 then Multiset.map (fun w => p.1 ++ w)
              (denMB orig st'.newNodes st'.stack (f ++ nd.children.map Prod.snd) b p.2)
              else 0)
            (fun p => if f.getD index 0 < p.2 then
              Multiset.map (fun w => p.1 ++ w) (denB orig bo p.2) else 0)
            nd.children st.newNodes.length ?_
          intro m p hp
          have hmn : m < nd.children.length := getElem?_some_lt _ _ _ hp
          have hb1 : 1 ≤ b := by omega
          obtain ⟨b1, hb1e⟩ : ∃ b1, b = b1 + 1 := ⟨b - 1, by omega⟩
          have hmS' : st.newNodes.length + m ∈ st'.stack :=
            (hS'iff _).mpr (Or.inl ⟨by omega, by omega⟩)
          show (if index < st.newNodes.length + m then
              Multiset.map (fun w => p.1 ++ w)
                (denMB orig st'.newNodes st'.stack (f ++ nd.children.map Prod.snd) b
                  (st.newNodes.length + m))
            else 0) =
            (if f.getD index 0 < p.2 then
              Multiset.map (fun w => p.1 ++ w) (denB orig bo p.2) else 0)
          rw [if_pos (show index < st.newNodes.length + m by omega),
            if_pos ((hOchild p (List.getElem?_mem hp)).1), hb1e,
            denMB_pending _ _ _ _ _ _ hmS', hf'new m p hp,
            den_eq_denB orig p.2 bo (by
              have h3 := (hOchild p (List.getElem?_mem hp)).1
              omega)]
        · have h1 : q ∉ st.stack := by
            rw [hstk]
            intro hcon
            rcases List.mem_cons.mp hcon with he | h2
            · exact hqi he
            · exact hqr h2
          have h2 : q ∉ st'.stack := by
            rw [hS'iff]
            intro hcon
            rcases hcon with ⟨hc1, _⟩ | hc2
            · omega
            · exact hqr hc2
          cases hcase : st.newNodes[q]? with
          | none =>
            rw [denMB_done_none _ _ _ _ _ _ h2 (by rw [hN''old q hq hqi]; exact hcase),
              denMB_done_none _ _ _ _ _ _ h1 hcase]
          | some ndq =>
            rw [denMB_done_some _ _ _ _ _ _ ndq h2 (by rw [hN''old q hq hqi]; exact hcase),
              denMB_done_some _ _ _ _ _ _ ndq h1 hcase]
            have hching := hinv.doneChild q ndq h1 hcase
            rw [hsumOld ndq.children (fun p hp => (hching p hp).2)]
            refine congrArg _ (congrArg _ (List.map_congr_left ?_))
            intro p hp
            by_cases hlt : q < p.2
            · rw [if_pos hlt, if_pos hlt,
                ihb p.2 (hching p hp).2 (by omega)]
            · rw [if_neg hlt, if_neg hlt]
  refine ⟨?_, ?_, ?_, ?_, ?_, ?_, ?_, ?_, ?_, ?_, ?_, ?_, ?_, ?_, ?_, ?_, ?_, ?_⟩
  · show (f ++ nd.children.map Prod.snd).length = st'.newNodes.length
    rw [List.length_append, List.length_map, hN''len, hfLen]
  · show st'.stack.Nodup
    rw [hstk']
    refine List.Nodup.append (List.nodup_reverse.mpr (List.nodup_range' _ _)) hrestNodup ?_
    intro a ha hb
    have h1 := List.mem_range'_1.mp (List.mem_reverse.mp ha)
    have h2 := hrestLt a hb
    omega
  · intro j hj
    rw [hN''len]
    rcases (hS'iff j).mp hj with ⟨h1, h2⟩ | h2
    · omega
    · have := hrestLt j h2
      omega
  · intro j hj
    rcases (hS'iff j).mp hj with ⟨h1, h2⟩ | h2
    · obtain ⟨m, hmj⟩ : ∃ m, j = st.newNodes.length + m := ⟨j - st.newNodes.length, by omega⟩
      subst hmj
      have hmn : m < nd.children.length := by omega
      obtain ⟨p, hp⟩ := exists_getElem?_of_lt nd.children hmn
      obtain ⟨cn, hcn, ho⟩ := hN''new m p hp
      rw [hcn, hf'new m p hp, ho]
    · have hjL : j < st.newNodes.length := hrestLt j h2
      have hji : j ≠ index := hrestNe j h2
      rw [hN''old j hjL hji, hf'old j hjL]
      exact hinv.pendContent j (hrestStack j h2)
  · show (f ++ nd.children.map Prod.snd).getD 0 0 = 0
    rw [hf'old 0 (by omega)]
    exact hinv.f0
  · intro j hj hj0
    rw [hN''len] at hj
    by_cases hjL : j < st.newNodes.length
    · rw [hf'old j hjL]
      exact hinv.fPos j hjL hj0
    · obtain ⟨m, hmj⟩ : ∃ m, j = st.newNodes.length + m := ⟨j - st.newNodes.length, by omega⟩
      subst hmj
      have hmn : m < nd.children.length := by omega
      obtain ⟨p, hp⟩ := exists_getElem?_of_lt nd.children hmn
      rw [hf'new m p hp]
      exact hchNz p (List.getElem?_mem hp)
  · intro j hj
    rw [hN''len] at hj
    by_cases hjL : j < st.newNodes.length
    · rw [hf'old j hjL]
      exact hinv.fLt j hjL
    · obtain ⟨m, hmj⟩ : ∃ m, j = st.newNodes.length + m := ⟨j - st.newNodes.length, by omega⟩
      subst hmj
      have hmn : m < nd.children.length := by omega
      obtain ⟨p, hp⟩ := exists_getElem?_of_lt nd.children hmn
      rw [hf'new m p hp]
      exact (hOchild p (List.getElem?_mem hp)).2
  · intro j ndq hj hndq p hp
    have hjlen : j < st'.newNodes.length := getElem?_some_lt _ _ _ hndq
    rw [hN''len] at hjlen
    rw [hN''len]
    by_cases hji : j = index
    · replace hji := hji.symm
      subst hji
      rw [hN''idx] at hndq
      cases Option.some.inj hndq
      obtain ⟨m, q, hm, hq, hpe⟩ := remapAll_mem nd.children st.newNodes.length p hp
      constructor
      · rw [hpe]
        show index < st.newNodes.length + m
        omega
      · rw [hpe]
        show st.newNodes.length + m < st.newNodes.length + nd.children.length
        omega
    · have hjL : j < st.newNodes.length := by
        by_contra hcon
        exact hj ((hS'iff j).mpr (Or.inl ⟨by omega, by omega⟩))
      have hjS : j ∉ st.stack := by
        rw [← hS'old j hjL hji]
        exact hj
      rw [hN''old j hjL hji] at hndq
      have h3 := hinv.doneChild j ndq hjS hndq p hp
      exact ⟨h3.1, by omega⟩
  · intro j ndq hj hndq p hp
    by_cases hji : j = index
    · replace hji := hji.symm
      subst hji
      rw [hN''idx] at hndq
      cases Option.some.inj hndq
      obtain ⟨m, q, hm, hq, hpe⟩ := remapAll_mem nd.children st.newNodes.length p hp
      rw [hpe]
      show q.1 ≠ []
      exact hkeysNe q (List.getElem?_mem hq)
    · have hjlen : j < st'.newNodes.length := getElem?_some_lt _ _ _ hndq
      rw [hN''len] at hjlen
      have hjL : j < st.newNodes.length := by
        by_contra hcon
        exact hj ((hS'iff j).mpr (Or.inl ⟨by omega, by omega⟩))
      have hjS : j ∉ st.stack := by
        rw [← hS'old j hjL hji]
        exact hj
      rw [hN''old j hjL hji] at hndq
      exact hinv.doneKeysNe j ndq hjS hndq p hp
  · intro j ndq hj hndq
    by_cases hji : j = index
    · replace hji := hji.symm
      subst hji
      rw [hN''idx] at hndq
      cases Option.some.inj hndq
      show ((remapAll nd.children st.newNodes.length).map (fun p => p.1.head?)).Nodup
      have h1 : ∀ (m : List (List Char × Nat)), m.map (fun p => p.1.head?) =
          (m.map Prod.fst).map (fun k => k.head?) := by
        intro m
        rw [List.map_map]
        rfl
      rw [h1, remapAll_keys, ← h1]
      exact hkeysFC
    · have hjlen : j < st'.newNodes.length := getElem?_some_lt _ _ _ hndq
      rw [hN''len] at hjlen
      have hjL : j < st.newNodes.length := by
        by_contra hcon
        exact hj ((hS'iff j).mpr (Or.inl ⟨by omega, by omega⟩))
      have hjS : j ∉ st.stack := by
        rw [← hS'old j hjL hji]
        exact hj
      rw [hN''old j hjL hji] at hndq
      exact hinv.doneKeysFC j ndq hjS hndq
  · intro j ndq hj hndq
    by_cases hji : j = index
    · replace hji := hji.symm
      subst hji
      rw [hN''idx] at hndq
      cases Option.some.inj hndq
      refine ⟨nd, ?_, rfl, ?_⟩
      · rw [hf'old index hidxLt]
        exact hpendO
      · show sumCounts st'.newNodes (remapAll nd.children st.newNodes.length) =
          sumCounts orig nd.children
        exact hsumRemap
    · have hjlen : j < st'.newNodes.length := getElem?_some_lt _ _ _ hndq
      rw [hN''len] at hjlen
      have hjL : j < st.newNodes.length := by
        by_contra hcon
        exact hj ((hS'iff j).mpr (Or.inl ⟨by omega, by omega⟩))
      have hjS : j ∉ st.stack := by
        rw [← hS'old j hjL hji]
        exact hj
      rw [hN''old j hjL hji] at hndq
      obtain ⟨ond, h1, h2, h3⟩ := hinv.doneCount j ndq hjS hndq
      refine ⟨ond, ?_, h2, ?_⟩
      · rw [hf'old j hjL]
        exact h1
      · rw [hsumOld ndq.children (fun p hp => (hinv.doneChild j ndq hjS hndq p hp).2)]
        exact h3
  · intro j hj hjS
    rw [hN''len] at hj
    by_cases hji : j = index
    · replace hji := hji.symm
      subst hji
      rw [hf'old index hidxLt]
      exact hnelig
    · have hjL : j < st.newNodes.length := by
        by_contra hcon
        exact hjS ((hS'iff j).mpr (Or.inl ⟨by omega, by omega⟩))
      have hjSold : j ∉ st.stack := by
        rw [← hS'old j hjL hji]
        exact hjS
      rw [hf'old j hjL]
      exact hinv.notElig j hjL hjSold
  · intro c hc0 hcL
    rw [hN''len] at hcL
    rw [hdrcF c, remapAll_filter_count]
    by_cases hcase : c < st.newNodes.length
    · rw [if_neg (by omega), hinv.refsOnce c hc0 hcase]
    · rw [if_pos (by omega), hdrcHi c (by omega)]
  · show doneRefCount st' 0 = 0
    rw [hdrcF 0, remapAll_filter_count, if_neg (by omega), hinv.refsZero]
  · intro c hc hc0
    rcases (hS'iff c).mp hc with ⟨h1, h2⟩ | h2
    · obtain ⟨m, hmj⟩ : ∃ m, c = st.newNodes.length + m := ⟨c - st.newNodes.length, by omega⟩
      subst hmj
      have hmn : m < nd.children.length := by omega
      obtain ⟨p, hp⟩ := exists_getElem?_of_lt nd.children hmn
      obtain ⟨hpar2, hpfx2⟩ := hnew m p hp
      refine ⟨index, ⟨remapAll nd.children st.newNodes.length, nd.count⟩, hidxS', hN''idx,
        hpar2, p.1, hpfx2, ?_⟩
      show (p.1, st.newNodes.length + m) ∈ remapAll nd.children st.newNodes.length
      exact List.getElem?_mem (remapAll_getElem? nd.children st.newNodes.length m p hp)
    · obtain ⟨j, ndj, hjdone, hjnode, hjparc, key, hjkey, hjmem⟩ :=
        hinv.parentTrack c (hrestStack c h2) hc0
      have hjL : j < st.newNodes.length := getElem?_some_lt _ _ _ hjnode
      have hji : j ≠ index := fun he => hjdone (he ▸ hmem)
      have hcL : c < st.newNodes.length := hrestLt c h2
      obtain ⟨hp1, hp2⟩ := hpres c hcL
      refine ⟨j, ndj, ?_, ?_, ?_, key, ?_, hjmem⟩
      · rw [hS'old j hjL hji]
        exact hjdone
      · rw [hN''old j hjL hji]
        exact hjnode
      · rw [hp1]
        exact hjparc
      · rw [hp2]
        exact hjkey
  · show denMB orig st'.newNodes st'.stack (f ++ nd.children.map Prod.snd)
      st'.newNodes.length 0 = den orig 0
    rw [hN''len,
      hDD (st.newNodes.length + nd.children.length) 0 (by omega) (by omega),
      denMB_stable orig st.newNodes st.stack f hinv.stackLt 0
        (st.newNodes.length + nd.children.length) st.newNodes.length (by omega) (by omega)]
    exact hinv.denPres
  · intro x
    have hru := reach_unfold orig (f.getD index 0) nd hpendO (fun p hp => (hOchild p hp).1)
    rw [hinv.cover x]
    constructor
    · intro h
      rcases h with ⟨j, hj1, hj2, hj3⟩ | ⟨j, hj, hr⟩ | hx
      · have hji : j ≠ index := fun he => hj2 (he ▸ hmem)
        refine Or.inl ⟨j, by rw [hN''len]; omega, ?_, ?_⟩
        · rw [hS'old j hj1 hji]
          exact hj2
        · rw [hf'old j hj1]
          exact hj3
      · by_cases hji : j = index
        · replace hji := hji.symm
          subst hji
          rcases (hru x).mp hr with he | ⟨p, hp, hrp⟩
          · refine Or.inl ⟨index, by rw [hN''len]; omega, hidxS', ?_⟩
            rw [hf'old index hidxLt]
            exact he.symm
          · obtain ⟨m, hm⟩ := List.getElem?_of_mem hp
            refine Or.inr (Or.inl ⟨st.newNodes.length + m, ?_, ?_⟩)
            · exact (hS'iff _).mpr (Or.inl ⟨by omega,
                by have := getElem?_some_lt _ _ _ hm; omega⟩)
            · rw [hf'new m p hm]
              exact hrp
        · refine Or.inr (Or.inl ⟨j, ?_, ?_⟩)
          · refine (hS'iff _).mpr (Or.inr ?_)
            rw [hstk] at hj
            rcases List.mem_cons.mp hj with he | h2
            · exact absurd he hji
            · exact h2
          · rw [hf'old j (hinv.stackLt j hj)]
            exact hr
      · exact Or.inr (Or.inr hx)
    · intro h
      rcases h with ⟨j, hj1, hj2, hj3⟩ | ⟨j, hj, hr⟩ | hx
      · rw [hN''len] at hj1
        by_cases hji : j = index
        · replace hji := hji.symm
          subst hji
          refine Or.inr (Or.inl ⟨index, hmem, ?_⟩)
          rw [hf'old index hidxLt] at hj3
          rw [← hj3]
          exact Reach.refl _
        · by_cases hjL : j < st.newNodes.length
          · refine Or.inl ⟨j, hjL, ?_, ?_⟩
            · rw [← hS'old j hjL hji]
              exact hj2
            · rw [← hf'old j hjL]
              exact hj3
          · exact absurd ((hS'iff j).mpr (Or.inl ⟨by omega, by omega⟩)) hj2
      · rcases (hS'iff j).mp hj with ⟨hL1, hL2⟩ | hjr
        · obtain ⟨m, hmj⟩ : ∃ m, j = st.newNodes.length + m :=
            ⟨j - st.newNodes.length, by omega⟩
          subst hmj
          have hmn : m < nd.children.length := by omega
          obtain ⟨p, hp⟩ := exists_getElem?_of_lt nd.children hmn
          rw [hf'new m p hp] at hr
          refine Or.inr (Or.inl ⟨index, hmem, ?_⟩)
          exact (hru x).mpr (Or.inr ⟨p, List.getElem?_mem hp, hr⟩)
        · refine Or.inr (Or.inl ⟨j, hrestStack j hjr, ?_⟩)
          rw [hf'old j (hrestLt j hjr)] at hr
          exact hr
      · exact Or.inr (Or.inr hx)
  · exact hinv.splElig

end Toipe

namespace Toipe

/-! Unfolding lemmas for findFrom. -/

theorem findFrom_nil (t : Trie) (i : Nat) : findFrom t i [] = some i := by
  unfold findFrom
  rfl

theorem findFrom_cons_none (t : Trie) (i : Nat) (ch : Char) (vr : List Char)
    (hnd : t.nodes[i]? = none) : findFrom t i (ch :: vr) = none := by
  unfold findFrom
  rw [hnd]

theorem findFrom_cons_find (t : Trie) (i : Nat) (ch : Char) (vr : List Char) (nd : Node)
    (k : List Char) (c : Nat) (hnd : t.nodes[i]? = some nd)
    (hf : nd.children.find? (fun p => decide (p.1 ≠ []) && p.1.isPrefixOf (ch :: vr)) =
      some (k, c)) :
    findFrom t i (ch :: vr) = findFrom t c ((ch :: vr).drop k.length) := by
  conv_lhs => unfold findFrom
  rw [hnd]
  split
  · rename_i heq
    cases heq
  · rename_i nd2 heq
    cases heq
    split
    · rename_i heq2
      rw [hf] at heq2
      cases heq2
    · rename_i k2 c2 heq2
      rw [hf] at heq2
      cases heq2
      rfl

theorem findFrom_cons_nofind (t : Trie) (i : Nat) (ch : Char) (vr : List Char) (nd : Node)
    (hnd : t.nodes[i]? = some nd)
    (hf : nd.children.find? (fun p => decide (p.1 ≠ []) && p.1.isPrefixOf (ch :: vr)) =
      none) :
    findFrom t i (ch :: vr) = none := by
  conv_lhs => unfold findFrom
  rw [hnd]
  split
  · rename_i heq
    cases heq
  · rename_i nd2 heq
    cases heq
    split
    · rfl
    · rename_i k2 c2 heq2
      rw [hf] at heq2
      cases heq2

/-! find? helpers. -/

theorem find?_append_some {α : Type} (l1 l2 : List α) (p : α → Bool) (x : α)
    (h : l1.find? p = some x) : (l1 ++ l2).find? p = some x := by
  induction l1 with
  | nil => simp [List.find?] at h
  | cons a r ih =>
    rw [List.cons_append]
    cases hpa : p a with
    | true =>
      rw [List.find?_cons_of_pos _ hpa] at h ⊢
      exact h
    | false =>
      rw [List.find?_cons_of_neg _ (by simp [hpa])] at h ⊢
      exact ih h

theorem find?_eq_some_of_unique {α : Type} (l : List α) (p : α → Bool) (a : α)
    (ha : a ∈ l) (hpa : p a = true) (huniq : ∀ b ∈ l, p b = true → b = a) :
    l.find? p = some a := by
  induction l with
  | nil => simp at ha
  | cons x r ih =>
    by_cases hpx : p x = true
    · rw [List.find?_cons_of_pos _ hpx]
      rw [huniq x (List.mem_cons_self _ _) hpx]
    · rw [List.find?_cons_of_neg _ (by simpa using hpx)]
      rcases List.mem_cons.mp ha with he | hr
      · rw [← he] at hpx
        exact absurd hpa hpx
      · exact ih hr (fun b hb hpb => huniq b (List.mem_cons_of_mem _ hb) hpb)

theorem key_unique (m : List (List Char × Nat)) (hnd : (m.map Prod.fst).Nodup)
    (a b : List Char × Nat) (ha : a ∈ m) (hb : b ∈ m) (hk : a.1 = b.1) : a = b := by
  induction m with
  | nil => simp at ha
  | cons x r ih =>
    rw [List.map_cons, List.nodup_cons] at hnd
    rcases List.mem_cons.mp ha with he1 | hr1
    · rcases List.mem_cons.mp hb with he2 | hr2
      · rw [he1, he2]
      · exfalso
        refine hnd.1 ?_
        rw [← he1, hk]
        exact List.mem_map_of_mem Prod.fst hr2
    · rcases List.mem_cons.mp hb with he2 | hr2
      · exfalso
        refine hnd.1 ?_
        rw [← he2, ← hk]
        exact List.mem_map_of_mem Prod.fst hr1
      · exact ih hnd.2 hr1 hr2

theorem singleton_isPrefixOf_cons (c ch : Char) (rest : List Char) :
    ([c].isPrefixOf (ch :: rest)) = (c == ch) := by
  show (c == ch && ([] : List Char).isPrefixOf rest) = (c == ch)
  rw [List.isPrefixOf]
  exact Bool.and_true _

/-- The find? step of findFrom at a node with single-character, distinct keys
resolves to the unique child keyed by the next character. -/
theorem find?_char_child (m : List (List Char × Nat))
    (hchar : ∀ p ∈ m, ∃ c, p.1 = [c]) (hnd : (m.map Prod.fst).Nodup)
    (ch : Char) (index : Nat) (rest : List Char) (hmem : ([ch], index) ∈ m) :
    m.find? (fun p => decide (p.1 ≠ []) && p.1.isPrefixOf (ch :: rest)) =
      some ([ch], index) := by
  refine find?_eq_some_of_unique m _ ([ch], index) hmem ?_ ?_
  · simp [singleton_isPrefixOf_cons]
  · intro b hb hpb
    obtain ⟨c, hc⟩ := hchar b hb
    simp only [Bool.and_eq_true, decide_eq_true_eq] at hpb
    have hcch : c = ch := by
      have := hpb.2
      rw [hc, singleton_isPrefixOf_cons] at this
      exact eq_of_beq this
    refine key_unique m hnd b ([ch], index) hb hmem ?_
    rw [hc, hcch]

/-- One findFrom step along an existing single-character edge. -/
theorem findFrom_char_step (t : Trie) (i : Nat) (nd : Node) (ch : Char) (rest : List Char)
    (index : Nat) (hnd : t.nodes[i]? = some nd)
    (hchar : ∀ p ∈ nd.children, ∃ c, p.1 = [c])
    (hknd : (nd.children.map Prod.fst).Nodup)
    (hmem : ([ch], index) ∈ nd.children) :
    findFrom t i (ch :: rest) = findFrom t index rest := by
  rw [findFrom_cons_find t i ch rest nd [ch] index hnd
    (find?_char_child nd.children hchar hknd ch index rest hmem)]
  rfl

end Toipe

namespace Toipe

/-! Reference-count and sum bookkeeping for one insertion step. -/

theorem sum_set_nat : ∀ (l : List Nat) (i x v : Nat), l[i]? = some v →
    (l.set i x).sum + v = l.sum + x := by
  intro l
  induction l with
  | nil => intro i x v h; simp at h
  | cons a r ih =>
    intro i x v h
    cases i with
    | zero =>
      simp only [List.getElem?_cons_zero] at h
      cases h
      simp only [List.set_cons_zero, List.sum_cons]
      omega
    | succ i =>
      simp only [List.getElem?_cons_succ] at h
      simp only [List.set_cons_succ, List.sum_cons]
      have := ih i x v h
      omega

theorem refCount_set_same (nodes : List Node) (i : Nat) (nd nd2 : Node)
    (hnd : nodes[i]? = some nd) (hsame : nd2.children = nd.children) (c : Nat) :
    refCount (nodes.set i nd2) c = refCount nodes c := by
  unfold refCount
  rw [List.map_set]
  refine congrArg _ ?_
  rw [hsame]
  refine set_self_of_getElem? _ _ _ ?_
  rw [List.getElem?_map, hnd]
  rfl

theorem refCount_set_append (nodes : List Node) (i : Nat) (nd : Node) (k : List Char)
    (L cnt c : Nat) (hnd : nodes[i]? = some nd) :
    refCount (nodes.set i ⟨nd.children ++ [(k, L)], cnt⟩) c =
      refCount nodes c + (if L = c then 1 else 0) := by
  unfold refCount
  rw [List.map_set]
  have hv : (nodes.map (fun nd2 => (nd2.children.filter (fun p => p.2 = c)).length))[i]? =
      some ((nd.children.filter (fun p => p.2 = c)).length) := by
    rw [List.getElem?_map, hnd]
    rfl
  have hx : ((⟨nd.children ++ [(k, L)], cnt⟩ : Node).children.filter
      (fun p => p.2 = c)).length =
      (nd.children.filter (fun p => p.2 = c)).length + (if L = c then 1 else 0) := by
    show ((nd.children ++ [(k, L)]).filter (fun p => p.2 = c)).length = _
    rw [List.filter_append, List.length_append]
    by_cases hLc : L = c
    · simp [hLc]
    · simp [hLc]
  have hsum := sum_set_nat
    (nodes.map (fun nd2 => (nd2.children.filter (fun p => p.2 = c)).length)) i
    ((((⟨nd.children ++ [(k, L)], cnt⟩ : Node)).children.filter
      (fun p => p.2 = c)).length)
    ((nd.children.filter (fun p => p.2 = c)).length) hv
  show ((nodes.map (fun nd2 => (nd2.children.filter (fun p => p.2 = c)).length)).set i
      (((⟨nd.children ++ [(k, L)], cnt⟩ : Node).children.filter
        (fun p => p.2 = c)).length)).sum =
    (nodes.map (fun nd2 => (nd2.children.filter (fun p => p.2 = c)).length)).sum +
    (if L = c then 1 else 0)
  omega

theorem refCount_append_new (nodes : List Node) (c : Nat) :
    refCount (nodes ++ [Node.new]) c = refCount nodes c := by
  unfold refCount
  rw [List.map_append, List.sum_append]
  simp [Node.new]

theorem refCount_ge_len (nodes : List Node) (hs : ShapeValid nodes) (c : Nat)
    (hc : nodes.length ≤ c) : refCount nodes c = 0 := by
  unfold refCount
  refine List.sum_eq_zero ?_
  intro x hx
  rcases List.mem_map.mp hx with ⟨nd, hnd, he⟩
  rw [← he]
  have hemp : nd.children.filter (fun p => p.2 = c) = [] := by
    rw [List.filter_eq_nil_iff]
    intro p hp
    obtain ⟨j, hj⟩ := List.getElem?_of_mem hnd
    have := (hs j nd hj p hp).2
    simp only [decide_eq_true_eq]
    omega
  rw [hemp]
  rfl

theorem countAt_set_bump (nodes : List Node) (i : Nat) (nd : Node)
    (mm : List (List Char × Nat)) (hnd : nodes[i]? = some nd) :
    ∀ q, countAt (nodes.set i ⟨mm, nd.count + 1⟩) q =
      countAt nodes q + (if q = i then 1 else 0) := by
  intro q
  by_cases hq : q = i
  · replace hq := hq.symm
    subst hq
    unfold countAt
    rw [List.getElem?_set_self (getElem?_some_lt _ _ _ hnd), hnd, if_pos rfl]
    rfl
  · unfold countAt
    rw [List.getElem?_set_ne (fun he => hq he.symm), if_neg hq]
    omega

theorem countAt_append_new (nodes : List Node) :
    ∀ q, countAt (nodes ++ [Node.new]) q = countAt nodes q := by
  intro q
  by_cases hq : q < nodes.length
  · unfold countAt
    rw [List.getElem?_append_left hq]
  · have hq' : nodes.length ≤ q := Nat.le_of_not_lt hq
    unfold countAt
    rw [List.getElem?_append_right hq',
      (List.getElem?_eq_none_iff.mpr hq' : nodes[q]? = none)]
    by_cases hq2 : q = nodes.length
    · rw [show q - nodes.length = 0 by omega]
      rfl
    · rw [(List.getElem?_eq_none_iff.mpr
        (by simp only [List.length_singleton]; omega) :
          ([Node.new] : List Node)[q - nodes.length]? = none)]

theorem sumCounts_pointwise (A B : List Node) (i : Nat)
    (h : ∀ q, countAt A q = countAt B q + (if q = i then 1 else 0)) :
    ∀ m : List (List Char × Nat),
      sumCounts A m = sumCounts B m + (m.filter (fun p => p.2 = i)).length := by
  intro m
  induction m with
  | nil => rfl
  | cons p r ih =>
    simp only [sumCounts, List.map_cons, List.sum_cons] at ih ⊢
    rw [List.filter_cons]
    by_cases hpi : p.2 = i
    · rw [if_pos (by simpa using hpi), h p.2, ih, if_pos hpi]
      simp only [List.length_cons]
      omega
    · rw [if_neg (by simpa using hpi), h p.2, ih, if_neg hpi]
      omega

theorem sAt_eq (t : Trie) (j : Nat) :
    sAt t j = sumCounts t.nodes ((t.nodes[j]?.map Node.children).getD []) := by
  unfold sAt
  cases h : t.nodes[j]? with
  | none => rfl
  | some nd => rfl

theorem eAt_eq (t : Trie) (j i : Nat) :
    eAt t j i =
      (((t.nodes[j]?.map Node.children).getD []).filter (fun p => p.2 = i)).length := by
  unfold eAt
  cases h : t.nodes[j]? with
  | none => rfl
  | some nd => rfl

end Toipe

namespace Toipe

/-! Effect of one count bump (Trie::insert incrementing the current node). -/

theorem cAt_bump (t : Trie) (i : Nat) (nd : Node) (hnd : t.nodes[i]? = some nd) :
    ∀ q, cAt (t.setNode i ⟨nd.children, nd.count + 1⟩) q =
      cAt t q + (if q = i then 1 else 0) :=
  countAt_set_bump t.nodes i nd nd.children hnd

theorem children_bump (t : Trie) (i : Nat) (nd : Node) (hnd : t.nodes[i]? = some nd) :
    ∀ j : Nat, ((t.setNode i ⟨nd.children, nd.count + 1⟩).nodes[j]?.map Node.children).getD [] =
      (t.nodes[j]?.map Node.children).getD [] := by
  intro j
  by_cases hj : j = i
  · replace hj := hj.symm
    subst hj
    show ((t.nodes.set i ⟨nd.children, nd.count + 1⟩)[i]?.map Node.children).getD [] = _
    rw [List.getElem?_set_self (getElem?_some_lt _ _ _ hnd), hnd]
    rfl
  · show ((t.nodes.set i ⟨nd.children, nd.count + 1⟩)[j]?.map Node.children).getD [] = _
    rw [List.getElem?_set_ne (fun he => hj he.symm)]

theorem sAt_bump (t : Trie) (i : Nat) (nd : Node) (hnd : t.nodes[i]? = some nd) :
    ∀ j, sAt (t.setNode i ⟨nd.children, nd.count + 1⟩) j = sAt t j + eAt t j i := by
  intro j
  rw [sAt_eq, sAt_eq, eAt_eq, children_bump t i nd hnd j]
  exact sumCounts_pointwise _ _ i (countAt_set_bump t.nodes i nd nd.children hnd) _

theorem eAt_bump (t : Trie) (i : Nat) (nd : Node) (hnd : t.nodes[i]? = some nd) :
    ∀ j q, eAt (t.setNode i ⟨nd.children, nd.count + 1⟩) j q = eAt t j q := by
  intro j q
  rw [eAt_eq, eAt_eq, children_bump t i nd hnd j]

theorem pres_bump (t : Trie) (i : Nat) (nd : Node) (hnd : t.nodes[i]? = some nd) :
    ∀ (j : Nat) (ndj : Node), t.nodes[j]? = some ndj →
      ∃ nd2 : Node, (t.setNode i ⟨nd.children, nd.count + 1⟩).nodes[j]? = some nd2 ∧
        nd2.children = ndj.children := by
  intro j ndj hj
  by_cases hji : j = i
  · replace hji := hji.symm
    subst hji
    rw [hnd] at hj
    cases Option.some.inj hj
    refine ⟨⟨nd.children, nd.count + 1⟩, ?_, rfl⟩
    show (t.nodes.set i ⟨nd.children, nd.count + 1⟩)[i]? = _
    exact List.getElem?_set_self (getElem?_some_lt _ _ _ hnd)
  · refine ⟨ndj, ?_, rfl⟩
    show (t.nodes.set i ⟨nd.children, nd.count + 1⟩)[j]? = _
    rw [List.getElem?_set_ne (fun he => hji he.symm)]
    exact hj

theorem GS_bump (t : Trie) (i : Nat) (nd : Node) (hgs : GS t) (hnd : t.nodes[i]? = some nd) :
    GS (t.setNode i ⟨nd.children, nd.count + 1⟩) := by
  have hlen : (t.setNode i ⟨nd.children, nd.count + 1⟩).nodes.length = t.nodes.length := by
    show (t.nodes.set i ⟨nd.children, nd.count + 1⟩).length = _
    rw [List.length_set]
  have hget : ∀ (j : Nat) (ndj : Node),
      (t.setNode i ⟨nd.children, nd.count + 1⟩).nodes[j]? = some ndj →
      ndj.children = ((t.nodes[j]?.map Node.children).getD []) ∧ t.nodes[j]? ≠ none := by
    intro j ndj hj
    have hj' : (t.nodes.set i ⟨nd.children, nd.count + 1⟩)[j]? = some ndj := hj
    by_cases hji : j = i
    · replace hji := hji.symm
      subst hji
      rw [List.getElem?_set_self (getElem?_some_lt _ _ _ hnd)] at hj'
      cases Option.some.inj hj'
      rw [hnd]
      exact ⟨rfl, by simp [hnd]⟩
    · rw [List.getElem?_set_ne (fun he => hji he.symm)] at hj'
      rw [hj']
      exact ⟨rfl, by simp⟩
  refine ⟨shapeValid_set_same_children t.nodes i nd _ hgs.shape hnd rfl, ?_, ?_, ?_, ?_, ?_⟩
  · rw [hlen]
    exact hgs.ne
  · intro q ndq hq p hp
    obtain ⟨hch, hne⟩ := hget q ndq hq
    cases horig : t.nodes[q]? with
    | none => exact absurd horig hne
    | some ndo =>
      rw [horig] at hch
      have hch2 : ndq.children = ndo.children := hch
      rw [hch2] at hp
      exact hgs.keysChar q ndo horig p hp
  · intro q ndq hq
    obtain ⟨hch, hne⟩ := hget q ndq hq
    cases horig : t.nodes[q]? with
    | none => exact absurd horig hne
    | some ndo =>
      rw [horig] at hch
      have hch2 : ndq.children = ndo.children := hch
      rw [hch2]
      exact hgs.keysNodup q ndo horig
  · intro c hc1 hc2
    rw [hlen] at hc2
    show refCount (t.nodes.set i ⟨nd.children, nd.count + 1⟩) c = 1
    rw [refCount_set_same t.nodes i nd ⟨nd.children, nd.count + 1⟩ hnd rfl]
    exact hgs.refs c hc1 hc2
  · show refCount (t.nodes.set i ⟨nd.children, nd.count + 1⟩) 0 = 0
    rw [refCount_set_same t.nodes i nd ⟨nd.children, nd.count + 1⟩ hnd rfl]
    exact hgs.refs0

end Toipe

namespace Toipe

/-! Effect of Trie::add_node (allocating a fresh child under the current node). -/

theorem ext_nodes_get (t : Trie) (i : Nat) (nd : Node) (ch : Char)
    (hnd : t.nodes[i]? = some nd) :
    ((t.nodes.set i ⟨nd.children ++ [([ch], t.nodes.length)], nd.count + 1⟩)
        ++ [Node.new])[i]? =
      some ⟨nd.children ++ [([ch], t.nodes.length)], nd.count + 1⟩ := by
  rw [List.getElem?_append_left (by rw [List.length_set]; exact getElem?_some_lt _ _ _ hnd),
    List.getElem?_set_self (getElem?_some_lt _ _ _ hnd)]

theorem ext_nodes_get_old (t : Trie) (i : Nat) (nd : Node) (ch : Char) (j : Nat)
    (hnd : t.nodes[i]? = some nd) (hj : j < t.nodes.length) (hji : j ≠ i) :
    ((t.nodes.set i ⟨nd.children ++ [([ch], t.nodes.length)], nd.count + 1⟩)
        ++ [Node.new])[j]? = t.nodes[j]? := by
  rw [List.getElem?_append_left (by rw [List.length_set]; exact hj),
    List.getElem?_set_ne (fun he => hji he.symm)]

theorem ext_nodes_get_new (t : Trie) (i : Nat) (nd : Node) (ch : Char) :
    ((t.nodes.set i ⟨nd.children ++ [([ch], t.nodes.length)], nd.count + 1⟩)
        ++ [Node.new])[t.nodes.length]? = some Node.new := by
  rw [List.getElem?_append_right (by rw [List.length_set]),
    List.length_set, Nat.sub_self]
  rfl

theorem ext_cAt (t : Trie) (i : Nat) (nd : Node) (ch : Char) (hnd : t.nodes[i]? = some nd) :
    ∀ q, cAt (⟨(t.nodes.set i ⟨nd.children ++ [([ch], t.nodes.length)], nd.count + 1⟩)
        ++ [Node.new]⟩ : Trie) q = cAt t q + (if q = i then 1 else 0) := by
  intro q
  show countAt ((t.nodes.set i ⟨nd.children ++ [([ch], t.nodes.length)], nd.count + 1⟩)
    ++ [Node.new]) q = countAt t.nodes q + (if q = i then 1 else 0)
  rw [countAt_append_new]
  exact countAt_set_bump t.nodes i nd _ hnd q

theorem ext_children_at (t : Trie) (i : Nat) (nd : Node) (ch : Char)
    (hnd : t.nodes[i]? = some nd) :
    ∀ j : Nat, ((⟨(t.nodes.set i ⟨nd.children ++ [([ch], t.nodes.length)], nd.count + 1⟩)
        ++ [Node.new]⟩ : Trie).nodes[j]?.map Node.children).getD [] =
      (if j = i then nd.children ++ [([ch], t.nodes.length)] else
        (t.nodes[j]?.map Node.children).getD []) := by
  intro j
  by_cases hji : j = i
  · rw [if_pos hji]
    replace hji := hji.symm
    subst hji
    show (((t.nodes.set i ⟨nd.children ++ [([ch], t.nodes.length)], nd.count + 1⟩)
      ++ [Node.new])[i]?.map Node.children).getD [] = _
    rw [ext_nodes_get t i nd ch hnd]
    rfl
  · rw [if_neg hji]
    by_cases hj : j < t.nodes.length
    · show (((t.nodes.set i ⟨nd.children ++ [([ch], t.nodes.length)], nd.count + 1⟩)
        ++ [Node.new])[j]?.map Node.children).getD [] = _
      rw [ext_nodes_get_old t i nd ch j hnd hj hji]
    · have hj' : t.nodes.length ≤ j := Nat.le_of_not_lt hj
      show (((t.nodes.set i ⟨nd.children ++ [([ch], t.nodes.length)], nd.count + 1⟩)
        ++ [Node.new])[j]?.map Node.children).getD [] = _
      rw [(List.getElem?_eq_none_iff.mpr hj' : t.nodes[j]? = none)]
      by_cases hj2 : j = t.nodes.length
      · replace hj2 := hj2.symm
        subst hj2
        rw [ext_nodes_get_new t i nd ch]
        rfl
      · rw [List.getElem?_append_right (by rw [List.length_set]; exact hj'), List.length_set,
          (List.getElem?_eq_none_iff.mpr (by simp only [List.length_singleton]; omega) :
            ([Node.new] : List Node)[j - t.nodes.length]? = none)]

theorem sumCounts_append (A : List Node) (m1 m2 : List (List Char × Nat)) :
    sumCounts A (m1 ++ m2) = sumCounts A m1 + sumCounts A m2 := by
  unfold sumCounts
  rw [List.map_append, List.sum_append]

theorem ext_sAt (t : Trie) (i : Nat) (nd : Node) (ch : Char) (hnd : t.nodes[i]? = some nd) :
    ∀ j, sAt (⟨(t.nodes.set i ⟨nd.children ++ [([ch], t.nodes.length)], nd.count + 1⟩)
        ++ [Node.new]⟩ : Trie) j = sAt t j + eAt t j i := by
  intro j
  have hpt : ∀ q, countAt ((t.nodes.set i ⟨nd.children ++ [([ch], t.nodes.length)],
      nd.count + 1⟩) ++ [Node.new]) q = countAt t.nodes q + (if q = i then 1 else 0) := by
    intro q
    rw [countAt_append_new]
    exact countAt_set_bump t.nodes i nd _ hnd q
  rw [sAt_eq, sAt_eq, eAt_eq, ext_children_at t i nd ch hnd j]
  by_cases hji : j = i
  · rw [if_pos hji]
    replace hji := hji.symm
    subst hji
    rw [show (t.nodes[i]?.map Node.children).getD [] = nd.children from by rw [hnd]; rfl]
    show sumCounts ((t.nodes.set i ⟨nd.children ++ [([ch], t.nodes.length)], nd.count + 1⟩)
      ++ [Node.new]) (nd.children ++ [([ch], t.nodes.length)]) = _
    rw [sumCounts_append]
    have hnewc : sumCounts ((t.nodes.set i ⟨nd.children ++ [([ch], t.nodes.length)],
        nd.count + 1⟩) ++ [Node.new]) [([ch], t.nodes.length)] = 0 := by
      show countAt _ t.nodes.length + 0 = 0
      rw [show countAt ((t.nodes.set i ⟨nd.children ++ [([ch], t.nodes.length)],
        nd.count + 1⟩) ++ [Node.new]) t.nodes.length =
          ((some Node.new).map Node.count).getD 0 from by
        unfold countAt
        rw [ext_nodes_get_new t i nd ch]]
      rfl
    rw [hnewc, sumCounts_pointwise _ t.nodes i hpt nd.children]
    omega
  · rw [if_neg hji]
    exact sumCounts_pointwise _ t.nodes i hpt _

theorem ext_eAt_L (t : Trie) (i : Nat) (nd : Node) (ch : Char) (hnd : t.nodes[i]? = some nd)
    (hs : ShapeValid t.nodes) :
    ∀ j, eAt (⟨(t.nodes.set i ⟨nd.children ++ [([ch], t.nodes.length)], nd.count + 1⟩)
        ++ [Node.new]⟩ : Trie) j t.nodes.length = if j = i then 1 else 0 := by
  intro j
  rw [eAt_eq, ext_children_at t i nd ch hnd j]
  by_cases hji : j = i
  · rw [if_pos hji, if_pos hji, List.filter_append]
    have h1 : nd.children.filter (fun p => p.2 = t.nodes.length) = [] := by
      rw [List.filter_eq_nil_iff]
      intro p hp
      have h2 := (hs i nd hnd p hp).2
      simp only [decide_eq_true_eq]
      omega
    rw [h1]
    simp
  · rw [if_neg hji, if_neg hji]
    cases hj : t.nodes[j]? with
    | none => simp
    | some ndj =>
      show ((ndj.children.filter (fun p => p.2 = t.nodes.length)).length) = 0
      have h1 : ndj.children.filter (fun p => p.2 = t.nodes.length) = [] := by
        rw [List.filter_eq_nil_iff]
        intro p hp
        have h2 := (hs j ndj hj p hp).2
        simp only [decide_eq_true_eq]
        omega
      rw [h1]
      rfl

theorem ext_pres (t : Trie) (i : Nat) (nd : Node) (ch : Char) (hnd : t.nodes[i]? = some nd) :
    ∀ (j : Nat) (ndj : Node), t.nodes[j]? = some ndj →
      ∃ (nd2 : Node) (e1 : List (List Char × Nat)),
        (⟨(t.nodes.set i ⟨nd.children ++ [([ch], t.nodes.length)], nd.count + 1⟩)
          ++ [Node.new]⟩ : Trie).nodes[j]? = some nd2 ∧
        nd2.children = ndj.children ++ e1 := by
  intro j ndj hj
  by_cases hji : j = i
  · replace hji := hji.symm
    subst hji
    rw [hnd] at hj
    cases Option.some.inj hj
    refine ⟨⟨nd.children ++ [([ch], t.nodes.length)], nd.count + 1⟩,
      [([ch], t.nodes.length)], ?_, rfl⟩
    exact ext_nodes_get t i nd ch hnd
  · refine ⟨ndj, [], ?_, by simp⟩
    show ((t.nodes.set i ⟨nd.children ++ [([ch], t.nodes.length)], nd.count + 1⟩)
      ++ [Node.new])[j]? = _
    rw [ext_nodes_get_old t i nd ch j hnd (getElem?_some_lt _ _ _ hj) hji]
    exact hj

theorem GS_ext (t : Trie) (i : Nat) (nd : Node) (ch : Char) (hgs : GS t)
    (hnd : t.nodes[i]? = some nd) (hg : assocGet nd.children [ch] = none) :
    GS (⟨(t.nodes.set i ⟨nd.children ++ [([ch], t.nodes.length)], nd.count + 1⟩)
      ++ [Node.new]⟩ : Trie) := by
  have hidx : i < t.nodes.length := getElem?_some_lt _ _ _ hnd
  have hlen2 : ((t.nodes.set i ⟨nd.children ++ [([ch], t.nodes.length)], nd.count + 1⟩)
      ++ [Node.new]).length = t.nodes.length + 1 := by
    rw [List.length_append, List.length_set]
    rfl
  have hget : ∀ (j : Nat) (ndj : Node),
      ((t.nodes.set i ⟨nd.children ++ [([ch], t.nodes.length)], nd.count + 1⟩)
        ++ [Node.new])[j]? = some ndj →
      (j = i ∧ ndj = ⟨nd.children ++ [([ch], t.nodes.length)], nd.count + 1⟩) ∨
      (j ≠ i ∧ t.nodes[j]? = some ndj) ∨ (j = t.nodes.length ∧ ndj = Node.new) := by
    intro j ndj hj
    by_cases hji : j = i
    · replace hji := hji.symm
      subst hji
      rw [ext_nodes_get t i nd ch hnd] at hj
      exact Or.inl ⟨rfl, (Option.some.inj hj).symm⟩
    · by_cases hjL : j < t.nodes.length
      · rw [ext_nodes_get_old t i nd ch j hnd hjL hji] at hj
        exact Or.inr (Or.inl ⟨hji, hj⟩)
      · have hj' : t.nodes.length ≤ j := Nat.le_of_not_lt hjL
        by_cases hj2 : j = t.nodes.length
        · replace hj2 := hj2.symm
          subst hj2
          rw [ext_nodes_get_new t i nd ch] at hj
          exact Or.inr (Or.inr ⟨rfl, (Option.some.inj hj).symm⟩)
        · rw [List.getElem?_append_right (by rw [List.length_set]; exact hj'),
            List.length_set,
            (List.getElem?_eq_none_iff.mpr (by simp only [List.length_singleton]; omega) :
              ([Node.new] : List Node)[j - t.nodes.length]? = none)] at hj
          cases hj
  have hkeyNotin : ∀ p ∈ nd.children, p.1 ≠ [ch] := assocGet_none_keys nd.children [ch] hg
  refine ⟨?_, ?_, ?_, ?_, ?_, ?_⟩
  · exact shapeValid_append_child t.nodes i nd [ch] (nd.count + 1) hgs.shape hnd
  · show 0 < ((t.nodes.set i ⟨nd.children ++ [([ch], t.nodes.length)], nd.count + 1⟩)
      ++ [Node.new]).length
    rw [hlen2]
    omega
  · intro q ndq hq p hp
    rcases hget q ndq hq with ⟨hqi, hqe⟩ | ⟨hqi, hqe⟩ | ⟨hqL, hqe⟩
    · rw [hqe] at hp
      rcases List.mem_append.mp hp with h1 | h2
      · exact hgs.keysChar i nd hnd p h1
      · rcases List.mem_singleton.mp h2 with rfl
        exact ⟨ch, rfl⟩
    · exact hgs.keysChar q ndq hqe p hp
    · rw [hqe] at hp
      simp [Node.new] at hp
  · intro q ndq hq
    rcases hget q ndq hq with ⟨hqi, hqe⟩ | ⟨hqi, hqe⟩ | ⟨hqL, hqe⟩
    · rw [hqe]
      show ((nd.children ++ [([ch], t.nodes.length)]).map Prod.fst).Nodup
      rw [List.map_append]
      refine List.Nodup.append (hgs.keysNodup i nd hnd) (by simp) ?_
      intro k hk1 hk2
      simp only [List.map_singleton, List.mem_singleton] at hk2
      rcases List.mem_map.mp hk1 with ⟨p, hp, hpe⟩
      exact hkeyNotin p hp (by rw [hpe, hk2])
    · exact hgs.keysNodup q ndq hqe
    · rw [hqe]
      simp [Node.new]
  · intro c hc1 hc2
    rw [hlen2] at hc2
    show refCount ((t.nodes.set i ⟨nd.children ++ [([ch], t.nodes.length)], nd.count + 1⟩)
      ++ [Node.new]) c = 1
    rw [refCount_append_new, refCount_set_append t.nodes i nd [ch] t.nodes.length
      (nd.count + 1) c hnd]
    by_cases hcL : c < t.nodes.length
    · rw [if_neg (by omega), hgs.refs c hc1 hcL]
    · rw [if_pos (by omega), refCount_ge_len t.nodes hgs.shape c (by omega)]
  · show refCount ((t.nodes.set i ⟨nd.children ++ [([ch], t.nodes.length)], nd.count + 1⟩)
      ++ [Node.new]) 0 = 0
    rw [refCount_append_new, refCount_set_append t.nodes i nd [ch] t.nodes.length
      (nd.count + 1) 0 hnd, if_neg (by omega), hgs.refs0]

theorem eAt_target_unique (t : Trie) (hgs : GS t) (i : Nat) (nd : Node) (k : List Char)
    (index : Nat) (hnd : t.nodes[i]? = some nd) (hmem : (k, index) ∈ nd.children)
    (hpos : 0 < index) (hlen : index < t.nodes.length) :
    ∀ j, eAt t j index = if j = i then 1 else 0 := by
  intro j
  have hrc : refCount t.nodes index = 1 := hgs.refs index hpos hlen
  by_cases hji : j = i
  · replace hji := hji.symm
    subst hji
    rw [if_pos rfl, eAt_eq,
      show (t.nodes[i]?.map Node.children).getD [] = nd.children from by rw [hnd]; rfl]
    have hle := refCount_entry_le t.nodes i nd index hnd
    have hge : 0 < (nd.children.filter (fun p => p.2 = index)).length := by
      have hmf : (k, index) ∈ nd.children.filter (fun p => p.2 = index) :=
        List.mem_filter.mpr ⟨hmem, by simp⟩
      exact List.length_pos.mpr (List.ne_nil_of_mem hmf)
    omega
  · rw [if_neg hji, eAt_eq]
    cases hj : t.nodes[j]? with
    | none => rfl
    | some ndj =>
      show ((ndj.children.filter (fun p => p.2 = index)).length) = 0
      by_contra hcon
      have hne : ndj.children.filter (fun p => p.2 = index) ≠ [] := by
        intro he
        rw [he] at hcon
        exact hcon rfl
      obtain ⟨p, hp⟩ := List.exists_mem_of_ne_nil _ hne
      have hp2 := List.mem_filter.mp hp
      have := refCount_two t.nodes j i ndj nd p (k, index) index hji hj hnd hp2.1 hmem
        (by simpa using hp2.2) rfl
      omega

end Toipe

namespace Toipe

/-- The full effect of the Trie::insert walk from a node: success, invariant
preservation, resolvability of the inserted word at a terminal node, children
maps only extended, and the per-node count/sum delta equation (count minus
children sum grows by one exactly at the terminal, after accounting for the
bump of the entry node's count seen by its parents). -/
theorem insertGo_walk : ∀ (w : List Char) (t : Trie) (i : Nat), GS t → i < t.nodes.length →
    ∃ (t' : Trie) (m : Nat),
      t.insertGo i w = Except.ok t' ∧ GS t' ∧
      t.nodes.length ≤ t'.nodes.length ∧ i ≤ m ∧ m < t'.nodes.length ∧
      findFrom t' i w = some m ∧
      (∀ (j : Nat) (ndj : Node), t.nodes[j]? = some ndj →
        ∃ (nd2 : Node) (ext : List (List Char × Nat)),
          t'.nodes[j]? = some nd2 ∧ nd2.children = ndj.children ++ ext) ∧
      (∀ j : Nat, cAt t' j + sAt t j + eAt t j i =
        cAt t j + sAt t' j + (if j = m then 1 else 0)) := by
  intro w
  induction w with
  | nil =>
    intro t i hgs hi
    obtain ⟨nd, hnd⟩ := exists_getElem?_of_lt t.nodes hi
    refine ⟨t.setNode i ⟨nd.children, nd.count + 1⟩, i, ?_, GS_bump t i nd hgs hnd, ?_,
      le_refl i, ?_, findFrom_nil _ i, ?_, ?_⟩
    · simp [Trie.insertGo, hnd]
    · simp [Trie.setNode]
    · show i < (t.nodes.set i ⟨nd.children, nd.count + 1⟩).length
      rw [List.length_set]
      exact hi
    · intro j ndj hj
      obtain ⟨nd2, h1, h2⟩ := pres_bump t i nd hnd j ndj hj
      exact ⟨nd2, [], h1, by rw [h2, List.append_nil]⟩
    · intro j
      rw [cAt_bump t i nd hnd j, sAt_bump t i nd hnd j]
      omega
  | cons ch rest ih =>
    intro t i hgs hi
    obtain ⟨nd, hnd⟩ := exists_getElem?_of_lt t.nodes hi
    have hgs1 : GS (t.setNode i ⟨nd.children, nd.count + 1⟩) := GS_bump t i nd hgs hnd
    have hlen1 : (t.setNode i ⟨nd.children, nd.count + 1⟩).nodes.length = t.nodes.length := by
      show (t.nodes.set i ⟨nd.children, nd.count + 1⟩).length = _
      rw [List.length_set]
    cases hg : assocGet nd.children [ch] with
    | some index =>
      have hmem : ([ch], index) ∈ nd.children := assocGet_some_mem _ _ _ hg
      have hsh := hgs.shape i nd hnd ([ch], index) hmem
      obtain ⟨t', m, hok, hgs', hlen', him, hmlt, hfind, hpres, hRD⟩ :=
        ih (t.setNode i ⟨nd.children, nd.count + 1⟩) index hgs1 (by rw [hlen1]; exact hsh.2)
      refine ⟨t', m, ?_, hgs', by omega, by omega, hmlt, ?_, ?_, ?_⟩
      · simp only [Trie.insertGo, hnd, hg]
        exact hok
      · obtain ⟨ndb, hb1, hb2⟩ := pres_bump t i nd hnd i nd hnd
        obtain ⟨nd2, ext, h1, h2⟩ := hpres i ndb hb1
        have hch2 : nd2.children = nd.children ++ ext := by rw [h2, hb2]
        have hmem2 : ([ch], index) ∈ nd2.children := by
          rw [hch2]
          exact List.mem_append.mpr (Or.inl hmem)
        rw [findFrom_char_step t' i nd2 ch rest index h1
          (hgs'.keysChar i nd2 h1) (hgs'.keysNodup i nd2 h1) hmem2]
        exact hfind
      · intro j ndj hj
        obtain ⟨ndb, hb1, hb2⟩ := pres_bump t i nd hnd j ndj hj
        obtain ⟨nd2, ext, h1, h2⟩ := hpres j ndb hb1
        exact ⟨nd2, ext, h1, by rw [h2, hb2]⟩
      · intro j
        have h1 := hRD j
        rw [cAt_bump t i nd hnd j, sAt_bump t i nd hnd j, eAt_bump t i nd hnd j index] at h1
        have h2 := eAt_target_unique t hgs i nd [ch] index hnd hmem (by omega) hsh.2 j
        omega
    | none =>
      have hnd1 : (t.nodes.set i ⟨nd.children, nd.count + 1⟩)[i]?
          = some ⟨nd.children, nd.count + 1⟩ := List.getElem?_set_self hi
      have hadd : (t.setNode i ⟨nd.children, nd.count + 1⟩).addNode i [ch] =
          Except.ok (⟨(t.nodes.set i ⟨nd.children ++ [([ch], t.nodes.length)], nd.count + 1⟩)
            ++ [Node.new]⟩, t.nodes.length) := by
        simp only [Trie.addNode, Trie.setNode, hnd1, hg, List.set_set, List.length_set]
      have hgs2 : GS (⟨(t.nodes.set i ⟨nd.children ++ [([ch], t.nodes.length)],
          nd.count + 1⟩) ++ [Node.new]⟩ : Trie) := GS_ext t i nd ch hgs hnd hg
      have hlen2 : ((t.nodes.set i ⟨nd.children ++ [([ch], t.nodes.length)], nd.count + 1⟩)
          ++ [Node.new]).length = t.nodes.length + 1 := by
        rw [List.length_append, List.length_set]
        rfl
      obtain ⟨t', m, hok, hgs', hlen', him, hmlt, hfind, hpres, hRD⟩ :=
        ih (⟨(t.nodes.set i ⟨nd.children ++ [([ch], t.nodes.length)], nd.count + 1⟩)
          ++ [Node.new]⟩ : Trie) t.nodes.length hgs2
          (by show t.nodes.length <
              ((t.nodes.set i ⟨nd.children ++ [([ch], t.nodes.length)], nd.count + 1⟩)
                ++ [Node.new]).length
              rw [hlen2]
              omega)
      have hlb : ((t.nodes.set i ⟨nd.children ++ [([ch], t.nodes.length)], nd.count + 1⟩)
          ++ [Node.new]).length ≤ t'.nodes.length := hlen'
      refine ⟨t', m, ?_, hgs', by omega, by omega, hmlt, ?_, ?_, ?_⟩
      · simp only [Trie.insertGo, hnd, hg, hadd]
        exact hok
      · have hb1 : (⟨(t.nodes.set i ⟨nd.children ++ [([ch], t.nodes.length)],
            nd.count + 1⟩) ++ [Node.new]⟩ : Trie).nodes[i]? =
            some ⟨nd.children ++ [([ch], t.nodes.length)], nd.count + 1⟩ :=
          ext_nodes_get t i nd ch hnd
        obtain ⟨nd2, ext, h1, h2⟩ := hpres i _ hb1
        have hmem2 : ([ch], t.nodes.length) ∈ nd2.children := by
          rw [h2]
          refine List.mem_append.mpr (Or.inl ?_)
          show ([ch], t.nodes.length) ∈ nd.children ++ [([ch], t.nodes.length)]
          exact List.mem_append.mpr (Or.inr (List.mem_singleton.mpr rfl))
        rw [findFrom_char_step t' i nd2 ch rest t.nodes.length h1
          (hgs'.keysChar i nd2 h1) (hgs'.keysNodup i nd2 h1) hmem2]
        exact hfind
      · intro j ndj hj
        obtain ⟨ndb, e1, hb1, hb2⟩ := ext_pres t i nd ch hnd j ndj hj
        obtain ⟨nd2, e2, h1, h2⟩ := hpres j ndb hb1
        refine ⟨nd2, e1 ++ e2, h1, ?_⟩
        rw [h2, hb2, List.append_assoc]
      · intro j
        have h1 := hRD j
        rw [ext_cAt t i nd ch hnd j, ext_sAt t i nd ch hnd j,
          ext_eAt_L t i nd ch hnd hgs.shape j] at h1
        omega

end Toipe

namespace Toipe

/-- findFrom results are stable under extensions that only append new child
entries: existing entries are found first. -/
theorem findFrom_stable (t t' : Trie)
    (hpres : ∀ (j : Nat) (ndj : Node), t.nodes[j]? = some ndj →
      ∃ (nd2 : Node) (ext : List (List Char × Nat)),
        t'.nodes[j]? = some nd2 ∧ nd2.children = ndj.children ++ ext) :
    ∀ (n : Nat) (v : List Char) (i m : Nat), v.length ≤ n →
      findFrom t i v = some m → findFrom t' i v = some m := by
  intro n
  induction n with
  | zero =>
    intro v i m hlen h
    have hv : v = [] := List.length_eq_zero.mp (by omega)
    subst hv
    rw [findFrom_nil] at h ⊢
    exact h
  | succ n ihn =>
    intro v i m hlen h
    cases v with
    | nil =>
      rw [findFrom_nil] at h ⊢
      exact h
    | cons ch vr =>
      cases hnd : t.nodes[i]? with
      | none =>
        rw [findFrom_cons_none t i ch vr hnd] at h
        cases h
      | some nd =>
        cases hf : nd.children.find?
            (fun p => decide (p.1 ≠ []) && p.1.isPrefixOf (ch :: vr)) with
        | none =>
          rw [findFrom_cons_nofind t i ch vr nd hnd hf] at h
          cases h
        | some kc =>
          obtain ⟨k, c⟩ := kc
          rw [findFrom_cons_find t i ch vr nd k c hnd hf] at h
          obtain ⟨nd2, ext, h1, h2⟩ := hpres i nd hnd
          have hf' : nd2.children.find?
              (fun p => decide (p.1 ≠ []) && p.1.isPrefixOf (ch :: vr)) = some (k, c) := by
            rw [h2]
            exact find?_append_some _ _ _ _ hf
          rw [findFrom_cons_find t' i ch vr nd2 k c h1 hf']
          refine ihn _ c m ?_ h
          have hk := List.find?_some hf
          simp only [Bool.and_eq_true, decide_eq_true_eq] at hk
          have hkpos : 0 < k.length := List.length_pos.mpr hk.1
          simp only [List.length_drop, List.length_cons]
          simp only [List.length_cons] at hlen
          omega

theorem termCount_stable (t t' : Trie) (ws : List (List Char))
    (hpres : ∀ (j : Nat) (ndj : Node), t.nodes[j]? = some ndj →
      ∃ (nd2 : Node) (ext : List (List Char × Nat)),
        t'.nodes[j]? = some nd2 ∧ nd2.children = ndj.children ++ ext)
    (hfound : ∀ v ∈ ws, ∃ m2, findFrom t 0 v = some m2 ∧ m2 < t.nodes.length) :
    ∀ j, termCount t' ws j = termCount t ws j := by
  intro j
  unfold termCount
  refine List.countP_congr ?_
  intro v hv
  simp only [decide_eq_true_eq]
  obtain ⟨m2, hm2, _⟩ := hfound v hv
  have hst := findFrom_stable t t' hpres v.length v 0 m2 (le_refl _) hm2
  constructor
  · intro h1
    rw [hst] at h1
    rw [hm2, h1]
  · intro h1
    rw [hm2] at h1
    rw [hst, h1]

theorem eAt_zero (t : Trie) (hz : refCount t.nodes 0 = 0) : ∀ j, eAt t j 0 = 0 := by
  intro j
  cases hj : t.nodes[j]? with
  | none =>
    unfold eAt
    rw [hj]
    rfl
  | some ndj =>
    have hle := refCount_entry_le t.nodes j ndj 0 hj
    unfold eAt
    rw [hj]
    show (ndj.children.filter (fun p => p.2 = 0)).length = 0
    omega

/-- One public insertion preserves the corpus invariant, extending the corpus. -/
theorem insert_binv (ws : List (List Char)) (t : Trie) (w : List Char) (hb : BInv ws t) :
    ∃ t', t.insert w = Except.ok t' ∧ BInv (ws ++ [w]) t' := by
  obtain ⟨t', m, hok, hgs', hlen', _, hmlt, hfind, hpres, hRD⟩ :=
    insertGo_walk w t 0 hb.gs hb.gs.ne
  refine ⟨t', hok, ⟨hgs', ?_, ?_⟩⟩
  · intro v hv
    rcases List.mem_append.mp hv with h1 | h2
    · obtain ⟨m2, hm2, hm2lt⟩ := hb.found v h1
      exact ⟨m2, findFrom_stable t t' hpres v.length v 0 m2 (le_refl _) hm2, by omega⟩
    · rcases List.mem_singleton.mp h2 with rfl
      exact ⟨m, hfind, hmlt⟩
  · intro j nd' hnd'
    have hterm : termCount t' (ws ++ [w]) j =
        termCount t ws j + (if j = m then 1 else 0) := by
      unfold termCount
      rw [List.countP_append]
      have h1 : List.countP (fun v => decide (findFrom t' 0 v = some j)) [w] =
          (if j = m then 1 else 0) := by
        simp only [List.countP_cons, List.countP_nil, hfind]
        by_cases hjm : j = m
        · simp [hjm]
        · simp only [Nat.zero_add]
          rw [if_neg (by simp; omega), if_neg hjm]
      rw [h1]
      refine congrArg (fun z => z + (if j = m then 1 else 0)) ?_
      exact termCount_stable t t' ws hpres hb.found j
    have he0 : eAt t j 0 = 0 := eAt_zero t hb.gs.refs0 j
    have h1 := hRD j
    have hcons : cAt t j = sAt t j + termCount t ws j := by
      cases hj : t.nodes[j]? with
      | none =>
        have hjlen : t.nodes.length ≤ j := List.getElem?_eq_none_iff.mp hj
        have htc : termCount t ws j = 0 := by
          unfold termCount
          rw [List.countP_eq_zero]
          intro v hv
          obtain ⟨m2, hm2, hm2lt⟩ := hb.found v hv
          simp only [decide_eq_true_eq]
          intro hcon
          rw [hm2] at hcon
          have := Option.some.inj hcon
          omega
        rw [htc]
        unfold cAt sAt
        rw [hj]
        rfl
      | some ndj =>
        have hc := hb.cons j ndj hj
        unfold cAt sAt
        rw [hj]
        exact hc
    have hc' : cAt t' j = nd'.count := by
      unfold cAt
      rw [hnd']
      rfl
    have hs' : sAt t' j = sumCounts t'.nodes nd'.children := by
      unfold sAt
      rw [hnd']
      rfl
    rw [hterm]
    omega

theorem binv_nil : BInv [] Trie.new := by
  refine ⟨⟨new_shape, by simp [Trie.new], ?_, ?_, ?_, ?_⟩, ?_, ?_⟩
  · intro i nd hnd p hp
    match i, hnd with
    | 0, h =>
      simp only [Trie.new, Node.new] at h
      cases h
      simp at hp
  · intro i nd hnd
    match i, hnd with
    | 0, h =>
      simp only [Trie.new, Node.new] at h
      cases h
      simp
  · intro c hc1 hc2
    simp only [Trie.new, List.length_singleton] at hc2
    omega
  · show refCount [Node.new] 0 = 0
    simp [refCount, Node.new]
  · intro v hv
    simp at hv
  · intro i nd hnd
    match i, hnd with
    | 0, h =>
      simp only [Trie.new, Node.new] at h
      cases h
      show 0 = sumCounts Trie.new.nodes [] + termCount Trie.new [] 0
      rfl

theorem insertAll_binv : ∀ (ws ws0 : List (List Char)) (t : Trie), BInv ws0 t →
    ∀ t2, t.insertAll ws = Except.ok t2 → BInv (ws0 ++ ws) t2 := by
  intro ws
  induction ws with
  | nil =>
    intro ws0 t hb t2 h
    simp only [Trie.insertAll] at h
    cases h
    rw [List.append_nil]
    exact hb
  | cons w rest ihw =>
    intro ws0 t hb t2 h
    obtain ⟨t', hok, hb'⟩ := insert_binv ws0 t w hb
    simp only [Trie.insertAll, hok] at h
    have := ihw (ws0 ++ [w]) t' hb' t2 h
    rw [List.append_assoc] at this
    simpa using this

theorem built_binv (ws : List (List Char)) (t : Trie) (h : Built ws t) : BInv ws t := by
  have := insertAll_binv ws [] Trie.new binv_nil t h
  simpa using this

/-- Tries built by insertion satisfy all hypotheses of the compression proof. -/
theorem binv_origOk (ws : List (List Char)) (t : Trie) (hb : BInv ws t) :
    OrigOk t.nodes := by
  refine ⟨hb.gs.shape, hb.gs.ne, ?_, ?_, hb.gs.refs, hb.gs.refs0, ?_⟩
  · intro i nd hnd p hp
    obtain ⟨c, hc⟩ := hb.gs.keysChar i nd hnd p hp
    rw [hc]
    simp
  · intro i nd hnd
    have h1 : nd.children.map (fun p => p.1.head?) =
        (nd.children.map Prod.fst).map (fun k => k.head?) := by
      rw [List.map_map]
      rfl
    rw [h1]
    refine List.Nodup.map_on ?_ (hb.gs.keysNodup i nd hnd)
    intro x hx y hy hxy
    rcases List.mem_map.mp hx with ⟨p, hp, hpe⟩
    rcases List.mem_map.mp hy with ⟨q, hq, hqe⟩
    obtain ⟨c1, hc1⟩ := hb.gs.keysChar i nd hnd p hp
    obtain ⟨c2, hc2⟩ := hb.gs.keysChar i nd hnd q hq
    rw [← hpe, ← hqe] at hxy ⊢
    rw [hc1, hc2] at hxy ⊢
    rw [show c1 = c2 from by simpa using hxy]
  · intro i nd hnd
    have := hb.cons i nd hnd
    omega

end Toipe

namespace Toipe

/-- The compress work loop maintains the invariant until the stack empties. -/
theorem compressGo_inv (orig : List Node) (hO : OrigOk orig) :
    ∀ (fuel : Nat) (st : CState) (f spl : List Nat) (finalNodes : List Node),
      CInv orig st f spl → compressGo orig fuel st = some finalNodes →
      ∃ (st2 : CState) (f2 spl2 : List Nat),
        CInv orig st2 f2 spl2 ∧ st2.stack = [] ∧ st2.newNodes = finalNodes := by
  intro fuel
  induction fuel with
  | zero =>
    intro st f spl finalNodes hinv h
    simp only [compressGo] at h
    cases h
  | succ fuel ihf =>
    intro st f spl finalNodes hinv h
    cases hstk : st.stack with
    | nil =>
      simp only [compressGo, hstk] at h
      cases h
      exact ⟨st, f, spl, hinv, hstk, rfl⟩
    | cons index rest =>
      cases hnd : st.newNodes[index]? with
      | none =>
        simp only [compressGo, hstk, hnd] at h
        cases h
      | some nd =>
        simp only [compressGo, hstk, hnd] at h
        have hmem : index ∈ st.stack := by
          rw [hstk]
          exact List.mem_cons_self _ _
        have hpendO : orig[f.getD index 0]? = some nd := by
          rw [← hinv.pendContent index hmem]
          exact hnd
        by_cases hidx : index = 0
        · rw [if_pos hidx] at h
          cases hcp : copyChildren orig index nd.children
              ⟨st.newNodes, st.prefixes, st.parents, rest⟩ with
          | none =>
            rw [hcp] at h
            cases h
          | some st1 =>
            rw [hcp] at h
            have hnelig : ¬ eligible orig (f.getD index 0) := by
              intro he
              replace hidx := hidx.symm
              subst hidx
              rw [hinv.f0] at he
              exact he.1 rfl
            exact ihf st1 (f ++ nd.children.map Prod.snd) spl finalNodes
              (cinv_copy orig hO st f spl index rest nd st1 hinv hstk hnd hnelig hcp) h
        · rw [if_neg hidx] at h
          cases hch : nd.children with
          | nil =>
            simp only [hch] at h
            cases hcp : copyChildren orig index ([] : List (List Char × Nat))
                ⟨st.newNodes, st.prefixes, st.parents, rest⟩ with
            | none =>
              rw [hcp] at h
              cases h
            | some st1 =>
              rw [hcp] at h
              have hcp2 : copyChildren orig index nd.children
                  ⟨st.newNodes, st.prefixes, st.parents, rest⟩ = some st1 := by
                rw [hch]
                exact hcp
              have hnelig : ¬ eligible orig (f.getD index 0) := by
                intro he
                obtain ⟨hne0, nd2, k, c, hnd2, hch2, hcnt2⟩ := he
                rw [hpendO] at hnd2
                cases Option.some.inj hnd2
                rw [hch] at hch2
                cases hch2
              exact ihf st1 (f ++ nd.children.map Prod.snd) spl finalNodes
                (cinv_copy orig hO st f spl index rest nd st1 hinv hstk hnd hnelig hcp2) h
          | cons p tail =>
            obtain ⟨cpfx, cindex⟩ := p
            cases tail with
            | nil =>
              simp only [hch] at h
              cases hchild : orig[cindex]? with
              | none =>
                rw [hchild] at h
                cases h
              | some child =>
                simp only [hchild] at h
                by_cases hcnt : nd.count = child.count
                · rw [if_pos hcnt] at h
                  cases hpfx : st.prefixes[index]? with
                  | none =>
                    rw [hpfx] at h
                    cases h
                  | some pfx0 =>
                    cases hpar : st.parents[index]? with
                    | none =>
                      rw [hpfx, hpar] at h
                      cases h
                    | some par =>
                      simp only [hpfx, hpar] at h
                      cases hparNode : st.newNodes[par]? with
                      | none =>
                        rw [hparNode] at h
                        cases h
                      | some parentNode =>
                        rw [hparNode] at h
                        exact ihf _ (f.set index cindex) (f.getD index 0 :: spl) finalNodes
                          (cinv_splice orig hO st f spl index rest nd child parentNode
                            cpfx pfx0 cindex par hinv hstk hidx hnd hch hchild hcnt
                            hpfx hpar hparNode) h
                · rw [if_neg hcnt] at h
                  cases hcp : copyChildren orig index [(cpfx, cindex)]
                      ⟨st.newNodes, st.prefixes, st.parents, rest⟩ with
                  | none =>
                    rw [hcp] at h
                    cases h
                  | some st1 =>
                    rw [hcp] at h
                    have hcp2 : copyChildren orig index nd.children
                        ⟨st.newNodes, st.prefixes, st.parents, rest⟩ = some st1 := by
                      rw [hch]
                      exact hcp
                    have hnelig : ¬ eligible orig (f.getD index 0) := by
                      intro he
                      obtain ⟨hne0, nd2, k, c, hnd2, hch2, hcnt2⟩ := he
                      rw [hpendO] at hnd2
                      cases Option.some.inj hnd2
                      rw [hch] at hch2
                      cases hch2
                      refine hcnt ?_
                      unfold countAt at hcnt2
                      rw [hchild] at hcnt2
                      exact hcnt2
                    exact ihf st1 (f ++ nd.children.map Prod.snd) spl finalNodes
                      (cinv_copy orig hO st f spl index rest nd st1 hinv hstk hnd hnelig
                        hcp2) h
            | cons p2 tail2 =>
              simp only [hch] at h
              cases hcp : copyChildren orig index ((cpfx, cindex) :: p2 :: tail2)
                  ⟨st.newNodes, st.prefixes, st.parents, rest⟩ with
              | none =>
                rw [hcp] at h
                cases h
              | some st1 =>
                rw [hcp] at h
                have hcp2 : copyChildren orig index nd.children
                    ⟨st.newNodes, st.prefixes, st.parents, rest⟩ = some st1 := by
                  rw [hch]
                  exact hcp
                have hnelig : ¬ eligible orig (f.getD index 0) := by
                  intro he
                  obtain ⟨hne0, nd2, k, c, hnd2, hch2, hcnt2⟩ := he
                  rw [hpendO] at hnd2
                  cases Option.some.inj hnd2
                  rw [hch] at hch2
                  simp at hch2
                exact ihf st1 (f ++ nd.children.map Prod.snd) spl finalNodes
                  (cinv_copy orig hO st f spl index rest nd st1 hinv hstk hnd hnelig
                    hcp2) h

/-- Trie::compress on an invariant-satisfying trie: the result is the final
arena of an empty-stack invariant state. -/
theorem compress_ok (t : Trie) (hO : OrigOk t.nodes) (fuel : Nat) (t' : Trie)
    (h : t.compress fuel = some t') :
    ∃ (st2 : CState) (f2 spl2 : List Nat), CInv t.nodes st2 f2 spl2 ∧ st2.stack = [] ∧
      st2.newNodes = t'.nodes := by
  unfold Trie.compress at h
  cases h0 : t.nodes[0]? with
  | none =>
    rw [h0] at h
    cases h
  | some root =>
    simp only [h0] at h
    cases hgo : compressGo t.nodes fuel ⟨[root], t.getNodeInfo.1, t.getNodeInfo.2, [0]⟩ with
    | none =>
      rw [hgo] at h
      cases h
    | some finalNodes =>
      rw [hgo] at h
      cases h
      obtain ⟨st2, f2, spl2, hinv, hempty, heq⟩ :=
        compressGo_inv t.nodes hO fuel ⟨[root], t.getNodeInfo.1, t.getNodeInfo.2, [0]⟩
          [0] [] finalNodes (cinv_init t.nodes root h0 _ _) hgo
      exact ⟨st2, f2, spl2, hinv, hempty, heq⟩

end Toipe

namespace Toipe

/-- All consequences of the compress loop invariant at the final (empty-stack)
state, transported to the output trie: structure, key discipline, reference
uniqueness, denotation preservation, per-node count preservation along the
slot-to-original map f, the splice characterization, and coverage. -/
theorem compress_facts (t : Trie) (hO : OrigOk t.nodes) (fuel : Nat)
    (t' : Trie) (h : t.compress fuel = some t') :
    ∃ (f spl : List Nat),
      ShapeValid t'.nodes ∧ ResidualOk t'.nodes ∧
      den t'.nodes 0 = den t.nodes 0 ∧
      0 < t'.nodes.length ∧ f.getD 0 0 = 0 ∧
      (∀ j, j < t'.nodes.length → f.getD j 0 < t.nodes.length) ∧
      (∀ j, j < t'.nodes.length → j ≠ 0 → f.getD j 0 ≠ 0) ∧
      (∀ (j : Nat) (nd' : Node), t'.nodes[j]? = some nd' →
        ∃ ond : Node, t.nodes[f.getD j 0]? = some ond ∧ nd'.count = ond.count ∧
          sumCounts t'.nodes nd'.children = sumCounts t.nodes ond.children) ∧
      (∀ j, j < t'.nodes.length → ¬ eligible t.nodes (f.getD j 0)) ∧
      (∀ x ∈ spl, eligible t.nodes x) ∧
      (∀ x, Reach t.nodes 0 x ↔
        ((∃ j, j < t'.nodes.length ∧ f.getD j 0 = x) ∨ x ∈ spl)) ∧
      (∀ (j : Nat) (nd' : Node), t'.nodes[j]? = some nd' →
        ∀ p ∈ nd'.children, p.1 ≠ []) ∧
      (∀ (j : Nat) (nd' : Node), t'.nodes[j]? = some nd' →
        (nd'.children.map (fun p => p.1.head?)).Nodup) ∧
      (∀ c, 0 < c → c < t'.nodes.length → refCount t'.nodes c = 1) ∧
      refCount t'.nodes 0 = 0 := by
  obtain ⟨st2, f, spl, hinv, hempty, heq⟩ := compress_ok t hO fuel t' h
  have hnotin : ∀ j : Nat, j ∉ st2.stack := by
    intro j
    rw [hempty]
    exact List.not_mem_nil j
  have hlen : st2.newNodes.length = t'.nodes.length := by rw [heq]
  have hget : ∀ (j : Nat), st2.newNodes[j]? = t'.nodes[j]? := by
    intro j
    rw [heq]
  refine ⟨f, spl, ?_, ?_, ?_, ?_, hinv.f0, ?_, ?_, ?_, ?_, hinv.splElig, ?_, ?_, ?_, ?_, ?_⟩
  · have := cinv_final_shape t.nodes st2 f spl hinv hempty
    intro j nd hj p hp
    rw [← hlen]
    exact this j nd (by rw [hget]; exact hj) p hp
  · have := cinv_final_residual t.nodes hO st2 f spl hinv hempty
    intro j nd hj
    have h2 := this j nd (by rw [hget]; exact hj)
    rw [show sumCounts st2.newNodes nd.children = sumCounts t'.nodes nd.children from by
      rw [heq]] at h2
    exact h2
  · have := cinv_final_den t.nodes st2 f spl hinv hempty
    rw [heq] at this
    exact this
  · have hr := (hinv.cover 0).mp (Reach.refl 0)
    rcases hr with ⟨j, hj1, _, hj3⟩ | ⟨j, hj, _⟩ | hx
    · omega
    · rw [hempty] at hj
      simp at hj
    · have := hinv.splElig 0 hx
      exact absurd rfl this.1
  · intro j hj
    rw [← hlen] at hj
    exact hinv.fLt j hj
  · intro j hj hj0
    rw [← hlen] at hj
    exact hinv.fPos j hj hj0
  · intro j nd' hj
    obtain ⟨ond, h1, h2, h3⟩ := hinv.doneCount j nd' (hnotin j) (by rw [hget]; exact hj)
    refine ⟨ond, h1, h2, ?_⟩
    rw [← h3, heq]
  · intro j hj
    rw [← hlen] at hj
    exact hinv.notElig j hj (hnotin j)
  · intro x
    rw [hinv.cover x]
    constructor
    · intro h2
      rcases h2 with ⟨j, hj1, _, hj3⟩ | ⟨j, hj, _⟩ | hx
      · exact Or.inl ⟨j, by omega, hj3⟩
      · rw [hempty] at hj
        simp at hj
      · exact Or.inr hx
    · intro h2
      rcases h2 with ⟨j, hj1, hj3⟩ | hx
      · exact Or.inl ⟨j, by omega, hnotin j, hj3⟩
      · exact Or.inr (Or.inr hx)
  · intro j nd' hj
    exact hinv.doneKeysNe j nd' (hnotin j) (by rw [hget]; exact hj)
  · intro j nd' hj
    exact hinv.doneKeysFC j nd' (hnotin j) (by rw [hget]; exact hj)
  · intro c hc1 hc2
    have := hinv.refsOnce c hc1 (by omega)
    rw [doneRefCount_stack_empty st2 hempty c, heq] at this
    exact this
  · have := hinv.refsZero
    rw [doneRefCount_stack_empty st2 hempty 0, heq] at this
    exact this

end Toipe

namespace Toipe

theorem reachable_shape (t : Trie) (h : ReachableTrie t) :
    ShapeValid t.nodes ∧ 0 < t.nodes.length := by
  rcases h with ⟨ws, hb⟩ | ⟨ws, t0, fuel, hb, hc⟩
  · exact built_shape hb
  · have hO := binv_origOk ws t0 (built_binv ws t0 hb)
    obtain ⟨f, spl, hsh, hres, hden, hlen, hrest⟩ := compress_facts t0 hO fuel t hc
    exact ⟨hsh, hlen⟩

/-- C9: on every trie reachable from Trie::new by insertions and at most one
compression, all child indices point above their parent into the arena
(ShapeValid); consequently insert always succeeds, and sample always terminates
with a result that is never the structural missing-node failure. -/
theorem toipe_structural_failure_unreachable (t : Trie) (h : ReachableTrie t) :
    ShapeValid t.nodes ∧
    (∀ w : List Char, ∃ t2 : Trie, t.insert w = Except.ok t2) ∧
    (∀ id : Nat, ∃ r : Except TrieErr (List Char), t.sample id = some r ∧
      ∀ c : Nat, r ≠ Except.error (TrieErr.missingNode c)) := by
  obtain ⟨hsh, hlen⟩ := reachable_shape t h
  refine ⟨hsh, ?_, ?_⟩
  · intro w
    obtain ⟨t2, hok, _, _⟩ := insertGo_ok_shape w t 0 hsh hlen
    exact ⟨t2, hok⟩
  · intro id
    obtain ⟨root, hroot⟩ := exists_getElem?_of_lt t.nodes hlen
    by_cases hc : root.count = 0
    · refine ⟨Except.error TrieErr.emptyTrie, ?_, ?_⟩
      · simp [Trie.sample, hroot, hc]
      · intro c hcon
        simp at hcon
    · obtain ⟨w, hw⟩ := sample_ok t hsh root hroot hc id
      refine ⟨Except.ok w, hw, ?_⟩
      intro c hcon
      cases hcon

theorem toipe_structural_failure_unreachable_witness :
    ReachableTrie trieW ∧
    (ShapeValid trieW.nodes ∧
    (∀ w : List Char, ∃ t2 : Trie, trieW.insert w = Except.ok t2) ∧
    (∀ id : Nat, ∃ r : Except TrieErr (List Char), trieW.sample id = some r ∧
      ∀ c : Nat, r ≠ Except.error (TrieErr.missingNode c))) :=
  have hre : ReachableTrie trieW := Or.inl ⟨[['a', 'b']], by unfold Built; decide⟩
  ⟨hre, toipe_structural_failure_unreachable trieW hre⟩

/-- C6: sampling reduces the id modulo the number of words, so ranks wrap
around; on reachable tries with a nonempty corpus every sample succeeds. -/
theorem toipe_sample_modulo_wraparound (t : Trie) (n : Nat) (hn : t.numWords = n)
    (hpos : 0 < n) (id : Nat) :
    t.sample (id + n) = t.sample id ∧
    (ReachableTrie t → ∃ w, t.sample id = some (Except.ok w)) := by
  unfold Trie.numWords at hn
  cases hroot : t.nodes[0]? with
  | none =>
    rw [hroot] at hn
    simp at hn
    omega
  | some root =>
    rw [hroot] at hn
    have hcnt : root.count = n := hn
    have hcne : root.count ≠ 0 := by omega
    constructor
    · rw [← hcnt]
      exact sample_mod t root hroot hcne id
    · intro hre
      obtain ⟨hsh, _⟩ := reachable_shape t hre
      exact sample_ok t hsh root hroot hcne id

theorem toipe_sample_modulo_wraparound_witness :
    trieW.numWords = 1 ∧ 0 < 1 ∧
    (trieW.sample (5 + 1) = trieW.sample 5 ∧
     (ReachableTrie trieW → ∃ w, trieW.sample 5 = some (Except.ok w))) :=
  ⟨by decide, by decide, toipe_sample_modulo_wraparound trieW 1 (by decide) (by decide) 5⟩

/-- C5: compression splices out exactly the non-root single-child nodes whose
count equals the child's (the eligible ones): every spliced node is eligible,
no surviving slot maps to an eligible original node, every reachable
non-eligible node survives, surviving nodes keep their counts, and the
weighted-path denotation (edge keys concatenated along splices) is preserved. -/
theorem toipe_compress_splice_rule (ws : List (List Char)) (t t' : Trie) (fuel : Nat)
    (hb : Built ws t) (h : t.compress fuel = some t') :
    ∃ f spl : List Nat,
      (∀ x ∈ spl, eligible t.nodes x) ∧
      (∀ j, j < t'.nodes.length → ¬ eligible t.nodes (f.getD j 0)) ∧
      (∀ x, Reach t.nodes 0 x → ¬ eligible t.nodes x →
        ∃ j, j < t'.nodes.length ∧ f.getD j 0 = x) ∧
      (∀ (j : Nat) (nd' : Node), t'.nodes[j]? = some nd' →
        ∃ ond : Node, t.nodes[f.getD j 0]? = some ond ∧ nd'.count = ond.count) ∧
      den t'.nodes 0 = den t.nodes 0 := by
  have hO := binv_origOk ws t (built_binv ws t hb)
  obtain ⟨f, spl, hsh, hres, hden, hlen, hf0, hflt, hfpos, hcnt, hnelig, hsplE, hcov,
    hkne, hkfc, hrefs, hrefs0⟩ := compress_facts t hO fuel t' h
  refine ⟨f, spl, hsplE, hnelig, ?_, ?_, hden⟩
  · intro x hr hne
    rcases (hcov x).mp hr with ⟨j, hj1, hj2⟩ | hx
    · exact ⟨j, hj1, hj2⟩
    · exact absurd (hsplE x hx) hne
  · intro j nd' hj
    obtain ⟨ond, h1, h2, _⟩ := hcnt j nd' hj
    exact ⟨ond, h1, h2⟩

theorem toipe_compress_splice_rule_witness :
    Built [['a', 'b']] trieW ∧ trieW.compress 20 = some trieW2 ∧
    (∃ f spl : List Nat,
      (∀ x ∈ spl, eligible trieW.nodes x) ∧
      (∀ j, j < trieW2.nodes.length → ¬ eligible trieW.nodes (f.getD j 0)) ∧
      (∀ x, Reach trieW.nodes 0 x → ¬ eligible trieW.nodes x →
        ∃ j, j < trieW2.nodes.length ∧ f.getD j 0 = x) ∧
      (∀ (j : Nat) (nd' : Node), trieW2.nodes[j]? = some nd' →
        ∃ ond : Node, trieW.nodes[f.getD j 0]? = some ond ∧ nd'.count = ond.count) ∧
      den trieW2.nodes 0 = den trieW.nodes 0) :=
  ⟨by unfold Built; decide, by decide,
    toipe_compress_splice_rule [['a', 'b']] trieW trieW2 20 (by unfold Built; decide)
      (by decide)⟩

end Toipe

namespace Toipe

/-! Root-path machinery: every arena slot of a trie with unique references has
exactly one access path from the root, and findFrom resolves exactly the word
spelled along that path. -/

theorem refCount_pos_exists (nodes : List Node) (c : Nat) (h : 0 < refCount nodes c) :
    ∃ (j : Nat) (nd : Node) (k : List Char), nodes[j]? = some nd ∧ (k, c) ∈ nd.children := by
  by_contra hcon
  push_neg at hcon
  have hz : refCount nodes c = 0 := by
    unfold refCount
    refine List.sum_eq_zero ?_
    intro x hx
    obtain ⟨nd, hnd, hxe⟩ := List.mem_map.mp hx
    obtain ⟨j, hj⟩ := List.getElem?_of_mem hnd
    by_contra hxne
    have hfil : nd.children.filter (fun p => p.2 = c) ≠ [] := by
      intro he
      rw [← hxe, he] at hxne
      exact hxne rfl
    obtain ⟨p, hp⟩ := List.exists_mem_of_ne_nil _ hfil
    have hp2 := List.mem_filter.mp hp
    have hpc : p.2 = c := by simpa using hp2.2
    refine hcon j nd p.1 hj ?_
    have hpm : (p.1, p.2) ∈ nd.children := by
      rw [Prod.mk.eta]
      exact hp2.1
    rw [hpc] at hpm
    exact hpm
  omega

theorem pathw_exists (nodes : List Node) (hsh : ShapeValid nodes)
    (hrefs : ∀ c, 0 < c → c < nodes.length → refCount nodes c = 1) :
    ∀ j, j < nodes.length → ∃ u, PathW nodes j u := by
  intro j
  induction j using Nat.strong_induction_on with
  | _ j ih =>
    intro hj
    cases Nat.eq_zero_or_pos j with
    | inl h0 =>
      subst h0
      exact ⟨[], PathW.root⟩
    | inr hpos =>
      have h1 : refCount nodes j = 1 := hrefs j hpos hj
      obtain ⟨p, nd, k, hnd, hmem⟩ := refCount_pos_exists nodes j (by omega)
      have hlt : p < j := (hsh p nd hnd (k, j) hmem).1
      obtain ⟨u, hu⟩ := ih p hlt (by omega)
      exact ⟨u ++ k, PathW.child p u nd k j hu hnd hmem⟩

theorem pathw_inv (nodes : List Node) (j : Nat) (v : List Char) (h : PathW nodes j v) :
    (j = 0 ∧ v = []) ∨
    ∃ (p : Nat) (w : List Char) (nd : Node) (k : List Char),
      PathW nodes p w ∧ nodes[p]? = some nd ∧ (k, j) ∈ nd.children ∧ v = w ++ k := by
  induction h with
  | root => exact Or.inl ⟨rfl, rfl⟩
  | child p w nd k c hp hnd hmem ih => exact Or.inr ⟨p, w, nd, k, hp, hnd, hmem, rfl⟩

theorem pathw_lt (nodes : List Node) (hsh : ShapeValid nodes) (hne : 0 < nodes.length) :
    ∀ (j : Nat) (u : List Char), PathW nodes j u → j < nodes.length := by
  intro j u h
  rcases pathw_inv nodes j u h with ⟨h0, _⟩ | ⟨p, w, nd, k, hp, hnd, hmem, _⟩
  · omega
  · exact (hsh p nd hnd (k, j) hmem).2

theorem pathw_unique (nodes : List Node) (hsh : ShapeValid nodes)
    (hrefs : ∀ c, 0 < c → c < nodes.length → refCount nodes c = 1)
    (hrefs0 : refCount nodes 0 = 0) :
    ∀ (j : Nat) (u : List Char), PathW nodes j u → ∀ v, PathW nodes j v → u = v := by
  intro j u h
  induction h with
  | root =>
    intro v hv
    rcases pathw_inv nodes 0 v hv with ⟨_, hv0⟩ | ⟨p2, w2, nd2, k2, hp2, hnd2, hmem2, hveq⟩
    · rw [hv0]
    · have := refCount_pos nodes p2 nd2 (k2, 0) 0 hnd2 hmem2 rfl
      omega
  | child p w nd k c hp hnd hmem ih =>
    intro v hv
    have hc0 : c ≠ 0 := by
      intro he
      subst he
      have := refCount_pos nodes p nd (k, 0) 0 hnd hmem rfl
      omega
    have hclen : c < nodes.length := (hsh p nd hnd (k, c) hmem).2
    have h1 : refCount nodes c = 1 := hrefs c (Nat.pos_of_ne_zero hc0) hclen
    rcases pathw_inv nodes c v hv with ⟨hcz, _⟩ | ⟨p2, w2, nd2, k2, hp2, hnd2, hmem2, hveq⟩
    · exact absurd hcz hc0
    · have hpp : p = p2 := by
        by_contra hne
        have := refCount_two nodes p p2 nd nd2 (k, c) (k2, c) c hne hnd hnd2 hmem hmem2 rfl rfl
        omega
      subst hpp
      rw [hnd] at hnd2
      cases hnd2
      have hkk : k = k2 := by
        by_contra hne
        have hpne : ((k, c) : List Char × Nat) ≠ (k2, c) := by
          intro he
          cases he
          exact hne rfl
        have := refCount_two_same nodes p nd (k, c) (k2, c) c hnd hmem hmem2 hpne rfl rfl
        omega
      subst hkk
      rw [hveq, ih w2 hp2]

theorem head?_of_prefix {α : Type} (l v : List α) (h : l <+: v) (hne : l ≠ []) :
    v.head? = l.head? := by
  obtain ⟨s, hs⟩ := h
  rw [← hs]
  exact head?_append_left l s hne

theorem find?_prefix_unique (m : List (List Char × Nat))
    (hne : ∀ p ∈ m, p.1 ≠ []) (hfc : (m.map (fun p => p.1.head?)).Nodup)
    (k : List Char) (c : Nat) (v : List Char) (hmem : (k, c) ∈ m)
    (hpre : k <+: v) :
    m.find? (fun p => decide (p.1 ≠ []) && p.1.isPrefixOf v) = some (k, c) := by
  have hkne : k ≠ [] := hne (k, c) hmem
  refine find?_eq_some_of_unique m _ (k, c) hmem ?_ ?_
  · simp only [Bool.and_eq_true, decide_eq_true_eq]
    exact ⟨hkne, List.isPrefixOf_iff_prefix.mpr hpre⟩
  · intro b hb hpb
    simp only [Bool.and_eq_true, decide_eq_true_eq] at hpb
    have hbpre : b.1 <+: v := List.isPrefixOf_iff_prefix.mp hpb.2
    have hh : b.1.head? = k.head? := by
      rw [← head?_of_prefix b.1 v hbpre hpb.1, ← head?_of_prefix k v hpre hkne]
    exact List.inj_on_of_nodup_map hfc hb hmem hh

theorem findFrom_edge (t : Trie) (j : Nat) (nd : Node) (k : List Char) (c : Nat)
    (hnd : t.nodes[j]? = some nd) (hmem : (k, c) ∈ nd.children)
    (hne : ∀ p ∈ nd.children, p.1 ≠ [])
    (hfc : (nd.children.map (fun p => p.1.head?)).Nodup) :
    findFrom t j k = some c := by
  have hkne : k ≠ [] := hne (k, c) hmem
  cases hk : k with
  | nil => exact absurd hk hkne
  | cons ch rest =>
    subst hk
    rw [findFrom_cons_find t j ch rest nd (ch :: rest) c hnd
      (find?_prefix_unique nd.children hne hfc (ch :: rest) c (ch :: rest) hmem
        (List.prefix_refl _)), List.drop_length, findFrom_nil]

theorem findFrom_append (t : Trie)
    (hne : ∀ (a : Nat) (nd : Node), t.nodes[a]? = some nd → ∀ p ∈ nd.children, p.1 ≠ [])
    (hfc : ∀ (a : Nat) (nd : Node), t.nodes[a]? = some nd →
      (nd.children.map (fun p => p.1.head?)).Nodup) :
    ∀ (n : Nat) (w : List Char), w.length ≤ n → ∀ (i j : Nat) (v : List Char),
      findFrom t i w = some j → findFrom t i (w ++ v) = findFrom t j v := by
  intro n
  induction n with
  | zero =>
    intro w hw i j v h
    have hwnil : w = [] := List.length_eq_zero.mp (by omega)
    subst hwnil
    rw [findFrom_nil] at h
    cases h
    rfl
  | succ n ih =>
    intro w hw i j v h
    cases w with
    | nil =>
      rw [findFrom_nil] at h
      cases h
      rfl
    | cons ch rest =>
      cases hnd : t.nodes[i]? with
      | none =>
        rw [findFrom_cons_none t i ch rest hnd] at h
        cases h
      | some nd =>
        cases hf : nd.children.find?
            (fun p => decide (p.1 ≠ []) && p.1.isPrefixOf (ch :: rest)) with
        | none =>
          rw [findFrom_cons_nofind t i ch rest nd hnd hf] at h
          cases h
        | some pr =>
          obtain ⟨k, c⟩ := pr
          rw [findFrom_cons_find t i ch rest nd k c hnd hf] at h
          have hfp := List.find?_some hf
          simp only [Bool.and_eq_true, decide_eq_true_eq] at hfp
          have hkne : k ≠ [] := hfp.1
          have hkpre : k <+: (ch :: rest) := List.isPrefixOf_iff_prefix.mp hfp.2
          have hkmem : (k, c) ∈ nd.children := List.mem_of_find?_eq_some hf
          have hklen : k.length ≤ (ch :: rest).length := hkpre.length_le
          have hkpos : 0 < k.length := List.length_pos.mpr hkne
          have hkpre2 : k <+: (ch :: rest) ++ v := hkpre.trans (List.prefix_append _ _)
          rw [List.cons_append] at hkpre2
          rw [List.cons_append]
          rw [findFrom_cons_find t i ch (rest ++ v) nd k c hnd
            (find?_prefix_unique nd.children (hne i nd hnd) (hfc i nd hnd) k c
              (ch :: (rest ++ v)) hkmem hkpre2)]
          have hdrop : (ch :: (rest ++ v)).drop k.length =
              ((ch :: rest).drop k.length) ++ v := by
            rw [← List.cons_append]
            exact List.drop_append_of_le_length hklen
          rw [hdrop]
          refine ih ((ch :: rest).drop k.length) ?_ c j v h
          simp only [List.length_drop, List.length_cons]
          simp only [List.length_cons] at hw
          omega

theorem pathw_findFrom (t : Trie)
    (hne : ∀ (a : Nat) (nd : Node), t.nodes[a]? = some nd → ∀ p ∈ nd.children, p.1 ≠ [])
    (hfc : ∀ (a : Nat) (nd : Node), t.nodes[a]? = some nd →
      (nd.children.map (fun p => p.1.head?)).Nodup) :
    ∀ (j : Nat) (u : List Char), PathW t.nodes j u → findFrom t 0 u = some j := by
  intro j u h
  induction h with
  | root => exact findFrom_nil t 0
  | child p w nd k c hp hnd hmem ih =>
    rw [findFrom_append t hne hfc w.length w (le_refl _) 0 p k ih]
    exact findFrom_edge t p nd k c hnd hmem (hne p nd hnd) (hfc p nd hnd)

theorem findFrom_pathw (t : Trie) :
    ∀ (n : Nat) (w : List Char), w.length ≤ n → ∀ (i m : Nat) (u : List Char),
      PathW t.nodes i u → findFrom t i w = some m → PathW t.nodes m (u ++ w) := by
  intro n
  induction n with
  | zero =>
    intro w hw i m u hu h
    have hwnil : w = [] := List.length_eq_zero.mp (by omega)
    subst hwnil
    rw [findFrom_nil] at h
    cases h
    simpa using hu
  | succ n ih =>
    intro w hw i m u hu h
    cases w with
    | nil =>
      rw [findFrom_nil] at h
      cases h
      simpa using hu
    | cons ch rest =>
      cases hnd : t.nodes[i]? with
      | none =>
        rw [findFrom_cons_none t i ch rest hnd] at h
        cases h
      | some nd =>
        cases hf : nd.children.find?
            (fun p => decide (p.1 ≠ []) && p.1.isPrefixOf (ch :: rest)) with
        | none =>
          rw [findFrom_cons_nofind t i ch rest nd hnd hf] at h
          cases h
        | some pr =>
          obtain ⟨k, c⟩ := pr
          rw [findFrom_cons_find t i ch rest nd k c hnd hf] at h
          have hfp := List.find?_some hf
          simp only [Bool.and_eq_true, decide_eq_true_eq] at hfp
          have hkne : k ≠ [] := hfp.1
          have hkpre : k <+: (ch :: rest) := List.isPrefixOf_iff_prefix.mp hfp.2
          have hkmem : (k, c) ∈ nd.children := List.mem_of_find?_eq_some hf
          have hkpos : 0 < k.length := List.length_pos.mpr hkne
          have hstep : PathW t.nodes c (u ++ k) := PathW.child i u nd k c hu hnd hkmem
          have hlen2 : ((ch :: rest).drop k.length).length ≤ n := by
            simp only [List.length_drop, List.length_cons]
            simp only [List.length_cons] at hw
            omega
          have hrec := ih ((ch :: rest).drop k.length) hlen2 c m (u ++ k) hstep h
          have hks : k ++ (ch :: rest).drop k.length = ch :: rest := by
            obtain ⟨s, hs⟩ := hkpre
            rw [← hs, List.drop_left]
          rw [List.append_assoc, hks] at hrec
          exact hrec

theorem pathw_char (t : Trie) (hsh : ShapeValid t.nodes)
    (hrefs : ∀ c, 0 < c → c < t.nodes.length → refCount t.nodes c = 1)
    (hrefs0 : refCount t.nodes 0 = 0)
    (hne : ∀ (a : Nat) (nd : Node), t.nodes[a]? = some nd → ∀ p ∈ nd.children, p.1 ≠ [])
    (hfc : ∀ (a : Nat) (nd : Node), t.nodes[a]? = some nd →
      (nd.children.map (fun p => p.1.head?)).Nodup)
    (j : Nat) (u : List Char) (hu : PathW t.nodes j u) (v : List Char) :
    findFrom t 0 v = some j ↔ v = u := by
  constructor
  · intro h
    have hv : PathW t.nodes j v := by
      have := findFrom_pathw t v.length v (le_refl _) 0 j [] PathW.root h
      simpa using this
    exact pathw_unique t.nodes hsh hrefs hrefs0 j v hv u hu
  · intro h
    rw [h]
    exact pathw_findFrom t hne hfc j u hu

end Toipe

namespace Toipe

/-! Counting a fixed word in the weighted-path denotation: the multiplicity of a
word equals the residual weight of the node findFrom resolves it to. -/

theorem count_map_append_in (k v : List Char) (M : Multiset (List Char))
    (h : k <+: v) :
    Multiset.count v (Multiset.map (fun w => k ++ w) M) =
      Multiset.count (v.drop k.length) M := by
  have hinj : Function.Injective (fun w : List Char => k ++ w) := by
    intro a b hab
    exact List.append_cancel_left hab
  obtain ⟨s, hs⟩ := h
  rw [← hs, List.drop_left]
  exact Multiset.count_map_eq_count' _ M hinj s

theorem count_map_append_out (k v : List Char) (M : Multiset (List Char))
    (h : ¬ (k <+: v)) :
    Multiset.count v (Multiset.map (fun w => k ++ w) M) = 0 := by
  rw [Multiset.count_eq_zero]
  intro hmem
  obtain ⟨w, _, hw⟩ := Multiset.mem_map.mp hmem
  exact h (hw ▸ List.prefix_append k w)

theorem count_children_sum_zero (nodes : List Node) (b : Nat) (v : List Char) (i : Nat) :
    ∀ (m : List (List Char × Nat)), (∀ p ∈ m, ¬ (p.1 <+: v)) →
      Multiset.count v ((m.map (fun p =>
        if i < p.2 then Multiset.map (fun w => p.1 ++ w) (denB nodes b p.2) else 0)).sum) =
        0 := by
  intro m
  induction m with
  | nil =>
    intro _
    simp
  | cons p rest ih =>
    intro h
    rw [List.map_cons, List.sum_cons, Multiset.count_add]
    have h1 : Multiset.count v (if i < p.2 then
        Multiset.map (fun w => p.1 ++ w) (denB nodes b p.2) else 0) = 0 := by
      split
      · exact count_map_append_out p.1 v _ (h p (List.mem_cons_self _ _))
      · simp
    rw [h1, ih (fun q hq => h q (List.mem_cons_of_mem _ hq))]

theorem count_den_children (nodes : List Node) (b : Nat) (v : List Char) (i : Nat) :
    ∀ (m : List (List Char × Nat)), (∀ p ∈ m, p.1 ≠ []) →
      (m.map (fun p => p.1.head?)).Nodup → (∀ p ∈ m, i < p.2) →
      Multiset.count v ((m.map (fun p =>
        if i < p.2 then Multiset.map (fun w => p.1 ++ w) (denB nodes b p.2) else 0)).sum) =
      match m.find? (fun p => decide (p.1 ≠ []) && p.1.isPrefixOf v) with
      | some pr => Multiset.count (v.drop pr.1.length) (denB nodes b pr.2)
      | none => 0 := by
  intro m
  induction m with
  | nil =>
    intro _ _ _
    simp [List.find?]
  | cons p rest ih =>
    intro hne hfc hlt
    obtain ⟨k, c⟩ := p
    have hkne : k ≠ [] := hne (k, c) (List.mem_cons_self _ _)
    rw [List.map_cons, List.sum_cons, Multiset.count_add,
      if_pos (hlt (k, c) (List.mem_cons_self _ _))]
    simp only [List.map_cons, List.nodup_cons] at hfc
    by_cases hpre : k <+: v
    · rw [List.find?_cons_of_pos _ (by
        simp only [Bool.and_eq_true, decide_eq_true_eq]
        exact ⟨hkne, List.isPrefixOf_iff_prefix.mpr hpre⟩)]
      rw [count_map_append_in k v _ hpre]
      have hrest : Multiset.count v ((rest.map (fun p =>
          if i < p.2 then Multiset.map (fun w => p.1 ++ w) (denB nodes b p.2)
          else 0)).sum) = 0 := by
        refine count_children_sum_zero nodes b v i rest ?_
        intro q hq hqpre
        have hqne : q.1 ≠ [] := hne q (List.mem_cons_of_mem _ hq)
        have h1 : v.head? = q.1.head? := head?_of_prefix q.1 v hqpre hqne
        have h2 : v.head? = k.head? := head?_of_prefix k v hpre hkne
        have h3 : q.1.head? = k.head? := h1.symm.trans h2
        refine hfc.1 ?_
        have hmm : q.1.head? ∈ rest.map (fun p => p.1.head?) := List.mem_map_of_mem _ hq
        rw [h3] at hmm
        exact hmm
      rw [hrest, Nat.add_zero]
    · rw [List.find?_cons_of_neg _ (by
        simp only [Bool.and_eq_true, decide_eq_true_eq, List.isPrefixOf_iff_prefix]
        exact fun hcon => hpre hcon.2)]
      rw [count_map_append_out k v _ hpre, Nat.zero_add]
      exact ih (fun q hq => hne q (List.mem_cons_of_mem _ hq)) hfc.2
        (fun q hq => hlt q (List.mem_cons_of_mem _ hq))

theorem count_denB_findFrom (t : Trie)
    (hne : ∀ (a : Nat) (nd : Node), t.nodes[a]? = some nd → ∀ p ∈ nd.children, p.1 ≠ [])
    (hfc : ∀ (a : Nat) (nd : Node), t.nodes[a]? = some nd →
      (nd.children.map (fun p => p.1.head?)).Nodup)
    (hsh : ShapeValid t.nodes) :
    ∀ (b i : Nat) (v : List Char), t.nodes.length - i ≤ b →
      Multiset.count v (denB t.nodes b i) =
        match findFrom t i v with
        | some m => resid t.nodes m
        | none => 0 := by
  intro b
  induction b with
  | zero =>
    intro i v hb
    have hnone : t.nodes[i]? = none := List.getElem?_eq_none_iff.mpr (by omega)
    rw [denB_zero]
    cases v with
    | nil =>
      rw [findFrom_nil]
      simp [resid, hnone]
    | cons ch rest =>
      rw [findFrom_cons_none t i ch rest hnone]
      simp
  | succ b ih =>
    intro i v hb
    cases hnd : t.nodes[i]? with
    | none =>
      rw [denB_none _ _ _ hnd]
      cases v with
      | nil =>
        rw [findFrom_nil]
        simp [resid, hnd]
      | cons ch rest =>
        rw [findFrom_cons_none t i ch rest hnd]
        simp
    | some nd =>
      rw [denB_some _ _ _ _ hnd, Multiset.count_add]
      cases v with
      | nil =>
        rw [findFrom_nil]
        have hch0 : Multiset.count ([] : List Char) ((nd.children.map (fun p =>
            if i < p.2 then Multiset.map (fun w => p.1 ++ w) (denB t.nodes b p.2)
            else 0)).sum) = 0 := by
          refine count_children_sum_zero t.nodes b [] i nd.children ?_
          intro p hp hpre
          exact hne i nd hnd p hp (List.prefix_nil.mp hpre)
        rw [hch0, Nat.add_zero, Multiset.count_nsmul, Multiset.count_singleton,
          if_pos rfl, Nat.mul_one]
        simp [resid, hnd]
      | cons ch rest =>
        have hresid0 : Multiset.count (ch :: rest)
            ((nd.count - sumCounts t.nodes nd.children) • ({[]} : Multiset (List Char))) =
            0 := by
          rw [Multiset.count_nsmul, Multiset.count_singleton, if_neg (by simp), Nat.mul_zero]
        rw [hresid0, Nat.zero_add]
        rw [count_den_children t.nodes b (ch :: rest) i nd.children (hne i nd hnd)
          (hfc i nd hnd) (fun p hp => (hsh i nd hnd p hp).1)]
        cases hf : nd.children.find?
            (fun p => decide (p.1 ≠ []) && p.1.isPrefixOf (ch :: rest)) with
        | none =>
          rw [findFrom_cons_nofind t i ch rest nd hnd hf]
        | some pr =>
          obtain ⟨k, c⟩ := pr
          rw [findFrom_cons_find t i ch rest nd k c hnd hf]
          simp only [hf]
          have hkmem : (k, c) ∈ nd.children := List.mem_of_find?_eq_some hf
          have hic : i < c := (hsh i nd hnd (k, c) hkmem).1
          exact ih c ((ch :: rest).drop k.length) (by omega)

end Toipe

namespace Toipe

theorem char_keys_fc (m : List (List Char × Nat))
    (hchar : ∀ p ∈ m, ∃ c, p.1 = [c]) (hnd : (m.map Prod.fst).Nodup) :
    (m.map (fun p => p.1.head?)).Nodup := by
  have heq : m.map (fun p => p.1.head?) = (m.map Prod.fst).map (fun k => k.head?) := by
    rw [List.map_map]
    rfl
  rw [heq]
  refine List.Nodup.map_on ?_ hnd
  intro x hx y hy hxy
  obtain ⟨px, hpx, hpx2⟩ := List.mem_map.mp hx
  obtain ⟨py, hpy, hpy2⟩ := List.mem_map.mp hy
  obtain ⟨cx, hcx⟩ := hchar px hpx
  obtain ⟨cy, hcy⟩ := hchar py hpy
  rw [← hpx2, ← hpy2, hcx, hcy] at hxy ⊢
  cases hxy
  rfl

/-- C1: weight conservation. In a trie built from Trie::new by inserting the
corpus ws, and again in the trie obtained from it by one compress(), every
node's count equals the sum of its children's counts plus the number of corpus
words whose lookup terminates exactly at that node. -/
theorem toipe_weight_conservation (ws : List (List Char)) (t : Trie) (hb : Built ws t) :
    (∀ (i : Nat) (nd : Node), t.nodes[i]? = some nd →
      nd.count = sumCounts t.nodes nd.children + termCount t ws i) ∧
    ∀ (fuel : Nat) (t2 : Trie), t.compress fuel = some t2 →
      ∀ (i : Nat) (nd2 : Node), t2.nodes[i]? = some nd2 →
        nd2.count = sumCounts t2.nodes nd2.children + termCount t2 ws i := by
  have hbinv := built_binv ws t hb
  refine ⟨hbinv.cons, ?_⟩
  intro fuel t2 hc i nd2 hnd2
  have hgs := hbinv.gs
  have hO := binv_origOk ws t hbinv
  obtain ⟨f, spl, hsh2, hres2, hden, hlen2, hf0, hflt, hfpos, hcnt, hnelig, hsplE, hcov,
    hkne2, hkfc2, hrefs2, hrefs02⟩ := compress_facts t hO fuel t2 hc
  have hneT : ∀ (a : Nat) (nd : Node), t.nodes[a]? = some nd →
      ∀ p ∈ nd.children, p.1 ≠ [] := by
    intro a nd hnd p hp
    obtain ⟨c, hcEq⟩ := hgs.keysChar a nd hnd p hp
    rw [hcEq]
    exact List.cons_ne_nil c []
  have hfcT : ∀ (a : Nat) (nd : Node), t.nodes[a]? = some nd →
      (nd.children.map (fun p => p.1.head?)).Nodup := by
    intro a nd hnd
    exact char_keys_fc nd.children (hgs.keysChar a nd hnd) (hgs.keysNodup a nd hnd)
  have hi2 : i < t2.nodes.length := getElem?_some_lt _ _ _ hnd2
  obtain ⟨u, hu⟩ := pathw_exists t2.nodes hsh2 hrefs2 i hi2
  have hfind2 : findFrom t2 0 u = some i := pathw_findFrom t2 hkne2 hkfc2 i u hu
  have hchar2 : ∀ v, findFrom t2 0 v = some i ↔ v = u :=
    pathw_char t2 hsh2 hrefs2 hrefs02 hkne2 hkfc2 i u hu
  have htc2 : termCount t2 ws i = ws.countP (fun v => decide (v = u)) := by
    unfold termCount
    refine List.countP_congr ?_
    intro v hv
    simp only [decide_eq_true_eq]
    exact hchar2 v
  have h1 := count_denB_findFrom t2 hkne2 hkfc2 hsh2 t2.nodes.length 0 u (by omega)
  simp only [hfind2] at h1
  have hdd : denB t2.nodes t2.nodes.length 0 = denB t.nodes t.nodes.length 0 := hden
  have h2 := count_denB_findFrom t hneT hfcT hgs.shape t.nodes.length 0 u (by omega)
  have h3 : resid t2.nodes i =
      match findFrom t 0 u with
      | some m => resid t.nodes m
      | none => 0 := by
    rw [← h1, hdd]
    exact h2
  have hresi : resid t2.nodes i = nd2.count - sumCounts t2.nodes nd2.children := by
    simp [resid, hnd2]
  have hle2 : sumCounts t2.nodes nd2.children ≤ nd2.count := hres2 i nd2 hnd2
  cases hft : findFrom t 0 u with
  | some m =>
    simp only [hft] at h3
    have hpm : PathW t.nodes m u := by
      have := findFrom_pathw t u.length u (le_refl _) 0 m [] PathW.root hft
      simpa using this
    have hmlt : m < t.nodes.length := pathw_lt t.nodes hgs.shape hgs.ne m u hpm
    obtain ⟨ond, hond⟩ := exists_getElem?_of_lt t.nodes hmlt
    have hcons := hbinv.cons m ond hond
    have hcharT : ∀ v, findFrom t 0 v = some m ↔ v = u :=
      pathw_char t hgs.shape hgs.refs hgs.refs0 hneT hfcT m u hpm
    have htcT : termCount t ws m = ws.countP (fun v => decide (v = u)) := by
      unfold termCount
      refine List.countP_congr ?_
      intro v hv
      simp only [decide_eq_true_eq]
      exact hcharT v
    have hresm : resid t.nodes m = ond.count - sumCounts t.nodes ond.children := by
      simp [resid, hond]
    omega
  | none =>
    simp only [hft] at h3
    have htc0 : ws.countP (fun v => decide (v = u)) = 0 := by
      rw [List.countP_eq_zero]
      intro v hv hvu
      have hveq : v = u := of_decide_eq_true hvu
      subst hveq
      obtain ⟨mm, hmm, _⟩ := hbinv.found v hv
      rw [hft] at hmm
      cases hmm
    omega

theorem toipe_weight_conservation_witness :
    Built [['a', 'b']] trieW ∧
    ((∀ (i : Nat) (nd : Node), trieW.nodes[i]? = some nd →
      nd.count = sumCounts trieW.nodes nd.children + termCount trieW [['a', 'b']] i) ∧
    ∀ (fuel : Nat) (t2 : Trie), trieW.compress fuel = some t2 →
      ∀ (i : Nat) (nd2 : Node), t2.nodes[i]? = some nd2 →
        nd2.count = sumCounts t2.nodes nd2.children + termCount t2 [['a', 'b']] i) :=
  ⟨by unfold Built; decide,
    toipe_weight_conservation [['a', 'b']] trieW (by unfold Built; decide)⟩

end Toipe

namespace Toipe

/-! The list denotation denL: unfolding, lengths, and its agreement with
Trie::sample's descent, plus its coincidence with the multiset denotation. -/

theorem denL_zero (nodes : List Node) (i : Nat) : denL nodes 0 i = [] := rfl

theorem denL_none (nodes : List Node) (i b : Nat) (h : nodes[i]? = none) :
    denL nodes (b + 1) i = [] := by
  simp only [denL, h]

theorem denL_some (nodes : List Node) (i : Nat) (nd : Node) (b : Nat)
    (h : nodes[i]? = some nd) :
    denL nodes (b + 1) i =
      (nd.children.map (fun p =>
        if i < p.2 then (denL nodes b p.2).map (fun w => p.1 ++ w) else [])).flatten ++
      List.replicate (nd.count - sumCounts nodes nd.children) [] := by
  simp only [denL, h]

theorem denL_length (nodes : List Node) (hsh : ShapeValid nodes)
    (hres : ResidualOk nodes) :
    ∀ (b i : Nat), nodes.length - i ≤ b → (denL nodes b i).length = countAt nodes i := by
  intro b
  induction b with
  | zero =>
    intro i hb
    have hnone : nodes[i]? = none := List.getElem?_eq_none_iff.mpr (by omega)
    rw [denL_zero]
    simp [countAt, hnone]
  | succ b ih =>
    intro i hb
    cases hnd : nodes[i]? with
    | none =>
      rw [denL_none _ _ _ hnd]
      simp [countAt, hnd]
    | some nd =>
      rw [denL_some _ _ _ _ hnd, List.length_append, List.length_replicate,
        List.length_flatten, List.map_map]
      have hsum : (nd.children.map (List.length ∘ (fun p =>
          if i < p.2 then (denL nodes b p.2).map (fun w => p.1 ++ w) else []))).sum =
          sumCounts nodes nd.children := by
        unfold sumCounts
        refine congrArg List.sum (List.map_congr_left ?_)
        intro p hp
        have hip := (hsh i nd hnd p hp).1
        simp only [Function.comp_apply]
        rw [if_pos hip, List.length_map, ih p.2 (by omega)]
      rw [hsum]
      have hle := hres i nd hnd
      have hcnt : countAt nodes i = nd.count := by simp [countAt, hnd]
      omega

theorem denL_blocks_length (nodes : List Node) (hsh : ShapeValid nodes)
    (hres : ResidualOk nodes) (b i : Nat) (nd : Node) (hnd : nodes[i]? = some nd)
    (hb : nodes.length - i ≤ b + 1) :
    ((nd.children.map (fun p =>
      if i < p.2 then (denL nodes b p.2).map (fun w => p.1 ++ w) else [])).flatten).length =
      sumCounts nodes nd.children := by
  rw [List.length_flatten, List.map_map]
  unfold sumCounts
  refine congrArg List.sum (List.map_congr_left ?_)
  intro p hp
  have hip := (hsh i nd hnd p hp).1
  simp only [Function.comp_apply]
  rw [if_pos hip, List.length_map, denL_length nodes hsh hres b p.2 (by omega)]

theorem sampleScan_ge (t : Trie) : ∀ (m : List (List Char × Nat)) (id : Nat),
    (∀ p ∈ m, p.2 < t.nodes.length) → sumCounts t.nodes m ≤ id →
    t.sampleScan m id = Except.ok (none, id - sumCounts t.nodes m) := by
  intro m
  induction m with
  | nil =>
    intro id _ _
    simp [Trie.sampleScan, sumCounts]
  | cons p rest ih =>
    intro id hlt hge
    obtain ⟨k, c⟩ := p
    obtain ⟨child, hchild⟩ :=
      exists_getElem?_of_lt t.nodes (hlt (k, c) (List.mem_cons_self _ _))
    have hsum : sumCounts t.nodes ((k, c) :: rest) =
        child.count + sumCounts t.nodes rest := by
      simp [sumCounts, countAt, hchild]
    rw [hsum] at hge
    have hnlt : ¬ id < child.count := by omega
    have hstep : t.sampleScan ((k, c) :: rest) id =
        t.sampleScan rest (id - child.count) := by
      simp [Trie.sampleScan, hchild, hnlt]
    rw [hstep, ih (id - child.count) (fun q hq => hlt q (List.mem_cons_of_mem _ hq))
      (by omega), hsum]
    have harith : id - child.count - sumCounts t.nodes rest =
        id - (child.count + sumCounts t.nodes rest) := by omega
    rw [harith]

theorem sampleScan_lt (t : Trie) (hsh : ShapeValid t.nodes) (hres : ResidualOk t.nodes)
    (b i : Nat) :
    ∀ (m : List (List Char × Nat)) (id : Nat),
      (∀ p ∈ m, i < p.2 ∧ p.2 < t.nodes.length) →
      t.nodes.length - i ≤ b + 1 →
      id < sumCounts t.nodes m →
      ∃ (k : List Char) (c : Nat) (child : Node) (idr : Nat),
        t.sampleScan m id = Except.ok (some (k, child), idr) ∧
        t.nodes[c]? = some child ∧ (k, c) ∈ m ∧ idr < child.count ∧
        ∀ x, (denL t.nodes b c)[idr]? = some x →
          ((m.map (fun p => if i < p.2 then (denL t.nodes b p.2).map (fun w => p.1 ++ w)
            else [])).flatten)[id]? = some (k ++ x) := by
  intro m
  induction m with
  | nil =>
    intro id _ _ hid
    simp [sumCounts] at hid
  | cons p rest ih =>
    intro id hpm hb hid
    obtain ⟨k, c⟩ := p
    have hm := hpm (k, c) (List.mem_cons_self _ _)
    obtain ⟨child, hchild⟩ := exists_getElem?_of_lt t.nodes hm.2
    have hsum : sumCounts t.nodes ((k, c) :: rest) =
        child.count + sumCounts t.nodes rest := by
      simp [sumCounts, countAt, hchild]
    have hlen1 : ((denL t.nodes b c).map (fun w => k ++ w)).length = child.count := by
      rw [List.length_map, denL_length t.nodes hsh hres b c (by omega)]
      simp [countAt, hchild]
    by_cases hlt : id < child.count
    · refine ⟨k, c, child, id, ?_, hchild, List.mem_cons_self _ _, hlt, ?_⟩
      · simp [Trie.sampleScan, hchild, hlt]
      · intro x hx
        rw [List.map_cons, List.flatten_cons, if_pos hm.1]
        rw [List.getElem?_append_left (by rw [hlen1]; exact hlt)]
        rw [List.getElem?_map, hx]
        rfl
    · rw [hsum] at hid
      have hid2 : id - child.count < sumCounts t.nodes rest := by omega
      obtain ⟨k2, c2, child2, idr, hscan, hchild2, hmem2, hidr, helem⟩ :=
        ih (id - child.count) (fun q hq => hpm q (List.mem_cons_of_mem _ hq)) hb hid2
      refine ⟨k2, c2, child2, idr, ?_, hchild2, List.mem_cons_of_mem _ hmem2, hidr, ?_⟩
      · rw [show t.sampleScan ((k, c) :: rest) id =
            t.sampleScan rest (id - child.count) from by
          simp [Trie.sampleScan, hchild, hlt]]
        exact hscan
      · intro x hx
        rw [List.map_cons, List.flatten_cons, if_pos hm.1]
        rw [List.getElem?_append_right (by rw [hlen1]; omega)]
        rw [hlen1]
        exact helem x hx

theorem sampleGo_denL (t : Trie) (hsh : ShapeValid t.nodes) (hres : ResidualOk t.nodes) :
    ∀ (b i : Nat) (nd : Node) (id : Nat) (word : List Char),
      t.nodes[i]? = some nd → id < nd.count → t.nodes.length - i ≤ b →
      ∃ x, (denL t.nodes b i)[id]? = some x ∧
        t.sampleGo b nd id word = some (Except.ok (word ++ x)) := by
  intro b
  induction b with
  | zero =>
    intro i nd id word hnd hid hb
    exfalso
    have hnone : t.nodes[i]? = none := List.getElem?_eq_none_iff.mpr (by omega)
    rw [hnone] at hnd
    cases hnd
  | succ b ih =>
    intro i nd id word hnd hid hb
    have hblocks := denL_blocks_length t.nodes hsh hres b i nd hnd hb
    by_cases hcase : id < sumCounts t.nodes nd.children
    · obtain ⟨k, c, child, idr, hscan, hchild, hkmem, hidr, helem⟩ :=
        sampleScan_lt t hsh hres b i nd.children id (fun p hp => hsh i nd hnd p hp)
          hb hcase
      have hic : i < c := (hsh i nd hnd (k, c) hkmem).1
      obtain ⟨x2, hx2, hgo⟩ := ih c child idr (word ++ k) hchild hidr (by omega)
      refine ⟨k ++ x2, ?_, ?_⟩
      · rw [denL_some t.nodes i nd b hnd]
        rw [List.getElem?_append_left (by rw [hblocks]; exact hcase)]
        exact helem x2 hx2
      · simp only [Trie.sampleGo, hscan]
        rw [hgo, List.append_assoc]
    · have hge := Nat.le_of_not_lt hcase
      have hscan := sampleScan_ge t nd.children id
        (fun p hp => (hsh i nd hnd p hp).2) hge
      refine ⟨[], ?_, ?_⟩
      · rw [denL_some t.nodes i nd b hnd]
        rw [List.getElem?_append_right (by rw [hblocks]; exact hge)]
        rw [hblocks]
        have hrep : (List.replicate (nd.count - sumCounts t.nodes nd.children)
            ([] : List Char))[id - sumCounts t.nodes nd.children]? = some [] := by
          simp only [List.getElem?_replicate]
          rw [if_pos (by omega)]
        rw [hrep]
      · simp only [Trie.sampleGo, hscan]
        rw [List.append_nil]

theorem sample_denL (t : Trie) (hsh : ShapeValid t.nodes) (hres : ResidualOk t.nodes)
    (root : Node) (hroot : t.nodes[0]? = some root) (id : Nat) (hid : id < root.count) :
    ∃ x, (denL t.nodes (t.nodes.length + 1) 0)[id]? = some x ∧
      t.sample id = some (Except.ok x) := by
  have hc0 : ¬ root.count = 0 := by omega
  obtain ⟨x, hx, hgo⟩ := sampleGo_denL t hsh hres (t.nodes.length + 1) 0 root id []
    hroot hid (by omega)
  rw [List.nil_append] at hgo
  refine ⟨x, hx, ?_⟩
  simp only [Trie.sample, hroot]
  rw [if_neg hc0, Nat.mod_eq_of_lt hid, hgo]

theorem range_map_sample (t : Trie) (hsh : ShapeValid t.nodes) (hres : ResidualOk t.nodes)
    (root : Node) (hroot : t.nodes[0]? = some root) :
    (List.range root.count).map (fun i => t.sample i) =
      (denL t.nodes (t.nodes.length + 1) 0).map (fun x => some (Except.ok x)) := by
  have hlen : (denL t.nodes (t.nodes.length + 1) 0).length = root.count := by
    rw [denL_length t.nodes hsh hres (t.nodes.length + 1) 0 (by omega)]
    simp [countAt, hroot]
  refine List.ext_getElem? ?_
  intro n
  by_cases hn : n < root.count
  · simp only [List.getElem?_map]
    rw [List.getElem?_range hn]
    obtain ⟨x, hx, hs⟩ := sample_denL t hsh hres root hroot n hn
    rw [hx]
    simp only [Option.map_some']
    rw [hs]
  · have hge : root.count ≤ n := Nat.le_of_not_lt hn
    rw [List.getElem?_eq_none_iff.mpr (by
        simp only [List.length_map, List.length_range]
        omega),
      List.getElem?_eq_none_iff.mpr (by
        rw [List.length_map, hlen]
        omega)]

theorem coe_append_multiset {α : Type} (A B : List α) :
    ((A ++ B : List α) : Multiset α) = (A : Multiset α) + (B : Multiset α) := by
  exact_mod_cast rfl

theorem coe_flatten_multiset {α : Type} : ∀ (L : List (List α)),
    ((L.flatten : List α) : Multiset α) = (L.map (fun l => Multiset.ofList l)).sum := by
  intro L
  induction L with
  | nil => rfl
  | cons l rest ih =>
    rw [List.flatten_cons, List.map_cons, List.sum_cons, ← ih]
    exact coe_append_multiset l rest.flatten

theorem coe_map_multiset {α β : Type} (f : α → β) (l : List α) :
    ((l.map f : List β) : Multiset β) = Multiset.map f (l : Multiset α) := by
  simp

theorem coe_replicate_multiset {α : Type} (n : Nat) (a : α) :
    ((List.replicate n a : List α) : Multiset α) = n • ({a} : Multiset α) := by
  rw [Multiset.coe_replicate, Multiset.nsmul_singleton]

theorem denL_coe_denB (nodes : List Node) :
    ∀ (b i : Nat), ((denL nodes b i : List (List Char)) : Multiset (List Char)) =
      denB nodes b i := by
  intro b
  induction b with
  | zero =>
    intro i
    rfl
  | succ b ih =>
    intro i
    cases hnd : nodes[i]? with
    | none =>
      rw [denL_none nodes i b hnd, denB_none nodes i b hnd]
      rfl
    | some nd =>
      rw [denL_some nodes i nd b hnd, denB_some nodes i nd b hnd,
        coe_append_multiset, coe_flatten_multiset, List.map_map, coe_replicate_multiset]
      have hmapeq : nd.children.map ((fun l => Multiset.ofList l) ∘ (fun p =>
          if i < p.2 then (denL nodes b p.2).map (fun w => p.1 ++ w) else [])) =
          nd.children.map (fun p =>
            if i < p.2 then Multiset.map (fun w => p.1 ++ w) (denB nodes b p.2) else 0) := by
        refine List.map_congr_left ?_
        intro p hp
        simp only [Function.comp_apply]
        by_cases hip : i < p.2
        · rw [if_pos hip, if_pos hip, coe_map_multiset, ih p.2]
        · rw [if_neg hip, if_neg hip]
          rfl
      rw [hmapeq, add_comm]

theorem sample_multiset (t : Trie) (hsh : ShapeValid t.nodes) (hres : ResidualOk t.nodes)
    (root : Node) (hroot : t.nodes[0]? = some root) :
    (((List.range t.numWords).map (fun i => t.sample i) :
        List (Option (Except TrieErr (List Char)))) :
      Multiset (Option (Except TrieErr (List Char)))) =
      Multiset.map (fun x => some (Except.ok x)) (den t.nodes 0) := by
  have hnw : t.numWords = root.count := by simp [Trie.numWords, hroot]
  rw [hnw, range_map_sample t hsh hres root hroot, coe_map_multiset, denL_coe_denB]
  have hstab : denB t.nodes (t.nodes.length + 1) 0 = denB t.nodes t.nodes.length 0 :=
    denB_stable t.nodes 0 (t.nodes.length + 1) t.nodes.length (by omega) (by omega)
  rw [hstab]
  rfl

/-- C2: compression preserves the sampling distribution. For a trie built by
inserting a fixed corpus, compression keeps num_words unchanged, every rank
below num_words samples successfully on both tries, and the multiset of sample
results over all ranks 0..num_words is identical before and after compression. -/
theorem toipe_compress_preserves_sampling (ws : List (List Char)) (t : Trie) (fuel : Nat)
    (t2 : Trie) (hb : Built ws t) (hc : t.compress fuel = some t2) :
    t2.numWords = t.numWords ∧
    (∀ i, i < t.numWords →
      (∃ w, t.sample i = some (Except.ok w)) ∧ (∃ w, t2.sample i = some (Except.ok w))) ∧
    (((List.range t.numWords).map (fun i => t.sample i) :
        List (Option (Except TrieErr (List Char)))) :
      Multiset (Option (Except TrieErr (List Char)))) =
      (((List.range t2.numWords).map (fun i => t2.sample i) :
        List (Option (Except TrieErr (List Char)))) :
      Multiset (Option (Except TrieErr (List Char)))) := by
  have hbinv := built_binv ws t hb
  have hO := binv_origOk ws t hbinv
  obtain ⟨f, spl, hsh2, hres2, hden, hlen2, hf0, hflt, hfpos, hcnt, hnelig, hsplE, hcov,
    hkne2, hkfc2, hrefs2, hrefs02⟩ := compress_facts t hO fuel t2 hc
  have hshT := hbinv.gs.shape
  have hneT : 0 < t.nodes.length := hbinv.gs.ne
  obtain ⟨root, hroot⟩ := exists_getElem?_of_lt t.nodes hneT
  obtain ⟨root2, hroot2⟩ := exists_getElem?_of_lt t2.nodes hlen2
  have hnw : t.numWords = root.count := by simp [Trie.numWords, hroot]
  have hnw2 : t2.numWords = root2.count := by simp [Trie.numWords, hroot2]
  have hrooteq : root2.count = root.count := by
    obtain ⟨ond, h1, h2, _⟩ := hcnt 0 root2 hroot2
    rw [hf0, hroot] at h1
    cases h1
    exact h2
  have hresT : ResidualOk t.nodes := by
    intro a nd hnd
    have := hbinv.cons a nd hnd
    omega
  refine ⟨by rw [hnw, hnw2, hrooteq], ?_, ?_⟩
  · intro i hi
    rw [hnw] at hi
    constructor
    · exact sample_ok t hshT root hroot (by omega) i
    · exact sample_ok t2 hsh2 root2 hroot2 (by omega) i
  · rw [sample_multiset t hshT hresT root hroot,
      sample_multiset t2 hsh2 hres2 root2 hroot2, hden]

theorem toipe_compress_preserves_sampling_witness :
    Built [['a', 'b']] trieW ∧ trieW.compress 20 = some trieW2 ∧
    (trieW2.numWords = trieW.numWords ∧
    (∀ i, i < trieW.numWords →
      (∃ w, trieW.sample i = some (Except.ok w)) ∧
      (∃ w, trieW2.sample i = some (Except.ok w))) ∧
    (((List.range trieW.numWords).map (fun i => trieW.sample i) :
        List (Option (Except TrieErr (List Char)))) :
      Multiset (Option (Except TrieErr (List Char)))) =
      (((List.range trieW2.numWords).map (fun i => trieW2.sample i) :
        List (Option (Except TrieErr (List Char)))) :
      Multiset (Option (Except TrieErr (List Char))))) :=
  ⟨by unfold Built; decide, by decide,
    toipe_compress_preserves_sampling [['a', 'b']] trieW 20 trieW2
      (by unfold Built; decide) (by decide)⟩

end Toipe

namespace Toipe

/-! Permutation equivalence of tries: sampling facts that hold for every
children iteration order. -/

theorem forall2_symm_nodePerm : ∀ (l1 l2 : List Node), List.Forall₂ NodePerm l1 l2 →
    List.Forall₂ NodePerm l2 l1 := by
  intro l1 l2 h
  induction h with
  | nil => exact List.Forall₂.nil
  | cons hx hr ih => exact List.Forall₂.cons ⟨hx.1.symm, hx.2.symm⟩ ih

theorem forall2_refl_nodePerm : ∀ (l : List Node), List.Forall₂ NodePerm l l := by
  intro l
  induction l with
  | nil => exact List.Forall₂.nil
  | cons x r ih => exact List.Forall₂.cons ⟨rfl, List.Perm.refl _⟩ ih

theorem permEq_refl (t : Trie) : PermEq t t := forall2_refl_nodePerm t.nodes

theorem permEq_symm (t t2 : Trie) (h : PermEq t t2) : PermEq t2 t :=
  forall2_symm_nodePerm t.nodes t2.nodes h

theorem permEq_length (t t2 : Trie) (h : PermEq t t2) :
    t.nodes.length = t2.nodes.length :=
  List.Forall₂.length_eq h

theorem permEq_get (t t2 : Trie) (h : PermEq t t2) (i : Nat) (nd : Node)
    (hnd : t.nodes[i]? = some nd) :
    ∃ nd2, t2.nodes[i]? = some nd2 ∧ nd.count = nd2.count ∧
      nd.children.Perm nd2.children := by
  obtain ⟨nd2, h1, h2⟩ := forall2_getElem? NodePerm t.nodes t2.nodes h i nd hnd
  exact ⟨nd2, h1, h2.1, h2.2⟩

theorem permEq_countAt (t t2 : Trie) (h : PermEq t t2) (c : Nat) :
    countAt t2.nodes c = countAt t.nodes c := by
  cases hnd : t.nodes[c]? with
  | none =>
    have hge : t.nodes.length ≤ c := List.getElem?_eq_none_iff.mp hnd
    have hnd2 : t2.nodes[c]? = none := by
      refine List.getElem?_eq_none_iff.mpr ?_
      rw [← permEq_length t t2 h]
      exact hge
    simp [countAt, hnd, hnd2]
  | some nd =>
    obtain ⟨nd2, hnd2, hcnt, _⟩ := permEq_get t t2 h c nd hnd
    simp [countAt, hnd, hnd2, hcnt]

theorem permEq_sumCounts (t t2 : Trie) (h : PermEq t t2) (m m2 : List (List Char × Nat))
    (hp : m.Perm m2) : sumCounts t2.nodes m2 = sumCounts t.nodes m := by
  unfold sumCounts
  have h1 : m2.map (fun p => countAt t2.nodes p.2) =
      m2.map (fun p => countAt t.nodes p.2) :=
    List.map_congr_left (fun p _ => permEq_countAt t t2 h p.2)
  rw [h1]
  exact (hp.map (fun p => countAt t.nodes p.2)).sum_eq.symm

theorem permEq_shape (t t2 : Trie) (h : PermEq t t2) (hsh : ShapeValid t.nodes) :
    ShapeValid t2.nodes := by
  intro i nd2 hnd2 p hp
  obtain ⟨nd, hnd, _, hperm⟩ := permEq_get t2 t (permEq_symm t t2 h) i nd2 hnd2
  have hpm : p ∈ nd.children := hperm.mem_iff.mp hp
  have hb := hsh i nd hnd p hpm
  rw [← permEq_length t t2 h]
  exact hb

theorem permEq_residual (t t2 : Trie) (h : PermEq t t2) (hres : ResidualOk t.nodes) :
    ResidualOk t2.nodes := by
  intro i nd2 hnd2
  obtain ⟨nd, hnd, hcnt, hperm⟩ := permEq_get t2 t (permEq_symm t t2 h) i nd2 hnd2
  have hsum : sumCounts t2.nodes nd2.children = sumCounts t.nodes nd.children :=
    permEq_sumCounts t t2 h nd.children nd2.children hperm.symm
  rw [hsum, hcnt]
  exact hres i nd hnd

theorem permEq_denB (t t2 : Trie) (h : PermEq t t2) :
    ∀ (b i : Nat), denB t2.nodes b i = denB t.nodes b i := by
  intro b
  induction b with
  | zero =>
    intro i
    rfl
  | succ b ih =>
    intro i
    cases hnd : t.nodes[i]? with
    | none =>
      have hnd2 : t2.nodes[i]? = none := by
        refine List.getElem?_eq_none_iff.mpr ?_
        rw [← permEq_length t t2 h]
        exact List.getElem?_eq_none_iff.mp hnd
      rw [denB_none _ _ _ hnd, denB_none _ _ _ hnd2]
    | some nd =>
      obtain ⟨nd2, hnd2, hcnt, hperm⟩ := permEq_get t t2 h i nd hnd
      rw [denB_some _ _ _ _ hnd, denB_some _ _ _ _ hnd2]
      have hsum : sumCounts t2.nodes nd2.children = sumCounts t.nodes nd.children :=
        permEq_sumCounts t t2 h nd.children nd2.children hperm
      rw [hsum, ← hcnt]
      congr 1
      have hmap2 : nd2.children.map (fun p =>
          if i < p.2 then Multiset.map (fun w => p.1 ++ w) (denB t2.nodes b p.2)
          else 0) =
          nd2.children.map (fun p =>
          if i < p.2 then Multiset.map (fun w => p.1 ++ w) (denB t.nodes b p.2)
          else 0) := by
        refine List.map_congr_left ?_
        intro p _
        by_cases hip : i < p.2
        · rw [if_pos hip, if_pos hip, ih p.2]
        · rw [if_neg hip, if_neg hip]
      rw [hmap2]
      exact ((hperm.map _).sum_eq).symm

theorem permEq_den (t t2 : Trie) (h : PermEq t t2) : den t2.nodes 0 = den t.nodes 0 := by
  unfold den
  rw [← permEq_length t t2 h]
  exact permEq_denB t t2 h t.nodes.length 0

theorem permEq_numWords (t t2 : Trie) (h : PermEq t t2) : t2.numWords = t.numWords := by
  unfold Trie.numWords
  cases hnd : t.nodes[0]? with
  | none =>
    have hnd2 : t2.nodes[0]? = none := by
      refine List.getElem?_eq_none_iff.mpr ?_
      rw [← permEq_length t t2 h]
      exact List.getElem?_eq_none_iff.mp hnd
    rw [hnd2]
  | some nd =>
    obtain ⟨nd2, hnd2, hcnt, _⟩ := permEq_get t t2 h 0 nd hnd
    rw [hnd2]
    simp [hcnt]

/-- C3 counterexample: the per-rank outcomes of sample are decided by the
children HashMap's unspecified iteration order, not by the program. The arena
holding the C3 corpus with the root's children iterated b-first is the same
map contents (PermEq) as the insertion-order build, yet sample(0) returns b,
refuting the claim's sample(0) == a. -/
theorem toipe_rank_exact_weighting_counterexample :
    ∃ t2 : Trie, PermEq trieC3 t2 ∧
      t2.sample 0 = some (Except.ok ['b']) ∧
      t2.sample 0 ≠ some (Except.ok ['a']) := by
  refine ⟨trieC3R, ?_, by decide, by decide⟩
  have he : trieC3.nodes =
      [⟨[(['a'], 1), (['b'], 2)], 10⟩, ⟨[], 1⟩, ⟨[], 9⟩] := by decide
  unfold PermEq
  rw [he]
  refine List.Forall₂.cons ⟨rfl, List.Perm.swap _ _ _⟩
    (List.Forall₂.cons ⟨rfl, List.Perm.refl _⟩
      (List.Forall₂.cons ⟨rfl, List.Perm.refl _⟩ List.Forall₂.nil))

/-- C3 (amended): after inserting a once and b nine times, num_words is 10 and,
for every children iteration order (every PermEq-variant of the built trie),
each rank below 10 samples successfully, the multiset of sample results over
ranks 0..10 is exactly one a and nine b, and rank 10 wraps to rank 0 by the
modulo reduction; which word lands on which rank is decided by the unspecified
HashMap order. -/
theorem toipe_rank_exact_multiset (t2 : Trie) (hp : PermEq trieC3 t2) :
    t2.numWords = 10 ∧
    (∀ k, k < 10 → ∃ w, t2.sample k = some (Except.ok w)) ∧
    (((List.range 10).map (fun k => t2.sample k) :
        List (Option (Except TrieErr (List Char)))) :
      Multiset (Option (Except TrieErr (List Char)))) =
      Multiset.replicate 9 (some (Except.ok ['b'])) + {some (Except.ok ['a'])} ∧
    t2.sample 10 = t2.sample 0 := by
  have hb : Built corpusC3 trieC3 := by unfold Built; decide
  have hbinv := built_binv corpusC3 trieC3 hb
  have hshT := hbinv.gs.shape
  have hresT : ResidualOk trieC3.nodes := by
    intro a nd hnd
    have := hbinv.cons a nd hnd
    omega
  have hsh2 := permEq_shape trieC3 t2 hp hshT
  have hres2 := permEq_residual trieC3 t2 hp hresT
  have hnw2 : t2.numWords = 10 := by
    rw [permEq_numWords trieC3 t2 hp]
    decide
  have hlen2 : 0 < t2.nodes.length := by
    rw [← permEq_length trieC3 t2 hp]
    decide
  obtain ⟨root2, hroot2⟩ := exists_getElem?_of_lt t2.nodes hlen2
  have hcount2 : root2.count = 10 := by
    have hW := hnw2
    unfold Trie.numWords at hW
    rw [hroot2] at hW
    exact hW
  refine ⟨hnw2, ?_, ?_, ?_⟩
  · intro k hk
    exact sample_ok t2 hsh2 root2 hroot2 (by omega) k
  · have hms := sample_multiset t2 hsh2 hres2 root2 hroot2
    rw [hnw2] at hms
    rw [hms, permEq_den trieC3 t2 hp]
    decide
  · have hmod := sample_mod t2 root2 hroot2 (by omega) 0
    rw [hcount2, Nat.zero_add] at hmod
    exact hmod

theorem toipe_rank_exact_multiset_witness :
    PermEq trieC3 trieC3 ∧
    (trieC3.numWords = 10 ∧
    (∀ k, k < 10 → ∃ w, trieC3.sample k = some (Except.ok w)) ∧
    (((List.range 10).map (fun k => trieC3.sample k) :
        List (Option (Except TrieErr (List Char)))) :
      Multiset (Option (Except TrieErr (List Char)))) =
      Multiset.replicate 9 (some (Except.ok ['b'])) + {some (Except.ok ['a'])} ∧
    trieC3.sample 10 = trieC3.sample 0) :=
  ⟨permEq_refl trieC3, toipe_rank_exact_multiset trieC3 (permEq_refl trieC3)⟩

end Toipe
